import Mathlib

/-!
Verification of the nifdocsys schema compiler (nifxml.py / gen_niflib.py).

This file gives a shallow embedding, in Lean 4, of the parts of the code
that the spec's claims are about:

* the conditional-expression language of `nifxml.Expression`
  (`scanBrackets`, `_partition`, `_parse`, `code`),
* the per-member derived facts computed in `nifxml.Member.__init__`
  (`is_duplicate`, `arr1_ref` / `arr2_ref` / `cond_ref`),
* the emission engine `gen_niflib.CFile.stream` together with the
  `CFile.code` formatter, and
* `gen_niflib.extract_custom_code`.

Python strings are modelled as `List Char` (with `String` wrappers at the
boundary); Python `None` becomes `Option`; in-place mutation becomes
explicit state passing; a `raise` becomes an `Except` error value.
-/

deriving instance DecidableEq for Except

namespace Py

/-- Python `str.isdigit()` for ASCII content: non-empty and all digits. -/
def pyIsdigit (l : List Char) : Bool :=
  !l.isEmpty && l.all Char.isDigit

/-- Python `str.lstrip()` (default whitespace). -/
def lstripWs (l : List Char) : List Char :=
  l.dropWhile Char.isWhitespace

/-- Python `str.rstrip()` (default whitespace). -/
def rstripWs (l : List Char) : List Char :=
  (l.reverse.dropWhile Char.isWhitespace).reverse

/-- Python `str.strip()` (default whitespace). -/
def stripWs (l : List Char) : List Char :=
  rstripWs (lstripWs l)

/-- Python `str.lstrip(' !')`: drop leading spaces and exclamation marks. -/
def lstripSpaceBang (l : List Char) : List Char :=
  l.dropWhile (fun c => c = ' ' || c = '!')

/-- Python `sub in s` on strings (substring containment). -/
def containsSub (l sub : List Char) : Bool :=
  decide (sub <:+: l)

/-- Python truthiness of a string: non-empty. -/
def strTruthy (l : List Char) : Bool := !l.isEmpty

/-- Python `int(s)` for the shapes that occur in the XML attributes:
optional whitespace, optional sign, digits. Returns `none` on `ValueError`. -/
def pyInt (l : List Char) : Option Int :=
  let core := stripWs l
  let (neg, digits) :=
    match core with
    | '-' :: rest => (true, rest)
    | '+' :: rest => (false, rest)
    | _ => (false, core)
  if pyIsdigit digits then
    let n : Nat := digits.foldl (fun acc c => acc * 10 + (c.toNat - '0'.toNat)) 0
    some (if neg then -(n : Int) else (n : Int))
  else
    none

/-- One upper-case hexadecimal digit. -/
def hexChar (d : Nat) : Char :=
  if d < 10 then Char.ofNat ('0'.toNat + d) else Char.ofNat ('A'.toNat + (d - 10))

/-- Upper-case hexadecimal digits of `n` (empty for 0); the first argument
is fuel (`n` itself always suffices, since `n / 16 < n`). -/
def hexDigitsAux : Nat → Nat → List Char
  | 0, _ => []
  | fuelN + 1, n => if n = 0 then [] else hexDigitsAux fuelN (n / 16) ++ [hexChar (n % 16)]

/-- Upper-case hexadecimal digits of `n` (empty for 0). -/
def hexDigits (n : Nat) : List Char :=
  hexDigitsAux n n

/-- Python `"0x%08X" % n`: zero-padded upper-case hex with `0x`. -/
def hex08 (n : Nat) : List Char :=
  let ds := if n = 0 then ['0'] else hexDigits n
  let pad := List.replicate (8 - ds.length) '0'
  '0' :: 'x' :: (pad ++ ds)

end Py

namespace Nifxml

open Py

/-- The operator vocabulary of `Expression.operators`, in source order. -/
def operators : List (List Char) :=
  [['=', '='], ['!', '='], ['>', '='], ['<', '='], ['&', '&'], ['|', '|'],
   ['&'], ['|'], ['-'], ['+'], ['>'], ['<'], ['/'], ['*']]

/-- Error produced while building an `Expression`: one of the
`ValueError`s the source raises and `_parse` does not catch (carrying its
message), the uncaught `AssertionError` of `version2number`'s
`assert False`, or fuel exhaustion of the embedding (modelling the
`RecursionError` of a constructor call that never makes progress). -/
inductive PErr where
  | syn : String → PErr
  | assertFail : PErr
  | fuel : PErr
  deriving Repr, DecidableEq

/-- A parsed term: either a plain string terminal (name / numeric literal /
version literal, as `Expression._parse` returns them) or a nested
`Expression` node `(_left, _op, _right)` plus the `clhs` attribute that
`CFile.stream` may attach by mutation (initially absent). -/
inductive PTerm where
  | str : List Char → PTerm
  | expr : PTerm → List Char → PTerm → Option (List Char) → PTerm
  deriving Repr, DecidableEq

namespace PTerm

/-- Python truthiness of a `_left` / `_right` slot: an `Expression` object is
always truthy, a string is truthy iff non-empty. -/
def truthy : PTerm → Bool
  | .str s => strTruthy s
  | .expr _ _ _ _ => true

/-- `Expression.isdigit` duck-typing: an `Expression` pretends `isdigit()`
is `False`; a string side uses `str.isdigit`. -/
def isdigit : PTerm → Bool
  | .str s => pyIsdigit s
  | .expr _ _ _ _ => false

/-- `lhs` of a parsed expression node (a bare string term is its own lhs,
matching `_partition` which puts the whole string into the left side). -/
def lhs : PTerm → PTerm
  | .str s => .str s
  | .expr l _ _ _ => l

/-- `op` of a parsed expression node. -/
def op : PTerm → List Char
  | .str _ => []
  | .expr _ o _ _ => o

/-- `rhs` of a parsed expression node. -/
def rhs : PTerm → PTerm
  | .str _ => .str []
  | .expr _ _ r _ => r

end PTerm

/-- `Expression._scanBrackets` / module-level `scanBrackets`: one pass with
a depth counter. `none` plays the role of the source's `-1`. Mirrors the
Python loop: `startpos` is the first `'('`, and the scan breaks at the
first `')'` that brings the depth to zero; reaching the end with a bracket
seen raises the non-matching-brackets `ValueError`. -/
def scanBracketsGo : List Char → Nat → Option Nat → Int → Except PErr (Option Nat × Option Nat)
  | [], _, start, _ =>
    if start.isSome then
      .error (.syn "expression syntax error (non-matching brackets?)")
    else
      .ok (none, none)
  | c :: cs, pos, start, depth =>
    if c = '(' then
      scanBracketsGo cs (pos + 1) (if start.isSome then start else some pos) (depth + 1)
    else if c = ')' then
      if depth - 1 = 0 then
        .ok (start, some pos)
      else
        scanBracketsGo cs (pos + 1) start (depth - 1)
    else
      scanBracketsGo cs (pos + 1) start depth

/-- `scanBrackets(expr_str)` with `fromIndex = 0` (the only call shape the
generator uses). -/
def scanBrackets (l : List Char) : Except PErr (Option Nat × Option Nat) :=
  scanBracketsGo l 0 none 0

/-- The inner operator scan of `_partition`'s else-branch: walk the string;
spaces are skipped, a bracket raises, and at each other position the
two-character slice is tried before the one-character slice. Returns
`(op_startpos, op_endpos)` of the first operator found, or `none` when the
scan completes without finding one. -/
def opScan : List Char → Nat → Except PErr (Option (Nat × Nat × List Char))
  | [], _ => .ok none
  | c :: cs, p =>
    if c = ' ' then
      opScan cs (p + 1)
    else if c = '(' || c = ')' then
      .error (.syn "expression syntax error: expected operator before bracket")
    else
      let cand2 := c :: cs.take 1
      if operators.contains cand2 then
        .ok (some (p, p + 1, cand2))
      else if operators.contains [c] then
        .ok (some (p, p, [c]))
      else
        opScan cs (p + 1)

/-- Result triple of `_partition`: `(left, op, right)`, with `right = none`
for the unary case (Python returns `None` there). -/
abbrev PartRes := List Char × List Char × Option (List Char)

/-- `Expression._partition`, on `List Char`, with fuel for its one
self-recursive call (`return cls._partition(left_str)`). -/
def partitionGo : Nat → List Char → Except PErr PartRes
  | 0, _ => .error .fuel
  | fuelN + 1, l =>
    -- check for unary operators
    if (stripWs l).head? = some '!' then
      .ok (lstripSpaceBang l, ['!'], none)
    else
      -- check if the left hand side "starts" with brackets: the source
      -- really tests whether scanBrackets found a bracket pair anywhere
      match scanBrackets l with
      | .error e => .error e
      | .ok (some st, some en) =>
        let left := stripWs ((l.drop (st + 1)).take (en - (st + 1)))
        let rest := l.drop (en + 1)
        let restS := rest.dropWhile (· = ' ')
        if restS.isEmpty then
          partitionGo fuelN left
        else
          -- scan for operators of two characters, then one character
          let cand2 := restS.take 2
          if operators.contains cand2 then
            .ok (left, cand2, some (stripWs (restS.drop 2)))
          else if operators.contains (restS.take 1) then
            .ok (left, restS.take 1, some (stripWs (restS.drop 1)))
          else
            .error (.syn "expression syntax error: expected operator")
      | .ok _ =>
        -- no bracket pair: scan left-to-right for the first operator
        match opScan l 0 with
        | .error e => .error e
        | .ok none => .ok (stripWs l, [], some [])
        | .ok (some (ps, pe, opStr)) =>
          .ok (stripWs (l.take ps), opStr, some (stripWs (l.drop (pe + 1))))

/-- `Expression._partition` with enough fuel for any input. -/
def partition (l : List Char) : Except PErr PartRes :=
  partitionGo (l.length + 1) l

/-- String-level wrapper of `partition`, for stating claims the way the
source's doctests do. -/
def partitionStr (s : String) : Except PErr (String × String × String) :=
  match partition s.data with
  | .error e => .error e
  | .ok (le, op, r) => .ok (String.mk le, String.mk op, String.mk (r.getD []))

/-- Does the numeric-version regular expression
`[0-9]+\.[0-9]+\.[0-9]+\.[0-9]+` match (anchored at the start, as
`re.match` is)? -/
def mverMatch (l : List Char) : Bool :=
  let g1 := l.takeWhile Char.isDigit
  let r1 := l.drop g1.length
  match g1, r1 with
  | [], _ => false
  | _, '.' :: r1' =>
    let g2 := r1'.takeWhile Char.isDigit
    let r2 := r1'.drop g2.length
    match g2, r2 with
    | [], _ => false
    | _, '.' :: r2' =>
      let g3 := r2'.takeWhile Char.isDigit
      let r3 := r2'.drop g3.length
      match g3, r3 with
      | [], _ => false
      | _, '.' :: r3' => !(r3'.takeWhile Char.isDigit).isEmpty
      | _, _ => false
    | _, _ => false
  | _, _ => false

/-- `re.match("[0-9]+", s)`: the string starts with a digit. -/
def iverMatch (l : List Char) : Bool :=
  match l with
  | [] => false
  | c :: _ => c.isDigit

/-- Python `s.split('.')`: cut at every dot, keeping empty pieces (so the
result is never the empty list). -/
def splitDot : List Char → List (List Char)
  | [] => [[]]
  | c :: cs =>
    if c = '.' then [] :: splitDot cs
    else
      match splitDot cs with
      | [] => [[c]]
      | p :: ps => (c :: p) :: ps

/-- `version2number`: packs a dotted version string into a number.
`.ok none` models a `ValueError` raised by an `int` conversion — the one
caller under the `mver` guard, `_parse`, catches it — as well as the
`None` returned for the empty string (unreachable under that guard);
`.error .assertFail` models the uncaught `AssertionError` of the
`assert False` on a literal with more than four dotted parts. -/
def version2number (l : List Char) : Except PErr (Option Int) :=
  if l.isEmpty then .ok none  -- the source returns None
  else
    let parts := splitDot l
    if parts.length > 4 then .error .assertFail  -- source: assert False
    else if parts.length = 2 then
      match pyInt parts[0]! with
      | none => .ok none
      | some hi =>
        let p1 := parts[1]!
        let v0 := hi * 2 ^ 24
        let s1 :=
          if p1.length ≥ 1 then
            match pyInt [p1[0]!] with
            | none => none
            | some d => some (v0 + d * 2 ^ 16)
          else some v0
        match s1 with
        | none => .ok none
        | some v1 =>
          let s2 :=
            if p1.length ≥ 2 then
              match pyInt [p1[1]!] with
              | none => none
              | some d => some (v1 + d * 2 ^ 8)
            else some v1
          match s2 with
          | none => .ok none
          | some v2 =>
            if p1.length ≥ 3 then
              match pyInt (p1.drop 2) with
              | none => .ok none
              | some d => .ok (some (v2 + d))
            else .ok (some v2)
    else
      let rec go (ps : List (List Char)) (i : Nat) (acc : Int) : Option Int :=
        match ps with
        | [] => some acc
        | p :: rest =>
          match pyInt p with
          | none => none
          | some d => go rest (i + 1) (acc + d * 2 ^ ((3 - i) * 8))
      .ok (go parts 0 0)

/-- A name filter, as passed to `Expression.__init__` (`None` allowed). -/
abbrev NameFilter := Option (List Char → List Char)

/-- Apply a name filter the way `_parse`'s final line does. -/
def applyFilter (nf : NameFilter) (l : List Char) : List Char :=
  match nf with
  | none => l
  | some f => f l

/-- `Expression._parse` with the sub-`Expression` constructor given as
`recE` (the fuel tie-up is at `parseExprGo`): brackets or operators make a
sub-`Expression`; otherwise try the 4-part version literal, then a plain
integer literal; otherwise the string is a symbolic name passed through
the filter. -/
def parseSideWith (recE : List Char → Except PErr PTerm) (nf : NameFilter) (l : List Char) :
    Except PErr PTerm :=
  if containsSub l ['('] || containsSub l [')'] then
    recE l
  else if operators.any (fun op => containsSub l op) then
    recE l
  else if mverMatch l then
    match version2number l with
    | .ok (some v) => .ok (.str (hex08 v.toNat))
    | .ok none => .ok (.str (applyFilter nf l))
    | .error e => .error e
  else if iverMatch l then
    match pyInt l with
    | some v => .ok (.str (String.data (toString v)))
    | none => .ok (.str (applyFilter nf l))
  else
    .ok (.str (applyFilter nf l))

/-- `Expression.__init__`: partition the string, then `_parse` each side;
an empty (or absent) right side becomes the string `''`. -/
def parseExprGo : Nat → NameFilter → List Char → Except PErr PTerm
  | 0, _, _ => .error .fuel
  | fuelM + 1, nf, l =>
    match partition l with
    | .error e => .error e
    | .ok (left, op, rightO) =>
      match parseSideWith (parseExprGo fuelM nf) nf left with
      | .error e => .error e
      | .ok leftT =>
        match rightO with
        | some r =>
          if strTruthy r then
            match parseSideWith (parseExprGo fuelM nf) nf r with
            | .error e => .error e
            | .ok rightT => .ok (.expr leftT op rightT none)
          else
            .ok (.expr leftT op (.str []) none)
        | none => .ok (.expr leftT op (.str []) none)

/-- `Expression._parse` at a given fuel. -/
def parseSideGo (fuelN : Nat) (nf : NameFilter) (l : List Char) : Except PErr PTerm :=
  parseSideWith (parseExprGo fuelN nf) nf l

/-- Construct an `Expression` from a raw string, with a generous fuel
budget (each recursive step strictly shrinks the string). -/
def parseExpr (nf : NameFilter) (s : String) : Except PErr PTerm :=
  parseExprGo (s.length + 1) nf s.data

/-- `member_name`: format an XML attribute name as a C++ member variable
name (camelCase; a space upper-cases the next character; a backslash is
the member-access operator; anything else becomes an underscore). The
`None` input case cannot arise for `List Char`; `'ARG'` is returned
unchanged. -/
def member_name (l : List Char) : List Char :=
  if l = ['A', 'R', 'G'] then l
  else
    let step : List Char × Bool → Char → List Char × Bool := fun (out, lower) c =>
      if c = ' ' then (out, false)
      else if c.isAlphanum then
        if lower then (out ++ [c.toLower], lower)
        else (out ++ [c.toUpper], true)
      else if c = '\\' then (out ++ ['.'], lower)
      else (out ++ ['_'], true)
    (l.foldl step ([], true)).1

/-- Does the string start with `0x`? -/
def startsWith0x (l : List Char) : Bool :=
  match l with
  | '0' :: 'x' :: _ => true
  | _ => false

/-- The `IsDerivedType(%s::TYPE)` rendering for a side naming a block. -/
def isDerivedCode (s : List Char) : List Char :=
  "IsDerivedType(".data ++ s ++ "::TYPE)".data

/-- How `Expression.code` renders a plain-string side (`lhs` / `rhs`) of a
unary or binary node: a string naming a block becomes a dynamic type
check; a non-empty, non-numeric, non-hex string gets the access pfx and
the name filter; anything else is passed through unchanged. -/
def strSideCode (blockNames : List String) (nf : NameFilter) (pfx : List Char)
    (s : List Char) : List Char :=
  if blockNames.contains (String.mk s) then isDerivedCode s
  else if strTruthy s && !pyIsdigit s && !startsWith0x s then
    pfx ++ applyFilter nf s
  else s

/-- `Expression.code(prefix, brackets, name_filter)`: re-serialise the
parsed tree into guard text. A sub-`Expression` side is rendered
recursively with brackets; a string side via `strSideCode`. The
`isinstance(self.lhs, int)` branch of the source is unreachable for
parser-produced trees (the parser only stores strings and
sub-expressions) and is omitted; an `Expression` left side under an empty
operator would make the source raise a `TypeError` (an unhashable
dictionary probe) and is rendered as the empty string here. -/
def expressionCode (blockNames : List String) (nf : NameFilter) :
    PTerm → List Char → Bool → List Char
  | .str _, _, _ => []
  | .expr l op r _, pfx, brackets =>
    let lb : List Char := if brackets then ['('] else []
    let rb : List Char := if brackets then [')'] else []
    let lrec := expressionCode blockNames nf l pfx true
    let rrec := expressionCode blockNames nf r pfx true
    let lside := match l with
      | .str s => strSideCode blockNames nf pfx s
      | .expr _ _ _ _ => lrec
    let rside := match r with
      | .str s => strSideCode blockNames nf pfx s
      | .expr _ _ _ _ => rrec
    if op = [] then
      match l with
      | .str s =>
        if !strTruthy s then []
        else if blockNames.contains (String.mk s) then isDerivedCode s
        else pfx ++ applyFilter nf s
      | .expr _ _ _ _ => []
    else if op = ['!'] then
      lb ++ '!' :: lside ++ rb
    else
      lb ++ lside ++ ' ' :: op ++ ' ' :: rside ++ rb

/-- The side-rendering of `Expression.code` as a standalone function. -/
def sideCode (blockNames : List String) (nf : NameFilter) (pfx : List Char) :
    PTerm → List Char
  | .str s => strSideCode blockNames nf pfx s
  | .expr l op r c => expressionCode blockNames nf (.expr l op r c) pfx true

/-- `Expr.code`: like `Expression.code` but defaulting the name filter to
`member_name` (this is the variant every member attribute uses). -/
def exprCode (blockNames : List String) (t : PTerm) (pfx : List Char) : List Char :=
  expressionCode blockNames (some member_name) t pfx true

/-!
### Sibling-derived member facts (`Member.__init__`, lines 869-902)

`is_duplicate` / `arr2_dynamic` come from walking the previous XML
siblings; `arr1_ref` / `arr2_ref` / `cond_ref` from walking the next
siblings. A sibling is given by its relevant raw attributes.
-/

/-- The raw attributes of one sibling `<add>` element. (`suffix` is
present on the element; the sibling walks of `Member.__init__` read only
`name`, `arr1`, `arr2` and `cond` from a sibling.) -/
structure RawSib where
  name : String
  suffix : String := ""
  arr1 : String := ""
  arr2 : String := ""
  cond : String := ""
  deriving Repr, DecidableEq

/-- Does a parsed expression's left side equal the given plain name
(Python `expr.lhs == name`, which is `False` when the lhs is a nested
`Expression`)? -/
def lhsEq (t : PTerm) (s : String) : Bool :=
  t.lhs = PTerm.str s.data

/-- The previous-sibling walk of `Member.__init__`: computes
`(is_duplicate, arr2_dynamic)`. `prevs` lists the earlier siblings
(nearest first, the order `previousSibling` produces); each sibling's
`arr1` / `arr2` attributes are parsed as the source does. -/
def computePrevFacts (selfName selfSuffix : String) (selfArr2 : PTerm)
    (prevs : List RawSib) : Except PErr (Bool × Bool) :=
  prevs.foldlM
    (fun (acc : Bool × Bool) sib => do
      let (dup, dyn) := acc
      let sisArr1 ← parseExpr none sib.arr1
      let _sisArr2 ← parseExpr none sib.arr2
      let dup' := dup || (sib.name = selfName && selfSuffix = "")
      let dyn' := dyn || (lhsEq selfArr2 sib.name && sisArr1.lhs.truthy)
      pure (dup', dyn'))
    (false, false)

/-- The next-sibling walk of `Member.__init__`: computes
`(arr1_ref, arr2_ref, cond_ref)` in document order. An `arr1` / `arr2`
reference is kept only when the referencing expression's right side is
empty or numeric; a `cond` reference has no such mask filter. -/
def computeNextRefs (selfName : String) (nexts : List RawSib) :
    Except PErr (List String × List String × List String) :=
  nexts.foldlM
    (fun (acc : List String × List String × List String) sib => do
      let (a1, a2, c) := acc
      let sisArr1 ← parseExpr none sib.arr1
      let sisArr2 ← parseExpr none sib.arr2
      let sisCond ← parseExpr none sib.cond
      let a1' := if lhsEq sisArr1 selfName && (!sisArr1.rhs.truthy || sisArr1.rhs.isdigit) then
          a1 ++ [sib.name] else a1
      let a2' := if lhsEq sisArr2 selfName && (!sisArr2.rhs.truthy || sisArr2.rhs.isdigit) then
          a2 ++ [sib.name] else a2
      let c' := if lhsEq sisCond selfName then c ++ [sib.name] else c
      pure (a1', a2', c'))
    ([], [], [])

end Nifxml

namespace GenNiflib

open Py Nifxml

/-! ### gen_niflib.py: actions, data model, the CFile formatter -/

def ACTION_READ : Nat := 0
def ACTION_WRITE : Nat := 1
def ACTION_OUT : Nat := 2
def ACTION_FIXLINKS : Nat := 3
def ACTION_GETREFS : Nat := 4
def ACTION_GETPTRS : Nat := 5

/-- Python truthiness of an optional integer (`None` and `0` are falsy). -/
def optIntTruthy : Option Int → Bool
  | none => false
  | some n => n ≠ 0

/-- Python truthiness of an optional string (`None` and `''` are falsy). -/
def optStrTruthy : Option String → Bool
  | none => false
  | some s => s ≠ ""

/-- The attributes of a `Basic` / `Enum` / `Flag` entry that `CFile.stream`
reads (`is_link` is `Ref`, `is_crossref` is `Ptr`). -/
structure TypeInfo where
  is_link : Bool := false
  is_crossref : Bool := false
  has_links : Bool := false
  has_crossrefs : Bool := false
  deriving Repr, DecidableEq

/-- One `Member`, as it exists after loading: raw attributes plus the
derived facts of `Member.__init__` plus the C++-formatted names. `dflt`
is the (already formatted) `default` attribute. -/
structure Member where
  name : String := ""
  suffix : String := ""
  type_ : String := ""
  arg : String := ""
  template : String := ""
  func : String := ""
  dflt : String := ""
  cname : String := ""
  ctype : String := ""
  carg : String := ""
  ctemplate : String := ""
  arr1 : PTerm := .expr (.str []) [] (.str []) none
  arr2 : PTerm := .expr (.str []) [] (.str []) none
  cond : PTerm := .expr (.str []) [] (.str []) none
  vercond : PTerm := .expr (.str []) [] (.str []) none
  ver1 : Option Int := none
  ver2 : Option Int := none
  userver : Option Int := none
  userver2 : Option Int := none
  is_abstract : Bool := false
  is_calculated : Bool := false
  is_manual_update : Bool := false
  is_duplicate : Bool := false
  arr2_dynamic : Bool := false
  arr1_ref : List String := []
  arr2_ref : List String := []
  cond_ref : List String := []
  deriving Repr, DecidableEq

/-- A `Compound` (or `Block`, when `isBlock`): the attributes the emission
engine reads. `inherit` names the parent block, for blocks that have one. -/
structure Compound where
  name : String := ""
  cname : String := ""
  isBlock : Bool := false
  inherit : Option String := none
  has_links : Bool := false
  has_crossrefs : Bool := false
  members : List Member := []
  deriving Repr, DecidableEq

/-- The global type registry: `TYPES_BASIC`, `TYPES_ENUM`, `TYPES_FLAG`,
`TYPES_COMPOUND`, `TYPES_BLOCK`, and the key set of `TYPES_NATIVE`. -/
structure Env where
  basics : List (String × TypeInfo) := []
  enums : List (String × TypeInfo) := []
  flags : List (String × TypeInfo) := []
  compounds : List (String × Compound) := []
  blocks : List (String × Compound) := []
  natives : List String := []
  deriving Repr, DecidableEq

/-- Dictionary lookup. -/
def alookup (l : List (String × α)) (k : String) : Option α :=
  (l.find? (fun p => p.1 = k)).map Prod.snd

/-- Replace the binding of `k` (used for the in-place mutation of a
registry entry by a recursive `stream` call). -/
def aupdate (l : List (String × α)) (k : String) (v : α) : List (String × α) :=
  l.map (fun p => if p.1 = k then (k, v) else p)

/-- The names of `TYPES_BLOCK`, as `Expression.code` consults them. -/
def Env.blockNames (env : Env) : List String :=
  env.blocks.map Prod.fst

/-- What the loop variable `subblock` can hold. -/
inductive SubBlock where
  | basic : TypeInfo → SubBlock
  | comp : Compound → SubBlock
  deriving Repr, DecidableEq

def SubBlock.has_links : SubBlock → Bool
  | .basic i => i.has_links
  | .comp c => c.has_links

def SubBlock.has_crossrefs : SubBlock → Bool
  | .basic i => i.has_crossrefs
  | .comp c => c.has_crossrefs

/-- `is_link` of the current `subblock` (a compound is never a link). -/
def SubBlock.is_link : SubBlock → Bool
  | .basic i => i.is_link
  | .comp _ => false

def SubBlock.is_crossref : SubBlock → Bool
  | .basic i => i.is_crossref
  | .comp _ => false

/-- The `subblock` lookup chain at the top of the member loop
(`TYPES_BASIC`, then `TYPES_COMPOUND`, then `TYPES_ENUM`, then
`TYPES_FLAG`); `none` when the type is in none of them (the source would
then leave the variable stale or unbound). -/
def lookupSub (env : Env) (ty : String) : Option SubBlock :=
  match alookup env.basics ty with
  | some i => some (.basic i)
  | none =>
    match alookup env.compounds ty with
    | some c => some (.comp c)
    | none =>
      match alookup env.enums ty with
      | some i => some (.basic i)
      | none =>
        match alookup env.flags ty with
        | some i => some (.basic i)
        | none => none

/-- `Compound.find_member` / `Block.find_member`: search the own member
list; with `inherit = true` a block continues into its parent chain. The
fuel bounds the inheritance depth. -/
def findMember (env : Env) : Nat → Compound → String → Bool → Option Member
  | 0, _, _, _ => none
  | fuelN + 1, c, nm, inh =>
    match c.members.find? (fun m => m.name = nm) with
    | some m => some m
    | none =>
      if inh then
        match c.inherit with
        | some p =>
          match alookup env.blocks p with
          | some pc => findMember env fuelN pc nm inh
          | none => none
        | none => none
      else none

/-- `Compound.has_arr`: does any member (transitively through compound
member types) declare a first array dimension? -/
def hasArr (env : Env) : Nat → Compound → Bool
  | 0, _ => false
  | fuelN + 1, c =>
    c.members.any (fun m =>
      m.arr1.lhs.truthy ||
        (match alookup env.compounds m.type_ with
         | some sub => hasArr env fuelN sub
         | none => false))

/-! #### The `CFile` formatter -/

/-- The braces, kept out of string literals. -/
def lcub : Char := '\x7b'
def rcub : Char := '\x7d'

/-- The state of a `CFile` that `stream` touches: the indentation level
and the text written so far (as a list of written chunks, in order;
`backslash_mode` stays `False` throughout `stream` and is omitted). -/
structure CState where
  indent : Int := 0
  out : List String := []
  deriving Repr, DecidableEq

/-- The de-indented level a chunk is written at: a leading `}` and a
(pre-strip) trailing `:` de-indent first. -/
def cfInd (ind : Int) (txt : String) : Int :=
  let l := txt.data
  let ind1 := if l.head? = some rcub then ind - 1 else ind
  if l.getLast? = some ':' then ind1 - 1 else ind1

/-- The single chunk `CFile.code(txt)` writes when called at indentation
`ind`: the text is right-stripped, prefixed with tabs, inner newlines get
the same tab pfx, and a newline is appended. -/
def cfChunk (ind : Int) (txt : String) : String :=
  let ind2 := cfInd ind txt
  let tabs := List.replicate ind2.toNat '\t'
  let stripped := rstripWs txt.data
  let body := stripped.flatMap (fun c => if c = '\n' then '\n' :: tabs else [c])
  String.mk (tabs ++ body ++ ['\n'])

/-- `CFile.code(txt)` for a string argument: leading `}` and a (pre-strip)
trailing `:` de-indent first; the text is right-stripped, prefixed with
tabs, inner newlines get the same tab pfx; a trailing `{` or `:` (post-
strip) then indents. -/
def cfCode (st : CState) (txt : String) : CState :=
  let ind2 := cfInd st.indent txt
  let stripped := rstripWs txt.data
  let ind3 := if stripped.getLast? = some lcub then ind2 + 1 else ind2
  let ind4 := if stripped.getLast? = some ':' then ind3 + 1 else ind3
  { indent := ind4, out := st.out ++ [cfChunk st.indent txt] }

/-! #### extract_custom_code -/

/-- The custom-region dictionary initialiser of `extract_custom_code`
(note: it has no `'INCLUDE'` key). -/
def customInit : List (String × List String) :=
  [("MISC", []), ("FILE HEAD", []), ("FILE FOOT", []), ("PRE-READ", []),
   ("POST-READ", []), ("PRE-WRITE", []), ("POST-WRITE", []), ("PRE-STRING", []),
   ("POST-STRING", []), ("PRE-FIXLINKS", []), ("POST-FIXLINKS", []),
   ("CONSTRUCTOR", []), ("DESTRUCTOR", [])]

/-- The 13 keys the no-prior-file branch appends a blank line to. -/
def defaultKeys : List String :=
  customInit.map Prod.fst

/-- Append a line to `custom[k]`; a missing key is Python's `KeyError`. -/
def customAppend (custom : List (String × List String)) (k : String) (line : String) :
    Except String (List (String × List String)) :=
  match alookup custom k with
  | none => .error ("KeyError: " ++ k)
  | some old => .ok (aupdate custom k (old ++ [line]))

/-- The begin-sentinel vocabulary, paired with the region key each one
selects (in the order of the elif chain). -/
def begMarkers : List (String × String) :=
  [("//--BEGIN MISC CUSTOM CODE--//", "MISC"),
   ("//--BEGIN FILE HEAD CUSTOM CODE--//", "FILE HEAD"),
   ("//--BEGIN FILE FOOT CUSTOM CODE--//", "FILE FOOT"),
   ("//--BEGIN PRE-READ CUSTOM CODE--//", "PRE-READ"),
   ("//--BEGIN POST-READ CUSTOM CODE--//", "POST-READ"),
   ("//--BEGIN PRE-WRITE CUSTOM CODE--//", "PRE-WRITE"),
   ("//--BEGIN POST-WRITE CUSTOM CODE--//", "POST-WRITE"),
   ("//--BEGIN PRE-STRING CUSTOM CODE--//", "PRE-STRING"),
   ("//--BEGIN POST-STRING CUSTOM CODE--//", "POST-STRING"),
   ("//--BEGIN PRE-FIXLINKS CUSTOM CODE--//", "PRE-FIXLINKS"),
   ("//--BEGIN POST-FIXLINKS CUSTOM CODE--//", "POST-FIXLINKS"),
   ("//--BEGIN CONSTRUCTOR CUSTOM CODE--//", "CONSTRUCTOR"),
   ("//--BEGIN DESTRUCTOR CUSTOM CODE--//", "DESTRUCTOR"),
   ("//--BEGIN INCLUDE CUSTOM CODE--//", "INCLUDE")]

def endMarker : String := "//--END CUSTOM CODE--//"

/-- One line of the scanning loop of `extract_custom_code`. -/
def customStep (acc : List (String × List String) × Bool × String) (cln : String) :
    Except String (List (String × List String) × Bool × String) := do
  let (custom, flag, nm) := acc
  let (custom, flag) ←
    if flag then
      if containsSub cln.data endMarker.data then
        pure (custom, false)
      else do
        -- the source first probes `custom[custom_name]` for emptiness, then
        -- appends; both steps need the key to exist
        let custom' ← customAppend custom nm cln
        pure (custom', flag)
    else
      pure (custom, flag)
  match begMarkers.find? (fun p => containsSub cln.data p.1.data) with
  | some p => pure (custom, true, p.2)
  | none => pure (custom, flag, nm)

/-- `extract_custom_code(name)`: `content = none` models a path for which
`os.path.isfile` is false; otherwise the previously generated file's
lines. -/
def extract_custom_code (content : Option (List String)) :
    Except String (List (String × List String)) :=
  match content with
  | none =>
    .ok (defaultKeys.foldl (fun cu k =>
      aupdate cu k ((alookup cu k).getD [] ++ ["\n"])) customInit)
  | some lines => do
    let (custom, _, _) ← lines.foldlM customStep (customInit, false, "")
    pure custom

/-! #### CFile.stream -/

def lcubS : String := String.mk [lcub]
def rcubS : String := String.mk [rcub]

/-- `"};"`. -/
def closeBrace : String := rcubS ++ ";"

/-- `%i` of an indentation level. -/
def iS (n : Int) : String := toString n

/-- `"0x%08X" % v` of an optional version (always present at use sites). -/
def hexS (v : Option Int) : String := String.mk (hex08 (v.getD 0).toNat)

/-- `%s` of an optional user version (always present at use sites). -/
def intS (v : Option Int) : String := toString (v.getD 0)

/-- Replace `lhs` (and set `clhs`) of an expression node: the effect of
`y.arr1.lhs = arg_member.name; y.arr1.clhs = arg_member.cname`. -/
def setLhsClhs (t : PTerm) (nm cn : String) : PTerm :=
  match t with
  | .expr _ o r _ => .expr (.str nm.data) o r (some cn.data)
  | .str _ => .str nm.data

/-- `y.vercond.code('info.')` (an `Expr`, so `member_name` filtering). -/
def vercondText (bn : List String) (y : Member) : String :=
  String.mk (exprCode bn y.vercond "info.".data)

/-- `y.cond.code(y_cond_prefix)`. -/
def condText (bn : List String) (y : Member) (pfx : String) : String :=
  String.mk (exprCode bn y.cond pfx.data)

/-- The version-guard expression built when a new version block starts
(lines 939-954): conjoin, with `&&`, the non-empty pieces among lower
bound, upper bound, user version, user version 2, and the rendered
version condition. -/
def verexprOf (y : Member) (y_vercond : String) : String :=
  let v0 := ""; let k0 := ""
  let (v1, k1) :=
    if optIntTruthy y.ver1 then ("( info.version >= " ++ hexS y.ver1 ++ " )", " && ")
    else (v0, k0)
  let (v2, k2) :=
    if optIntTruthy y.ver2 then (v1 ++ k1 ++ "( info.version <= " ++ hexS y.ver2 ++ " )", " && ")
    else (v1, k1)
  let (v3, k3) :=
    if y.userver.isSome then (v2 ++ k2 ++ "( info.userVersion == " ++ intS y.userver ++ " )", " && ")
    else (v2, k2)
  let (v4, k4) :=
    if y.userver2.isSome then (v3 ++ k3 ++ "( info.userVersion2 == " ++ intS y.userver2 ++ " )", " && ")
    else (v3, k3)
  if y_vercond ≠ "" then v4 ++ k4 ++ "( " ++ y_vercond ++ " )" else v4

/-- Open a version guard (lines 955-961): when `scanBrackets` says the
whole expression is a single outer bracket pair, the redundant extra
parentheses are dropped. (`scanBrackets` cannot fail on generator-built
guard expressions; a failure would abort the Python run and is folded
into the wrapped form here.) -/
def emitVerGuard (c : CState) (verexpr : String) : CState :=
  let wrapped := cfCode c ("if ( " ++ verexpr ++ " ) " ++ lcubS)
  match scanBrackets verexpr.data with
  | .ok (some 0, some e) =>
    if e = verexpr.length - 1 then cfCode c ("if " ++ verexpr ++ " " ++ lcubS) else wrapped
  | _ => wrapped

/-- The loop-carried state of the member loop: the file state, the five
`last*` version trackers, the `lastcond` tracker, and the `subblock` loop
variable (which persists across iterations in the source). -/
structure LoopSt where
  cst : CState := {}
  lastver1 : Option Int := none
  lastver2 : Option Int := none
  lastuserver : Option Int := none
  lastuserver2 : Option Int := none
  lastcond : Option String := none
  lastvercond : Option String := none
  subOpt : Option SubBlock := none
  deriving Repr, DecidableEq

/-- Result of processing one member: new loop state, the member as left
behind (ARG substitution mutates it), the registry (recursive calls
mutate nested compounds), and whether this step opened a version guard. -/
structure StepRes where
  st : LoopSt
  y : Member
  env : Env
  verOpened : Bool
  deriving Repr, DecidableEq

/-- The reverse pre-pass (lines 824-857): declare and calculate local
variables before the forward pass. Runs (and emits) only for Write and
asString; for Read the loop body is entered but emits nothing. -/
def prePass (env : Env) (blk : Compound) (action : Nat) (pfx : String) (cst : CState) : CState :=
  if action = ACTION_READ || action = ACTION_WRITE || action = ACTION_OUT then
    (blk.members.reverse).foldl (fun c y =>
      if !y.is_duplicate && !y.is_manual_update && (action = ACTION_WRITE || action = ACTION_OUT) then
        if y.func ≠ "" then
          cfCode c (pfx ++ y.cname ++ " = " ++ pfx ++ y.func ++ "();")
        else if y.is_calculated then
          if action = ACTION_READ || action = ACTION_WRITE then
            cfCode c (pfx ++ y.cname ++ " = " ++ pfx ++ y.cname ++ "Calc(info);")
          else c
        else if y.arr1_ref ≠ [] then
          if !y.arr1.lhs.truthy then
            match findMember env (env.blocks.length + 1) blk (y.arr1_ref.headD "") true with
            | some cref =>
              cfCode c (pfx ++ y.cname ++ " = (" ++ y.ctype ++ ")(" ++ pfx ++ cref.cname ++ ".size());")
            | none => c  -- the source would raise AttributeError here
          else c
        else if y.arr2_ref ≠ [] then
          match findMember env (env.blocks.length + 1) blk (y.arr2_ref.headD "") true with
          | some cref =>
            if !y.arr1.lhs.truthy then
              cfCode c (pfx ++ y.cname ++ " = (" ++ y.ctype ++ ")((" ++ pfx ++ cref.cname ++
                ".size() > 0) ? " ++ pfx ++ cref.cname ++ "[0].size() : 0);")
            else
              let c1 := cfCode c ("for (unsigned int i" ++ iS c.indent ++ " = 0; i" ++ iS c.indent ++
                " < " ++ pfx ++ cref.cname ++ ".size(); i" ++ iS c.indent ++ "++)")
              cfCode c1 ("\t" ++ pfx ++ y.cname ++ "[i" ++ iS c1.indent ++ "] = (" ++ y.ctype ++
                ")(" ++ pfx ++ cref.cname ++ "[i" ++ iS c1.indent ++ "].size());")
          | none => c  -- the source would raise AttributeError here
        else c
      else c) cst
  else cst

/-- Leaf emission for a natively-implemented member type
(lines 1031-1084). `z` is the resolved variable name. -/
def leafEmit (action : Nat) (strm : String) (y : Member) (subOpt : Option SubBlock)
    (z y_pfx : String) (c : CState) : CState :=
  let isLink := match subOpt with | some sb => sb.is_link | none => false
  let isCrossref := match subOpt with | some sb => sb.is_crossref | none => false
  if action = ACTION_READ || action = ACTION_WRITE || action = ACTION_FIXLINKS ||
     action = ACTION_GETREFS || action = ACTION_GETPTRS then
    if !isLink && !isCrossref then
      -- not a ref
      if (action = ACTION_READ || action = ACTION_WRITE) && y.is_abstract = false then
        if y.type_ = "bool" && y.arr1.lhs.truthy then
          -- hack required for vector<bool>
          let c1 := cfCode c lcubS
          let c2 :=
            if action = ACTION_READ then
              let r1 := cfCode c1 "bool tmp;"
              let r2 := cfCode r1 ("NifStream( tmp, " ++ strm ++ ", info );")
              cfCode r2 (z ++ " = tmp;")
            else
              let w1 := cfCode c1 ("bool tmp = " ++ z ++ ";")
              cfCode w1 ("NifStream( tmp, " ++ strm ++ ", info );")
          cfCode c2 closeBrace
        else if y.arg = "" then
          let cast := if y.is_duplicate then "(" ++ y.ctype ++ "&)" else ""
          cfCode c ("NifStream( " ++ cast ++ z ++ ", " ++ strm ++ ", info );")
        else
          cfCode c ("NifStream( " ++ z ++ ", " ++ strm ++ ", info, " ++ y_pfx ++ y.carg ++ " );")
      else c
    else
      -- a ref
      if action = ACTION_READ then
        let r1 := cfCode c ("NifStream( block_num, " ++ strm ++ ", info );")
        cfCode r1 "link_stack.push_back( block_num );"
      else if action = ACTION_WRITE then
        cfCode c ("WriteRef( StaticCast<NiObject>(" ++ z ++ "), " ++ strm ++
          ", info, link_map, missing_link_stack );")
      else if action = ACTION_FIXLINKS then
        cfCode c (z ++ " = FixLink<" ++ y.ctemplate ++ ">( objects, link_stack, missing_link_stack, info );")
      else if action = ACTION_GETREFS && isLink then
        if !y.is_duplicate then
          cfCode c ("if ( " ++ z ++ " != NULL )\n\trefs.push_back(StaticCast<NiObject>(" ++ z ++ "));")
        else c
      else if action = ACTION_GETPTRS && isCrossref then
        if !y.is_duplicate then
          cfCode c ("if ( " ++ z ++ " != NULL )\n\tptrs.push_back((NiObject *)(" ++ z ++ "));")
        else c
      else c
  else if action = ACTION_OUT then
    if !y.arr1.lhs.truthy then
      cfCode c (strm ++ " << \"" ++ String.mk (List.replicate (2 * c.indent).toNat ' ') ++
        y.name ++ ":  \" << " ++ z ++ " << endl;")
    else
      let o1 := cfCode c ("if ( !verbose && ( array_output_count > MAXARRAYDUMP ) ) " ++ lcubS)
      let o2 := cfCode o1 "break;"
      let o3 := cfCode o2 closeBrace
      let o4 := cfCode o3 (strm ++ " << \"" ++ String.mk (List.replicate (2 * o3.indent).toNat ' ') ++
        y.name ++ "[\" << i" ++ iS (o3.indent - 1) ++ " << \"]:  \" << " ++ z ++ " << endl;")
      cfCode o4 "array_output_count++;"
  else c

/-- The guard-transition step at the top of the member loop
(lines 928-979): when the version tuple changes, close the old version
and condition guards and open the new ones; otherwise (or for asString)
handle only the condition guard. Returns the file state, the value the
source leaves in `lastcond` at this point (it is overwritten at the loop
foot), and whether a version guard was opened. -/
def guardTransition (action : Nat) (st0 : LoopSt) (y : Member) (y_cond y_vercond : String) :
    CState × Option String × Bool :=
  if action = ACTION_READ || action = ACTION_WRITE || action = ACTION_FIXLINKS then
    if st0.lastver1 ≠ y.ver1 || st0.lastver2 ≠ y.ver2 || st0.lastuserver ≠ y.userver ||
        st0.lastuserver2 ≠ y.userver2 || st0.lastvercond ≠ some y_vercond then
      -- we must switch to a new version block: close the old version
      -- block, close the old condition block, open the new guards
      let k1 :=
        if optIntTruthy st0.lastver1 || optIntTruthy st0.lastver2 ||
            optIntTruthy st0.lastuserver || optIntTruthy st0.lastuserver2 ||
            optStrTruthy st0.lastvercond then
          cfCode st0.cst closeBrace
        else st0.cst
      let (k2, lastcond1) :=
        if optStrTruthy st0.lastcond then (cfCode k1 closeBrace, (none : Option String))
        else (k1, st0.lastcond)
      let verexpr := verexprOf y y_vercond
      let (k3, opened) :=
        if verexpr ≠ "" then (emitVerGuard k2 verexpr, true) else (k2, false)
      let k4 :=
        if lastcond1 ≠ some y_cond && y_cond ≠ "" then
          cfCode k3 ("if ( " ++ y_cond ++ " ) " ++ lcubS)
        else k3
      (k4, lastcond1, opened)
    else
      -- we remain in the same version block: check the condition block
      if st0.lastcond ≠ some y_cond then
        let k1 := if optStrTruthy st0.lastcond then cfCode st0.cst closeBrace else st0.cst
        let k2 := if y_cond ≠ "" then cfCode k1 ("if ( " ++ y_cond ++ " ) " ++ lcubS) else k1
        (k2, st0.lastcond, false)
      else (st0.cst, st0.lastcond, false)
  else if action = ACTION_OUT then
    if st0.lastcond ≠ some y_cond then
      let k1 := if optStrTruthy st0.lastcond then cfCode st0.cst closeBrace else st0.cst
      let k2 := if y_cond ≠ "" then cfCode k1 ("if ( " ++ y_cond ++ " ) " ++ lcubS) else k1
      (k2, st0.lastcond, false)
    else (st0.cst, st0.lastcond, false)
  else (st0.cst, st0.lastcond, false)

/-- First-dimension loop opening (lines 985-1005): the Describe counter
reset, the Read resize for a symbolic bound, the counting loop, and the
Describe truncation block. -/
def arr1LoopOpen (bn : List String) (action : Nat) (strm : String) (y : Member)
    (y_pfx y_arr1_pfx : String) (c0 : CState) : CState :=
  let cA := if action = ACTION_OUT then cfCode c0 "array_output_count = 0;" else c0
  let cB :=
    if !y.arr1.lhs.isdigit then
      let cR :=
        if action = ACTION_READ then
          cfCode cA (y_pfx ++ y.cname ++ ".resize(" ++
            String.mk (exprCode bn y.arr1 y_arr1_pfx.data) ++ ");")
        else cA
      cfCode cR ("for (unsigned int i" ++ iS cR.indent ++ " = 0; i" ++ iS cR.indent ++
        " < " ++ y_pfx ++ y.cname ++ ".size(); i" ++ iS cR.indent ++ "++) " ++ lcubS)
    else
      cfCode cA ("for (unsigned int i" ++ iS cA.indent ++ " = 0; i" ++ iS cA.indent ++
        " < " ++ String.mk (exprCode bn y.arr1 y_arr1_pfx.data) ++
        "; i" ++ iS cA.indent ++ "++) " ++ lcubS)
  if action = ACTION_OUT then
    let t1 := cfCode cB ("if ( !verbose && ( array_output_count > MAXARRAYDUMP ) ) " ++ lcubS)
    let t2 := cfCode t1 (strm ++ " << \"<Data Truncated. Use verbose mode to see complete listing.>\" << endl;")
    let t3 := cfCode t2 "break;"
    cfCode t3 closeBrace
  else cB

/-- Second-dimension loop opening (lines 1009-1028). -/
def arr2LoopOpen (bn : List String) (action : Nat) (y : Member)
    (y_pfx y_arr2_pfx : String) (cC : CState) : CState :=
  if !y.arr2_dynamic then
    if !y.arr2.lhs.isdigit then
      let cR2 :=
        if action = ACTION_READ then
          cfCode cC (y_pfx ++ y.cname ++ "[i" ++ iS (cC.indent - 1) ++ "].resize(" ++
            String.mk (exprCode bn y.arr2 y_arr2_pfx.data) ++ ");")
        else cC
      cfCode cR2 ("for (unsigned int i" ++ iS cR2.indent ++ " = 0; i" ++ iS cR2.indent ++
        " < " ++ y_pfx ++ y.cname ++ "[i" ++ iS (cR2.indent - 1) ++ "].size(); i" ++
        iS cR2.indent ++ "++) " ++ lcubS)
    else
      cfCode cC ("for (unsigned int i" ++ iS cC.indent ++ " = 0; i" ++ iS cC.indent ++
        " < " ++ String.mk (exprCode bn y.arr2 y_arr2_pfx.data) ++
        "; i" ++ iS cC.indent ++ "++) " ++ lcubS)
  else
    let cR2 :=
      if action = ACTION_READ then
        cfCode cC (y_pfx ++ y.cname ++ "[i" ++ iS (cC.indent - 1) ++ "].resize(" ++
          String.mk (exprCode bn y.arr2 y_arr2_pfx.data) ++
          "[i" ++ iS (cC.indent - 1) ++ "]);")
      else cC
    cfCode cR2 ("for (unsigned int i" ++ iS cR2.indent ++ " = 0; i" ++ iS cR2.indent ++
      " < " ++ String.mk (exprCode bn y.arr2 y_arr2_pfx.data) ++
      "[i" ++ iS (cR2.indent - 1) ++ "]; i" ++ iS cR2.indent ++ "++) " ++ lcubS)

/-- The array-handling step of the member loop (lines 980-1029): open the
counting loops (resizing first on Read), and resolve the variable name
`z`. -/
def arrayLoopsOpen (bn : List String) (action : Nat) (strm : String) (y : Member)
    (y_pfx y_arr1_pfx y_arr2_pfx : String) (c0 : CState) : CState × String :=
  if !y.arr1.lhs.truthy then
    (c0, y_pfx ++ y.cname)
  else
    let cC := arr1LoopOpen bn action strm y y_pfx y_arr1_pfx c0
    if !y.arr2.lhs.truthy then
      (cC, y_pfx ++ y.cname ++ "[i" ++ iS (cC.indent - 1) ++ "]")
    else
      let cD := arr2LoopOpen bn action y y_pfx y_arr2_pfx cC
      (cD, y_pfx ++ y.cname ++ "[i" ++ iS (cD.indent - 2) ++ "][i" ++ iS (cD.indent - 1) ++ "]")

/-- The type of a recursive `self.stream` call, as passed one level down
(the fuel tie-up is at `stream` itself). -/
abbrev StreamRec :=
  Env → Compound → Nat → String → String → String → Option Member → CState →
    CState × Compound × Env × Nat

/-- The leaf / recursion step of the member loop (lines 1031-1092): a
natively-implemented type streams directly; a compound member type
recurses into `stream` with an extended access pfx, and the mutated
sub-compound is written back into the registry (the source mutates the
registry object in place; its three syntactically identical recursive
calls are one call here). -/
def leafOrRecurse (rec_ : StreamRec) (envIn : Env) (action : Nat) (strm : String)
    (localpfx : String) (y_arg_pfx : String) (argm : Option Member) (y : Member)
    (subOpt : Option SubBlock) (z y_pfx : String) (cArr : CState) : CState × Env :=
  if envIn.natives.contains y.type_ then
    (leafEmit action strm y subOpt z y_pfx cArr, envIn)
  else
    -- the source writes this call three times (no first dimension /
    -- one dimension / two dimensions); all three are identical
    match alookup envIn.compounds y.type_ with
    | some sub =>
      let r := rec_ envIn sub action (localpfx ++ y.cname ++ "_") (z ++ ".")
        y_arg_pfx argm cArr
      (r.1, { r.2.2.1 with compounds := aupdate r.2.2.1.compounds y.type_ r.2.1 })
    | none => (cArr, envIn)  -- the source would raise KeyError here

/-- Close the array loops of one member (lines 1094-1098). -/
def arrClose (y : Member) (cLeaf : CState) : CState :=
  if y.arr1.lhs.truthy then
    let q := cfCode cLeaf closeBrace
    if y.arr2.lhs.truthy then cfCode q closeBrace else q
  else cLeaf

/-- One iteration of the forward member loop of `CFile.stream`
(lines 860-1105). `rec_` is the recursive call used for members of
compound type. -/
def streamMember (rec_ : StreamRec) (envIn : Env) (action : Nat) (strm : String)
    (localpfx pfx argpfx : String) (argMember : Option Member)
    (blk : Compound) (stIn : LoopSt) (yIn : Member) : StepRes :=
  -- get block: the `subblock` chain; a failed lookup leaves the loop
  -- variable from the previous iteration in place
  let subOpt :=
    match lookupSub envIn yIn.type_ with
    | some sb => some sb
    | none => stIn.subOpt
  let st0 := { stIn with subOpt := subOpt }
  let subHasLinks := match subOpt with | some sb => sb.has_links || sb.has_crossrefs | none => false
  -- check for links: FixLinks / GetRefs / GetPtrs skip link-free members
  if (action = ACTION_FIXLINKS || action = ACTION_GETREFS || action = ACTION_GETPTRS)
      && !subHasLinks then
    ⟨st0, yIn, envIn, false⟩
  else if action = ACTION_OUT && yIn.is_duplicate then
    -- don't write variables twice
    ⟨st0, yIn, envIn, false⟩
  else
    -- resolve array & cond references against the sibling list
    let needScan := yIn.arr1.lhs.truthy || yIn.arr2.lhs.truthy || yIn.cond.lhs.truthy || yIn.arg ≠ ""
    let scanned :=
      if needScan then
        blk.members.foldl
          (fun (acc : Option Member × Option Member × Option Member × Option Member) zz =>
            let (a1, a2, co, ag) := acc
            let a1 := if a1.isNone && lhsEq yIn.arr1 zz.name then some zz else a1
            let a2 := if a2.isNone && lhsEq yIn.arr2 zz.name then some zz else a2
            -- the source repeats the same test under `&&` / `||` operators;
            -- all three branches coincide
            let co := if co.isNone && lhsEq yIn.cond zz.name then some zz else co
            let ag := if ag.isNone && yIn.arg = zz.name then some zz else ag
            (a1, a2, co, ag))
          (none, none, none, none)
      else (none, none, none, none)
    let a1m := scanned.1
    let a2m := scanned.2.1
    let condm := scanned.2.2.1
    let argm := scanned.2.2.2
    let y_arr1_pfx0 := if a1m.isSome then pfx else ""
    let y_arr2_pfx0 := if a2m.isSome then pfx else ""
    let y_cond_pfx0 := if condm.isSome then pfx else ""
    let y_arg_pfx := if argm.isSome then pfx else ""
    let y_pfx := pfx
    -- resolve arguments: ARG substitution permanently rewrites the member
    let p1 :=
      if lhsEq yIn.arr1 "ARG" then
        match argMember with
        | some am => (setLhsClhs yIn.arr1 am.name am.cname, argpfx)
        | none => (yIn.arr1, y_arr1_pfx0)  -- the source would raise AttributeError
      else (yIn.arr1, y_arr1_pfx0)
    let arr1' := p1.1
    let y_arr1_pfx := p1.2
    let p2 :=
      if lhsEq yIn.arr2 "ARG" then
        match argMember with
        | some am => (setLhsClhs yIn.arr2 am.name am.cname, argpfx)
        | none => (yIn.arr2, y_arr2_pfx0)
      else (yIn.arr2, y_arr2_pfx0)
    let arr2' := p2.1
    let y_arr2_pfx := p2.2
    let p3 :=
      if lhsEq yIn.cond "ARG" then
        match argMember with
        | some am => (setLhsClhs yIn.cond am.name am.cname, argpfx)
        | none => (yIn.cond, y_cond_pfx0)
      else (yIn.cond, y_cond_pfx0)
    let cond' := p3.1
    let y_cond_pfx := p3.2
    let y := { yIn with arr1 := arr1', arr2 := arr2', cond := cond' }
    -- conditioning
    let y_cond := condText envIn.blockNames y y_cond_pfx
    let y_vercond := vercondText envIn.blockNames y
    let g := guardTransition action st0 y y_cond y_vercond
    let c0 := g.1
    let lastcond0 := g.2.1
    let verOpened := g.2.2
    -- loop over arrays and resolve the variable name
    let az := arrayLoopsOpen envIn.blockNames action strm y y_pfx y_arr1_pfx y_arr2_pfx c0
    let cArr := az.1
    let z := az.2
    -- emit the leaf, or recurse into a compound member type
    let le := leafOrRecurse rec_ envIn action strm localpfx y_arg_pfx argm y subOpt z y_pfx cArr
    let cLeaf := le.1
    let envOut := le.2
    -- close array loops
    let cClosed := arrClose y cLeaf
    let stOut : LoopSt :=
      { cst := cClosed,
        lastver1 := y.ver1, lastver2 := y.ver2,
        lastuserver := y.userver, lastuserver2 := y.userver2,
        lastcond := some y_cond, lastvercond := some y_vercond,
        subOpt := subOpt }
    -- silence the unused-binding linter for fields the source also ignores
    let _ := lastcond0
    ⟨stOut, y, envOut, verOpened⟩

/-- The forward pass over the member list, collecting the (possibly
ARG-rewritten) members, the mutated registry, and the number of version
guards opened at this level. -/
def streamMembers (rec_ : StreamRec) (action : Nat) (strm : String)
    (localpfx pfx argpfx : String) (argMember : Option Member) (blk : Compound) :
    LoopSt → Env → List Member → LoopSt × List Member × Env × Nat
  | st, env, [] => (st, [], env, 0)
  | st, env, y :: rest =>
    let r := streamMember rec_ env action strm localpfx pfx argpfx argMember blk st y
    let (st', rest', env', n) :=
      streamMembers rec_ action strm localpfx pfx argpfx argMember blk r.st r.env rest
    (st', r.y :: rest', env', (if r.verOpened then 1 else 0) + n)

/-- The preparation block of `stream` (lines 792-805): local declarations
for blocks (and the `Header` / `Footer` compounds). -/
def prepLines (env : Env) (blk : Compound) (action : Nat) (cst : CState) : CState :=
  if blk.isBlock || blk.name = "Footer" || blk.name = "Header" then
    let p1 :=
      if action = ACTION_READ && (blk.has_links || blk.has_crossrefs) then
        cfCode cst "unsigned int block_num;"
      else cst
    let p2 :=
      if action = ACTION_OUT then
        let q := cfCode p1 "stringstream out;"
        if hasArr env (env.compounds.length + 1) blk then
          cfCode q "unsigned int array_output_count = 0;"
        else q
      else p1
    let p3 := if action = ACTION_GETREFS then cfCode p2 "list<Ref<NiObject> > refs;" else p2
    if action = ACTION_GETPTRS then cfCode p3 "list<NiObject *> ptrs;" else p3
  else cst

/-- The ancestor call of `stream` (lines 807-821). -/
def ancestorCall (env : Env) (blk : Compound) (action : Nat) (strm : String)
    (c0 : CState) : CState :=
  if blk.isBlock then
    match blk.inherit with
    | some p =>
      match alookup env.blocks p with
      | some pc =>
        if action = ACTION_READ then
          cfCode c0 (pc.cname ++ "::Read( " ++ strm ++ ", link_stack, info );")
        else if action = ACTION_WRITE then
          cfCode c0 (pc.cname ++ "::Write( " ++ strm ++ ", link_map, missing_link_stack, info );")
        else if action = ACTION_OUT then
          cfCode c0 (strm ++ " << " ++ pc.cname ++ "::asString();")
        else if action = ACTION_FIXLINKS then
          cfCode c0 (pc.cname ++ "::FixLinks( objects, link_stack, missing_link_stack, info );")
        else if action = ACTION_GETREFS then
          cfCode c0 ("refs = " ++ pc.cname ++ "::GetRefs();")
        else if action = ACTION_GETPTRS then
          cfCode c0 ("ptrs = " ++ pc.cname ++ "::GetPtrs();")
        else c0
      | none => c0  -- the source dereferences the parent object directly
    | none => c0
  else c0

/-- Close the version and condition blocks still open after the member
loop (lines 1107-1112). -/
def loopTailClose (action : Nat) (stL : LoopSt) : CState :=
  let c3 :=
    if (action = ACTION_READ || action = ACTION_WRITE || action = ACTION_FIXLINKS) &&
        (optIntTruthy stL.lastver1 || optIntTruthy stL.lastver2 ||
          stL.lastuserver.isSome || stL.lastuserver2.isSome || optStrTruthy stL.lastvercond) then
      cfCode stL.cst closeBrace
    else stL.cst
  if (action = ACTION_READ || action = ACTION_WRITE || action = ACTION_FIXLINKS ||
      action = ACTION_OUT) && optStrTruthy stL.lastcond then
    cfCode c3 closeBrace
  else c3

/-- The closing `return` of `stream` (lines 1114-1121). -/
def endReturns (blk : Compound) (action : Nat) (c4 : CState) : CState :=
  if blk.isBlock || blk.name = "Header" || blk.name = "Footer" then
    if action = ACTION_OUT then cfCode c4 "return out.str();"
    else if action = ACTION_GETREFS then cfCode c4 "return refs;"
    else if action = ACTION_GETPTRS then cfCode c4 "return ptrs;"
    else c4
  else c4

/-- `CFile.stream(block, action, localprefix, prefix, arg_prefix,
arg_member)`. Returns the file state, the block as left behind (member
list order restored by the double reverse; individual members possibly
ARG-rewritten), the registry as left behind, and the number of version
guards opened by this invocation's own field loop. -/
def stream (fuelN : Nat) (env : Env) (blk : Compound) (action : Nat)
    (localpfx pfx argpfx : String) (argMember : Option Member) (cst : CState) :
    CState × Compound × Env × Nat :=
  match fuelN with
  | 0 => (cst, blk, env, 0)  -- fuel exhausted (recursion deeper than the registry allows)
  | fuelM + 1 =>
    let strm := if action = ACTION_READ then "in" else "out"
    -- preparation
    let c0 := prepLines env blk action cst
    -- stream the ancestor
    let c1 := ancestorCall env blk action strm c0
    -- declare and calculate local variables (reverse pre-pass; the list
    -- is reversed in place and reversed back, restoring its order)
    let c2 := prePass env blk action pfx c1
    -- now comes the difficult part: processing all members recursively
    let st0 : LoopSt := { cst := c2 }
    let smr :=
      streamMembers (fun e b a lp px ap am c => stream fuelM e b a lp px ap am c)
        action strm localpfx pfx argpfx argMember blk st0 env blk.members
    let stL := smr.1
    let ms' := smr.2.1
    let env' := smr.2.2.1
    let opens := smr.2.2.2
    -- close the version and condition blocks still open after the loop
    let c4 := loopTailClose action stL
    -- the end
    let c5 := endReturns blk action c4
    (c5, { blk with members := ms' }, env', opens)

end GenNiflib

section ParserChecks

open Nifxml

-- doctests of `Expression._partition` from the source
example : partitionStr "abc || efg" = .ok ("abc", "||", "efg") := rfl
example : partitionStr "abc||efg" = .ok ("abc", "||", "efg") := rfl
example : partitionStr "abcdefg" = .ok ("abcdefg", "", "") := rfl
example : partitionStr " abcdefg " = .ok ("abcdefg", "", "") := rfl
example : partitionStr " (a | b) & c " = .ok ("a | b", "&", "c") := rfl
-- The next two docstring doctests of `_partition` disagree with what the
-- function actually computes (the right-hand side keeps its brackets;
-- those doctests are never executed by the tooling). The embedding follows
-- the code:
example : partitionStr "(a | b)!=(b&c)" = .ok ("a | b", "!=", "(b&c)") := rfl
example : partitionStr "(a== b) &&(( b!=c)||d )" = .ok ("a== b", "&&", "(( b!=c)||d )") := rfl

-- doctests of `scanBrackets`
example : scanBrackets "abcde".data = .ok (none, none) := rfl
example : scanBrackets "()".data = .ok (some 0, some 1) := rfl
example : scanBrackets "(abc(def))g".data = .ok (some 0, some 9) := rfl

end ParserChecks

namespace GenNiflib

open Py Nifxml

/-! ### Fixtures: a small registry and members, used by several claims -/

/-- A registry containing the native basic type `uint`. -/
def envU : Env := { basics := [("uint", {})], natives := ["uint"] }

/-- Parse helper for fixtures (the attribute strings below all parse). -/
def pOf (s : String) : PTerm :=
  match parseExpr none s with
  | .ok t => t
  | .error _ => .str []

/-- A member whose only version metadata is `userver = 0`. -/
def mAlphaUv0 : Member :=
  { name := "Alpha", cname := "alpha", type_ := "uint", ctype := "unsigned int",
    userver := some 0 }

/-- A member with no version metadata at all. -/
def mBeta : Member :=
  { name := "Beta", cname := "beta", type_ := "uint", ctype := "unsigned int" }

/-- A member gated on `ver1` alone. -/
def mGammaV1 : Member :=
  { name := "Gamma", cname := "gamma", type_ := "uint", ctype := "unsigned int",
    ver1 := some 0x04000002 }

/-- The C2 input: a `userver = 0` field followed by an unversioned field. -/
def blkUv0 : Compound := { name := "Foo", cname := "Foo", members := [mAlphaUv0, mBeta] }

/-- The C1 input: a `ver1`-gated field followed by an unversioned field. -/
def blkV1 : Compound := { name := "Foo", cname := "Foo", members := [mGammaV1, mBeta] }

/-- Net `{` minus `}` of one written chunk. -/
def braceDeltaStr (s : String) : Int :=
  s.data.foldl (fun a c => if c = lcub then a + 1 else if c = rcub then a - 1 else a) 0

/-- Net `{` minus `}` of the whole output. -/
def braceDeltaOut (ls : List String) : Int :=
  (ls.map braceDeltaStr).sum

/-- The version tuple the grouping algorithm compares between consecutive
fields: `(ver1, ver2, userver, userver2, rendered vercond)`. -/
def verTuple (bn : List String) (y : Member) :
    Option Int × Option Int × Option Int × Option Int × String :=
  (y.ver1, y.ver2, y.userver, y.userver2, vercondText bn y)

/-- The guard expression a version tuple would produce. -/
def vtupleVerexpr (t : Option Int × Option Int × Option Int × Option Int × String) : String :=
  verexprOf { ver1 := t.1, ver2 := t.2.1, userver := t.2.2.1, userver2 := t.2.2.2.1 } t.2.2.2.2

/-- Count the maximal runs of equal consecutive elements. -/
def runCountAux [DecidableEq α] (prev : Option α) : List α → Nat
  | [] => 0
  | a :: rest => (if some a ≠ prev then 1 else 0) + runCountAux (some a) rest

/-- Number of maximal runs. -/
def runCount [DecidableEq α] (l : List α) : Nat := runCountAux none l

/-- Count the maximal runs satisfying `p`. -/
def runCountPAux [DecidableEq α] (p : α → Bool) (prev : Option α) : List α → Nat
  | [] => 0
  | a :: rest => (if some a ≠ prev && p a then 1 else 0) + runCountPAux p (some a) rest

/-! ### Append-only output: every emission step only extends `out` -/

/-- `c'` extends `c`: the written output only grows. -/
def OutExt (c c' : CState) : Prop := ∃ t, c'.out = c.out ++ t

theorem OutExt_refl (c : CState) : OutExt c c := ⟨[], by simp⟩

theorem OutExt_trans {a b c : CState} : OutExt a b → OutExt b c → OutExt a c := by
  rintro ⟨t, ht⟩ ⟨u, hu⟩
  exact ⟨t ++ u, by simp [hu, ht]⟩

theorem outExt_cfCode (c : CState) (t : String) : OutExt c (cfCode c t) :=
  ⟨_, rfl⟩

theorem outExt_cfCode_of {a c : CState} (h : OutExt a c) (t : String) :
    OutExt a (cfCode c t) :=
  OutExt_trans h (outExt_cfCode c t)

theorem outExt_emitVerGuard_of {a c : CState} (h : OutExt a c) (v : String) :
    OutExt a (emitVerGuard c v) := by
  unfold emitVerGuard
  split
  · split
    · exact outExt_cfCode_of h _
    · exact outExt_cfCode_of h _
  · exact outExt_cfCode_of h _

set_option maxHeartbeats 1000000 in
theorem guardTransition_outExt (action : Nat) (st0 : LoopSt) (y : Member)
    (y_cond y_vercond : String) :
    OutExt st0.cst (guardTransition action st0 y y_cond y_vercond).1 := by
  unfold guardTransition
  repeat'
    first
    | apply outExt_cfCode_of
    | apply outExt_emitVerGuard_of
    | split
    | dsimp only
    | exact OutExt_refl _

set_option maxHeartbeats 1000000 in
theorem arr1LoopOpen_outExt (bn : List String) (action : Nat) (strm : String) (y : Member)
    (y_pfx y_arr1_pfx : String) (c0 : CState) :
    OutExt c0 (arr1LoopOpen bn action strm y y_pfx y_arr1_pfx c0) := by
  unfold arr1LoopOpen
  repeat'
    first
    | apply outExt_cfCode_of
    | split
    | dsimp only
    | exact OutExt_refl _

set_option maxHeartbeats 1000000 in
theorem arr2LoopOpen_outExt (bn : List String) (action : Nat) (y : Member)
    (y_pfx y_arr2_pfx : String) (cC : CState) :
    OutExt cC (arr2LoopOpen bn action y y_pfx y_arr2_pfx cC) := by
  unfold arr2LoopOpen
  repeat'
    first
    | apply outExt_cfCode_of
    | split
    | dsimp only
    | exact OutExt_refl _

theorem arrayLoopsOpen_outExt (bn : List String) (action : Nat) (strm : String) (y : Member)
    (y_pfx y_arr1_pfx y_arr2_pfx : String) (c0 : CState) :
    OutExt c0 (arrayLoopsOpen bn action strm y y_pfx y_arr1_pfx y_arr2_pfx c0).1 := by
  unfold arrayLoopsOpen
  split
  · exact OutExt_refl _
  · split
    · exact arr1LoopOpen_outExt ..
    · exact OutExt_trans (arr1LoopOpen_outExt ..) (arr2LoopOpen_outExt ..)

set_option maxHeartbeats 1000000 in
theorem leafEmit_outExt (action : Nat) (strm : String) (y : Member)
    (subOpt : Option SubBlock) (z y_pfx : String) (c : CState) :
    OutExt c (leafEmit action strm y subOpt z y_pfx c) := by
  unfold leafEmit
  repeat'
    first
    | apply outExt_cfCode_of
    | split
    | dsimp only
    | exact OutExt_refl _

theorem foldl_outExt {α : Type} (f : CState → α → CState)
    (hf : ∀ c y, OutExt c (f c y)) :
    ∀ (l : List α) (c : CState), OutExt c (l.foldl f c)
  | [], c => OutExt_refl c
  | y :: l, c => OutExt_trans (hf c y) (foldl_outExt f hf l (f c y))

set_option maxHeartbeats 1000000 in
theorem prePass_outExt (env : Env) (blk : Compound) (action : Nat) (pfx : String)
    (cst : CState) : OutExt cst (prePass env blk action pfx cst) := by
  unfold prePass
  split
  · apply foldl_outExt
    intro c y
    repeat'
      first
      | apply outExt_cfCode_of
      | split
      | dsimp only
      | exact OutExt_refl _
  · exact OutExt_refl _

theorem arrayLoopsOpen_outExt_of {a c0 : CState} (h : OutExt a c0) (bn : List String)
    (action : Nat) (strm : String) (y : Member) (y_pfx y_arr1_pfx y_arr2_pfx : String) :
    OutExt a (arrayLoopsOpen bn action strm y y_pfx y_arr1_pfx y_arr2_pfx c0).1 :=
  OutExt_trans h (arrayLoopsOpen_outExt ..)

theorem leafOrRecurse_outExt_of {a cArr : CState} (rec_ : StreamRec)
    (hrec : ∀ e b act lp p ap am c, OutExt c (rec_ e b act lp p ap am c).1)
    (h : OutExt a cArr) (envIn : Env) (action : Nat) (strm localpfx y_arg_pfx : String)
    (argm : Option Member) (y : Member) (subOpt : Option SubBlock) (z y_pfx : String) :
    OutExt a (leafOrRecurse rec_ envIn action strm localpfx y_arg_pfx argm y subOpt z
      y_pfx cArr).1 := by
  unfold leafOrRecurse
  split
  · exact OutExt_trans h (leafEmit_outExt ..)
  · split
    · exact OutExt_trans h (hrec ..)
    · exact h

theorem arrClose_outExt_of {a c : CState} (h : OutExt a c) (y : Member) :
    OutExt a (arrClose y c) := by
  unfold arrClose
  repeat'
    first
    | apply outExt_cfCode_of
    | split
    | dsimp only
    | exact h

/-- One member step only extends the output (given that the recursive
call does). -/
theorem streamMember_outExt (rec_ : StreamRec)
    (hrec : ∀ e b act lp p ap am c, OutExt c (rec_ e b act lp p ap am c).1)
    (envIn : Env) (action : Nat) (strm localpfx pfx argpfx : String)
    (argMember : Option Member) (blk : Compound) (stIn : LoopSt) (yIn : Member) :
    OutExt stIn.cst
      (streamMember rec_ envIn action strm localpfx pfx argpfx argMember blk stIn
        yIn).st.cst := by
  unfold streamMember
  dsimp only
  split
  · exact OutExt_refl _
  · split
    · exact OutExt_refl _
    · dsimp only
      apply arrClose_outExt_of
      apply leafOrRecurse_outExt_of _ hrec
      apply arrayLoopsOpen_outExt_of
      exact guardTransition_outExt ..

/-- The member loop only extends the output. -/
theorem streamMembers_outExt (rec_ : StreamRec)
    (hrec : ∀ e b act lp p ap am c, OutExt c (rec_ e b act lp p ap am c).1)
    (action : Nat) (strm localpfx pfx argpfx : String) (argMember : Option Member)
    (blk : Compound) :
    ∀ (ms : List Member) (st : LoopSt) (env : Env),
      OutExt st.cst
        (streamMembers rec_ action strm localpfx pfx argpfx argMember blk st env ms).1.cst
  | [], st, env => OutExt_refl st.cst
  | y :: rest, st, env => by
    unfold streamMembers
    rcases hsp : streamMembers rec_ action strm localpfx pfx argpfx argMember blk
      (streamMember rec_ env action strm localpfx pfx argpfx argMember blk st y).st
      (streamMember rec_ env action strm localpfx pfx argpfx argMember blk st y).env rest
      with ⟨st', rest', env', n⟩
    have h1 := streamMember_outExt rec_ hrec env action strm localpfx pfx argpfx argMember blk st y
    have h2 := streamMembers_outExt rec_ hrec action strm localpfx pfx argpfx argMember blk rest
      (streamMember rec_ env action strm localpfx pfx argpfx argMember blk st y).st
      (streamMember rec_ env action strm localpfx pfx argpfx argMember blk st y).env
    rw [hsp] at h2
    simpa [hsp] using OutExt_trans h1 h2

theorem loopTailClose_outExt (action : Nat) (stL : LoopSt) :
    OutExt stL.cst (loopTailClose action stL) := by
  unfold loopTailClose
  repeat'
    first
    | apply outExt_cfCode_of
    | split
    | dsimp only
    | exact OutExt_refl _

theorem endReturns_outExt (blk : Compound) (action : Nat) (c4 : CState) :
    OutExt c4 (endReturns blk action c4) := by
  unfold endReturns
  repeat'
    first
    | apply outExt_cfCode_of
    | split
    | dsimp only
    | exact OutExt_refl _

theorem prepLines_outExt (env : Env) (blk : Compound) (action : Nat) (cst : CState) :
    OutExt cst (prepLines env blk action cst) := by
  unfold prepLines
  repeat'
    first
    | apply outExt_cfCode_of
    | split
    | dsimp only
    | exact OutExt_refl _

theorem ancestorCall_outExt (env : Env) (blk : Compound) (action : Nat) (strm : String)
    (c0 : CState) : OutExt c0 (ancestorCall env blk action strm c0) := by
  unfold ancestorCall
  repeat'
    first
    | apply outExt_cfCode_of
    | split
    | dsimp only
    | exact OutExt_refl _

/-- A whole `stream` call only extends the output. -/
theorem stream_outExt :
    ∀ (fuelN : Nat) (env : Env) (blk : Compound) (action : Nat)
      (localpfx pfx argpfx : String) (argMember : Option Member) (cst : CState),
      OutExt cst (stream fuelN env blk action localpfx pfx argpfx argMember cst).1 := by
  intro fuelN
  induction fuelN with
  | zero => intro env blk action lp pfx ap am cst; exact OutExt_refl _
  | succ fm ih =>
    intro env blk action lp pfx ap am cst
    unfold stream
    dsimp only
    apply OutExt_trans _ (endReturns_outExt ..)
    apply OutExt_trans _ (loopTailClose_outExt ..)
    apply OutExt_trans _ (streamMembers_outExt _ (fun e b act l p a m c => ih e b act l p a m c) ..)
    dsimp only
    apply OutExt_trans _ (prePass_outExt ..)
    exact OutExt_trans (prepLines_outExt ..) (ancestorCall_outExt ..)

/-! ### Registry shape: a stream call only rewrites compound entries -/

/-- Everything in the registry except the compound table is untouched by
emission (`aupdate` only rewrites `compounds`). -/
def EnvShapeEq (e e' : Env) : Prop :=
  e'.basics = e.basics ∧ e'.enums = e.enums ∧ e'.flags = e.flags ∧
    e'.blocks = e.blocks ∧ e'.natives = e.natives

theorem EnvShapeEq_refl (e : Env) : EnvShapeEq e e :=
  ⟨rfl, rfl, rfl, rfl, rfl⟩

theorem EnvShapeEq_trans {a b c : Env} (h1 : EnvShapeEq a b) (h2 : EnvShapeEq b c) :
    EnvShapeEq a c := by
  obtain ⟨x1, x2, x3, x4, x5⟩ := h1
  obtain ⟨y1, y2, y3, y4, y5⟩ := h2
  exact ⟨y1.trans x1, y2.trans x2, y3.trans x3, y4.trans x4, y5.trans x5⟩

theorem leafOrRecurse_shape (rec_ : StreamRec)
    (hrecS : ∀ e b act lp p ap am c, EnvShapeEq e (rec_ e b act lp p ap am c).2.2.1)
    (envIn : Env) (action : Nat) (strm localpfx y_arg_pfx : String) (argm : Option Member)
    (y : Member) (subOpt : Option SubBlock) (z y_pfx : String) (cArr : CState) :
    EnvShapeEq envIn (leafOrRecurse rec_ envIn action strm localpfx y_arg_pfx argm y subOpt z
      y_pfx cArr).2 := by
  unfold leafOrRecurse
  split
  · exact EnvShapeEq_refl _
  · split
    · obtain ⟨x1, x2, x3, x4, x5⟩ := hrecS envIn _ action (localpfx ++ y.cname ++ "_")
        (_ ++ ".") y_arg_pfx argm cArr
      exact ⟨x1, x2, x3, x4, x5⟩
    · exact EnvShapeEq_refl _

theorem streamMember_shape (rec_ : StreamRec)
    (hrecS : ∀ e b act lp p ap am c, EnvShapeEq e (rec_ e b act lp p ap am c).2.2.1)
    (envIn : Env) (action : Nat) (strm localpfx pfx argpfx : String)
    (argMember : Option Member) (blk : Compound) (stIn : LoopSt) (yIn : Member) :
    EnvShapeEq envIn
      (streamMember rec_ envIn action strm localpfx pfx argpfx argMember blk stIn yIn).env := by
  unfold streamMember
  dsimp only
  split
  · exact EnvShapeEq_refl _
  · split
    · exact EnvShapeEq_refl _
    · dsimp only
      exact leafOrRecurse_shape rec_ hrecS ..

theorem streamMembers_shape (rec_ : StreamRec)
    (hrecS : ∀ e b act lp p ap am c, EnvShapeEq e (rec_ e b act lp p ap am c).2.2.1)
    (action : Nat) (strm localpfx pfx argpfx : String) (argMember : Option Member)
    (blk : Compound) :
    ∀ (ms : List Member) (st : LoopSt) (env : Env),
      EnvShapeEq env
        (streamMembers rec_ action strm localpfx pfx argpfx argMember blk st env ms).2.2.1
  | [], st, env => EnvShapeEq_refl env
  | y :: rest, st, env => by
    unfold streamMembers
    rcases hsp : streamMembers rec_ action strm localpfx pfx argpfx argMember blk
      (streamMember rec_ env action strm localpfx pfx argpfx argMember blk st y).st
      (streamMember rec_ env action strm localpfx pfx argpfx argMember blk st y).env rest
      with ⟨st', rest', env', n⟩
    have h1 := streamMember_shape rec_ hrecS env action strm localpfx pfx argpfx argMember blk st y
    have h2 := streamMembers_shape rec_ hrecS action strm localpfx pfx argpfx argMember blk rest
      (streamMember rec_ env action strm localpfx pfx argpfx argMember blk st y).st
      (streamMember rec_ env action strm localpfx pfx argpfx argMember blk st y).env
    rw [hsp] at h2
    simpa [hsp] using EnvShapeEq_trans h1 h2

/-- A whole `stream` call only rewrites compound entries of the registry. -/
theorem stream_shape :
    ∀ (fuelN : Nat) (env : Env) (blk : Compound) (action : Nat)
      (localpfx pfx argpfx : String) (argMember : Option Member) (cst : CState),
      EnvShapeEq env (stream fuelN env blk action localpfx pfx argpfx argMember cst).2.2.1 := by
  intro fuelN
  induction fuelN with
  | zero => intro env blk action lp pfx ap am cst; exact EnvShapeEq_refl _
  | succ fm ih =>
    intro env blk action lp pfx ap am cst
    unfold stream
    dsimp only
    exact streamMembers_shape _ (fun e b act l p a m c => ih e b act l p a m c) ..

/-- In particular the block-name table, consulted by `Expression.code`,
never changes. -/
theorem stream_blockNames (fuelN : Nat) (env : Env) (blk : Compound) (action : Nat)
    (localpfx pfx argpfx : String) (argMember : Option Member) (cst : CState) :
    (stream fuelN env blk action localpfx pfx argpfx argMember cst).2.2.1.blockNames =
      env.blockNames := by
  have h := (stream_shape fuelN env blk action localpfx pfx argpfx argMember cst).2.2.2.1
  simp [Env.blockNames, h]
/-- The version-tuple change test of the grouping algorithm. -/
def verChanged (st : LoopSt) (y : Member) (vc : String) : Bool :=
  decide (st.lastver1 ≠ y.ver1) || decide (st.lastver2 ≠ y.ver2) ||
    decide (st.lastuserver ≠ y.userver) || decide (st.lastuserver2 ≠ y.userver2) ||
    decide (st.lastvercond ≠ some vc)

theorem guardTransition_opened (action : Nat)
    (hact : action = ACTION_READ ∨ action = ACTION_WRITE ∨ action = ACTION_FIXLINKS)
    (st0 : LoopSt) (y : Member) (y_cond y_vercond : String) :
    (guardTransition action st0 y y_cond y_vercond).2.2 =
      (verChanged st0 y y_vercond && decide (verexprOf y y_vercond ≠ "")) := by
  obtain h | h | h := hact <;> subst h <;>
  · unfold guardTransition verChanged
    simp only [ACTION_READ, ACTION_WRITE, ACTION_FIXLINKS, ACTION_OUT]
    norm_num
    split
    · rename_i hch
      dsimp only
      split
      · rename_i hv
        simp_all
      · rename_i hv
        simp_all
    · rename_i hch
      split <;> simp_all

theorem streamMember_facts (rec_ : StreamRec) (envIn : Env) (action : Nat)
    (strm localpfx pfx argpfx : String) (argMember : Option Member) (blk : Compound)
    (stIn : LoopSt) (yIn : Member)
    (hact : action = ACTION_READ ∨ action = ACTION_WRITE ∨
      (action = ACTION_FIXLINKS ∧ ∃ i, alookup envIn.basics yIn.type_ = some i ∧
        (i.has_links = true ∨ i.has_crossrefs = true))) :
    (streamMember rec_ envIn action strm localpfx pfx argpfx argMember blk stIn yIn).verOpened
        = (verChanged stIn yIn (vercondText envIn.blockNames yIn) &&
           decide (verexprOf yIn (vercondText envIn.blockNames yIn) ≠ "")) ∧
    (streamMember rec_ envIn action strm localpfx pfx argpfx argMember blk stIn yIn).st.lastver1 = yIn.ver1 ∧
    (streamMember rec_ envIn action strm localpfx pfx argpfx argMember blk stIn yIn).st.lastver2 = yIn.ver2 ∧
    (streamMember rec_ envIn action strm localpfx pfx argpfx argMember blk stIn yIn).st.lastuserver = yIn.userver ∧
    (streamMember rec_ envIn action strm localpfx pfx argpfx argMember blk stIn yIn).st.lastuserver2 = yIn.userver2 ∧
    (streamMember rec_ envIn action strm localpfx pfx argpfx argMember blk stIn yIn).st.lastvercond
        = some (vercondText envIn.blockNames yIn) := by
  obtain h | h | ⟨h, i, hi, hl⟩ := hact <;> subst h
  · refine ⟨?_, ?_, ?_, ?_, ?_, ?_⟩
    case _ =>
      unfold streamMember
      simp only [ACTION_READ, ACTION_WRITE, ACTION_FIXLINKS, ACTION_GETREFS, ACTION_GETPTRS,
        ACTION_OUT]
      norm_num
      rw [guardTransition_opened 0 (by simp [ACTION_READ, ACTION_WRITE, ACTION_FIXLINKS])]
      simp only [ne_eq, decide_not]
      rfl
    all_goals rfl
  · refine ⟨?_, ?_, ?_, ?_, ?_, ?_⟩
    case _ =>
      unfold streamMember
      simp only [ACTION_READ, ACTION_WRITE, ACTION_FIXLINKS, ACTION_GETREFS, ACTION_GETPTRS,
        ACTION_OUT]
      norm_num
      rw [guardTransition_opened 1 (by simp [ACTION_READ, ACTION_WRITE, ACTION_FIXLINKS])]
      simp only [ne_eq, decide_not]
      rfl
    all_goals rfl
  · refine ⟨?_, ?_, ?_, ?_, ?_, ?_⟩
    case _ =>
      unfold streamMember
      simp only [ACTION_READ, ACTION_WRITE, ACTION_FIXLINKS, ACTION_GETREFS, ACTION_GETPTRS,
        ACTION_OUT, lookupSub, hi, SubBlock.has_links, SubBlock.has_crossrefs]
      obtain hl | hl := hl <;> simp only [hl] <;> norm_num <;>
        rw [guardTransition_opened 3 (by simp [ACTION_READ, ACTION_WRITE, ACTION_FIXLINKS])] <;>
        simp only [ne_eq, decide_not] <;> rfl
    all_goals
      unfold streamMember
      simp only [ACTION_READ, ACTION_WRITE, ACTION_FIXLINKS, ACTION_GETREFS, ACTION_GETPTRS,
        ACTION_OUT, lookupSub, hi, SubBlock.has_links, SubBlock.has_crossrefs]
      obtain hl | hl := hl <;> simp only [hl] <;> norm_num <;> rfl

/-- A tuple of version metadata, as compared between consecutive fields. -/
abbrev VTup := Option Int × Option Int × Option Int × Option Int × String

/-- The loop trackers hold exactly the version tuple of the previously
processed field (`none` before the first). -/
def TrackMatch (st : LoopSt) : Option VTup → Prop
  | none => st.lastvercond = none
  | some t => st.lastver1 = t.1 ∧ st.lastver2 = t.2.1 ∧ st.lastuserver = t.2.2.1 ∧
      st.lastuserver2 = t.2.2.2.1 ∧ st.lastvercond = some t.2.2.2.2

theorem verexprOf_vtuple (bn : List String) (y : Member) :
    vtupleVerexpr (verTuple bn y) = verexprOf y (vercondText bn y) := rfl

theorem verChanged_track (bn : List String) (st : LoopSt) (y : Member) (prev : Option VTup)
    (h : TrackMatch st prev) :
    verChanged st y (vercondText bn y) = decide (some (verTuple bn y) ≠ prev) := by
  cases prev with
  | none =>
    simp only [TrackMatch] at h
    simp [verChanged, h]
  | some t =>
    obtain ⟨h1, h2, h3, h4, h5⟩ := h
    rw [Bool.eq_iff_iff]
    simp only [verChanged, verTuple, h1, h2, h3, h4, h5, Bool.or_eq_true, decide_eq_true_eq,
      ne_eq, Option.some.injEq, Prod.mk.injEq, Prod.ext_iff]
    constructor
    · rintro ((((h | h) | h) | h) | h) hc <;> exact h (by simp [hc.1, hc.2.1, hc.2.2.1,
        hc.2.2.2.1, hc.2.2.2.2])
    · intro hne
      by_contra hall
      push_neg at hall
      exact hne (by
        obtain ⟨⟨⟨⟨q1, q2⟩, q3⟩, q4⟩, q5⟩ := hall
        exact ⟨q1.symm, q2.symm, q3.symm, q4.symm, q5.symm⟩)

theorem streamMembers_opens (rec_ : StreamRec)
    (hrecS : ∀ e b act lp p ap am c, EnvShapeEq e (rec_ e b act lp p ap am c).2.2.1)
    (action : Nat) (strm localpfx pfx argpfx : String) (argMember : Option Member)
    (blk : Compound) (bn : List String) (basics0 : List (String × TypeInfo))
    (hact : action = ACTION_READ ∨ action = ACTION_WRITE ∨ action = ACTION_FIXLINKS) :
    ∀ (ms : List Member) (st : LoopSt) (env : Env),
      ∀ (prev : Option VTup), env.blockNames = bn → env.basics = basics0 →
      TrackMatch st prev →
      (action = ACTION_FIXLINKS → ∀ y ∈ ms, ∃ i, alookup basics0 y.type_ = some i ∧
        (i.has_links = true ∨ i.has_crossrefs = true)) →
      (streamMembers rec_ action strm localpfx pfx argpfx argMember blk st env ms).2.2.2 =
        runCountPAux (fun t => decide (vtupleVerexpr t ≠ "")) prev (ms.map (verTuple bn))
  | [], st, env, prev, hbn, hb, htm, hfix => rfl
  | y :: rest, st, env, prev, hbn, hb, htm, hfix => by
    have hactm : action = ACTION_READ ∨ action = ACTION_WRITE ∨
        (action = ACTION_FIXLINKS ∧ ∃ i, alookup env.basics y.type_ = some i ∧
          (i.has_links = true ∨ i.has_crossrefs = true)) := by
      rcases hact with h | h | h
      · exact Or.inl h
      · exact Or.inr (Or.inl h)
      · exact Or.inr (Or.inr ⟨h, by rw [hb]; exact hfix h y (List.mem_cons_self y rest)⟩)
    obtain ⟨hop, hv1, hv2, hu1, hu2, hvc⟩ :=
      streamMember_facts rec_ env action strm localpfx pfx argpfx argMember blk st y hactm
    have hshape := streamMember_shape rec_ hrecS env action strm localpfx pfx argpfx
      argMember blk st y
    have hbn' : (streamMember rec_ env action strm localpfx pfx argpfx argMember blk
        st y).env.blockNames = bn := by
      rw [Env.blockNames, hshape.2.2.2.1, ← Env.blockNames, hbn]
    have hb' : (streamMember rec_ env action strm localpfx pfx argpfx argMember blk
        st y).env.basics = basics0 := by rw [hshape.1, hb]
    have htm' : TrackMatch (streamMember rec_ env action strm localpfx pfx argpfx argMember blk
        st y).st (some (verTuple bn y)) := by
      refine ⟨hv1, hv2, hu1, hu2, ?_⟩
      rw [hvc, hbn]
      rfl
    have hfix' : action = ACTION_FIXLINKS → ∀ z ∈ rest, ∃ i, alookup basics0 z.type_ = some i ∧
        (i.has_links = true ∨ i.has_crossrefs = true) :=
      fun ha z hz => hfix ha z (List.mem_cons_of_mem y hz)
    have ih := streamMembers_opens rec_ hrecS action strm localpfx pfx argpfx argMember blk
      bn basics0 hact rest
      (streamMember rec_ env action strm localpfx pfx argpfx argMember blk st y).st
      (streamMember rec_ env action strm localpfx pfx argpfx argMember blk st y).env
      (some (verTuple bn y)) hbn' hb' htm' hfix'
    unfold streamMembers
    rcases hsp : streamMembers rec_ action strm localpfx pfx argpfx argMember blk
      (streamMember rec_ env action strm localpfx pfx argpfx argMember blk st y).st
      (streamMember rec_ env action strm localpfx pfx argpfx argMember blk st y).env rest
      with ⟨st', rest', env', n⟩
    rw [hsp] at ih
    simp only [hsp, List.map_cons, runCountPAux, ih]
    congr 1
    simp only [hop, hbn, verChanged_track bn st y prev htm, ← verexprOf_vtuple]

/-! ### The pre-pass and the array loops: C3 infrastructure -/

theorem cfCode_out (st : CState) (txt : String) :
    (cfCode st txt).out = st.out ++ [cfChunk st.indent txt] := rfl

/-- A fold whose step never emits is the identity on the file state. -/
theorem foldl_congr_id {α : Type} (f : CState → α → CState) (hid : ∀ c a, f c a = c) :
    ∀ (l : List α) (c : CState), List.foldl f c l = c
  | [], _ => rfl
  | a :: l', c => by rw [List.foldl_cons, hid, foldl_congr_id f hid l']

/-- If some element's step always emits a line satisfying `P`, and every
step only appends, the fold's output contains a line satisfying `P`. -/
theorem foldl_out_mem {α : Type} (P : String → Prop) (f : CState → α → CState)
    (hext : ∀ c a, OutExt c (f c a)) :
    ∀ (l : List α) (y : α), y ∈ l → (∀ c, ∃ s, s ∈ (f c y).out ∧ P s) →
      ∀ cst, ∃ s, s ∈ (List.foldl f cst l).out ∧ P s
  | [], y, hy, _, _ => absurd hy (List.not_mem_nil y)
  | a :: l', y, hy, hstep, cst => by
    rcases List.mem_cons.mp hy with h | h
    · subst h
      obtain ⟨s, hs, hP⟩ := hstep cst
      obtain ⟨t, ht⟩ := foldl_outExt f hext l' (f cst y)
      exact ⟨s, by rw [List.foldl_cons, ht]; exact List.mem_append_left _ hs, hP⟩
    · exact foldl_out_mem P f hext l' y h hstep (f cst a)

/-- The reverse pre-pass emits nothing (and changes nothing) for Read:
the loop body is entered but every member falls through to the
no-emission branch. -/
theorem prePass_read (env : Env) (blk : Compound) (pfx : String) (cst : CState) :
    prePass env blk ACTION_READ pfx cst = cst := by
  unfold prePass
  rw [if_pos (by simp [ACTION_READ, ACTION_WRITE, ACTION_OUT])]
  apply foldl_congr_id
  intro c y
  rw [if_neg (by simp [ACTION_READ, ACTION_WRITE, ACTION_OUT])]

/-- In the Write pre-pass, a non-duplicate, non-manual count field with no
compute function, not flagged calculated, recorded as an (unmasked) arr1
size and resolving to the referring array, is assigned from the array's
`size()`. -/
theorem prePass_write_size (env : Env) (blk : Compound) (pfx : String) (cst : CState)
    (y cref : Member) (hy : y ∈ blk.members)
    (hdup : y.is_duplicate = false) (hman : y.is_manual_update = false)
    (hfunc : y.func = "") (hcalc : y.is_calculated = false)
    (href : y.arr1_ref ≠ []) (harr : y.arr1.lhs.truthy = false)
    (hfind : findMember env (env.blocks.length + 1) blk (y.arr1_ref.headD "") true
      = some cref) :
    ∃ s, s ∈ (prePass env blk ACTION_WRITE pfx cst).out ∧
      ∃ ind, s = cfChunk ind (pfx ++ y.cname ++ " = (" ++ y.ctype ++ ")(" ++ pfx ++
        cref.cname ++ ".size());") := by
  unfold prePass
  rw [if_pos (by simp [ACTION_READ, ACTION_WRITE, ACTION_OUT])]
  apply foldl_out_mem _ _ ?hext blk.members.reverse y (List.mem_reverse.mpr hy) ?hstep cst
  case hext =>
    intro c z
    repeat' first
      | apply outExt_cfCode_of
      | split
      | dsimp only
      | exact OutExt_refl _
  case hstep =>
    intro c
    rw [if_pos (by simp [ACTION_WRITE, ACTION_OUT, hdup, hman]),
      if_neg (by simp [hfunc]), if_neg (by simp [hcalc]), if_pos href, if_pos (by simp [harr]),
      hfind]
    exact ⟨_, by rw [cfCode_out]; exact List.mem_append_right _ (List.mem_singleton.mpr rfl),
      c.indent, rfl⟩

/-- On Read, a (non-numeric-length) array member's loop opening resizes
the container to the rendered length expression immediately before the
element loop: exactly two lines are written, the `resize` first and the
`for` loop second, with nothing in between. -/
theorem arr1LoopOpen_read_resize (bn : List String) (strm : String) (y : Member)
    (y_pfx y_arr1_pfx : String) (c0 : CState) (hdig : y.arr1.lhs.isdigit = false) :
    ∃ ind2, (arr1LoopOpen bn ACTION_READ strm y y_pfx y_arr1_pfx c0).out =
      c0.out ++
        [cfChunk c0.indent (y_pfx ++ y.cname ++ ".resize(" ++
           String.mk (exprCode bn y.arr1 y_arr1_pfx.data) ++ ");"),
         cfChunk ind2 ("for (unsigned int i" ++ iS ind2 ++ " = 0; i" ++ iS ind2 ++
           " < " ++ y_pfx ++ y.cname ++ ".size(); i" ++ iS ind2 ++ "++) " ++ lcubS)] := by
  refine ⟨(cfCode c0 (y_pfx ++ y.cname ++ ".resize(" ++
    String.mk (exprCode bn y.arr1 y_arr1_pfx.data) ++ ");")).indent, ?_⟩
  simp [arr1LoopOpen, ACTION_READ, ACTION_OUT, hdig, cfCode_out]

/-! ### Member patching and duplicate exclusion: C4 infrastructure -/

/-- `member_code_construct` (gen_niflib.py lines 165-172): `None` unless
the member has a default and is not a duplicate. -/
def member_code_construct (m : Member) : Option String :=
  if strTruthy m.dflt.data && !m.is_duplicate then
    some (m.cname ++ "(" ++ m.dflt ++ ")")
  else none

/-- `compound_code_construct` (lines 281-294): the constructor-initializer
text, chaining the truthy per-member pieces. -/
def compound_code_construct (c : Compound) : String :=
  (c.members.foldl (fun (acc : String × Bool) mem =>
    let result := acc.1
    let first := acc.2
    match member_code_construct mem with
    | some y =>
      if strTruthy y.data then
        if !first then (result ++ ", " ++ y, first) else (result ++ " : " ++ y, false)
      else (result, first)
    | none => (result, first)) ("", true)).1

/-- The member-variable formatter (lines 740-755) declares, in document
order, exactly the members not flagged duplicate; a duplicate member is
skipped before anything is emitted for it. -/
def declaredMembers (blk : Compound) : List Member :=
  blk.members.filter (fun m => !m.is_duplicate)

/-- A duplicate member contributes nothing to the constructor-initializer
text. -/
theorem member_code_construct_dup (m : Member) (h : m.is_duplicate = true) :
    member_code_construct m = none := by
  simp [member_code_construct, h]

/-- Under Describe (asString), a duplicate member is skipped before any
emission: the file state, the member, the registry and the guard flag all
pass through unchanged. -/
theorem streamMember_out_dup (rec_ : StreamRec) (envIn : Env)
    (strm localpfx pfx argpfx : String) (argMember : Option Member) (blk : Compound)
    (stIn : LoopSt) (yIn : Member) (hdup : yIn.is_duplicate = true) :
    (streamMember rec_ envIn ACTION_OUT strm localpfx pfx argpfx argMember blk stIn yIn).st.cst
        = stIn.cst ∧
    (streamMember rec_ envIn ACTION_OUT strm localpfx pfx argpfx argMember blk stIn yIn).y
        = yIn ∧
    (streamMember rec_ envIn ACTION_OUT strm localpfx pfx argpfx argMember blk stIn yIn).env
        = envIn ∧
    (streamMember rec_ envIn ACTION_OUT strm localpfx pfx argpfx argMember blk stIn
      yIn).verOpened = false := by
  unfold streamMember
  simp [ACTION_OUT, ACTION_FIXLINKS, ACTION_GETREFS, ACTION_GETPTRS, hdup]

/-! ### The Describe counter reset: C9 infrastructure -/

/-- Under Describe, the first line the loop opening of an array field
writes is the counter re-initialisation. -/
theorem arr1LoopOpen_out_reset (bn : List String) (strm : String) (y : Member)
    (y_pfx y_arr1_pfx : String) (c0 : CState) :
    ∃ t, (arr1LoopOpen bn ACTION_OUT strm y y_pfx y_arr1_pfx c0).out =
      c0.out ++ cfChunk c0.indent "array_output_count = 0;" :: t := by
  have hext : OutExt (cfCode c0 "array_output_count = 0;")
      (arr1LoopOpen bn ACTION_OUT strm y y_pfx y_arr1_pfx c0) := by
    unfold arr1LoopOpen
    simp only [ACTION_OUT, ACTION_READ, reduceIte]
    apply outExt_cfCode_of
    apply outExt_cfCode_of
    apply outExt_cfCode_of
    apply outExt_cfCode_of
    split
    · apply outExt_cfCode_of
      split
      · rename_i h
        simp at h
      · exact OutExt_refl _
    · apply outExt_cfCode_of
      exact OutExt_refl _
  obtain ⟨t, ht⟩ := hext
  exact ⟨t, by rw [ht, cfCode_out]; simp⟩

/-- The same through `arrayLoopsOpen`: for an array member (truthy arr1),
the counter reset heads the emitted array-opening lines. -/
theorem arrayLoopsOpen_out_reset (bn : List String) (strm : String) (y : Member)
    (y_pfx y_arr1_pfx y_arr2_pfx : String) (c0 : CState)
    (harr : y.arr1.lhs.truthy = true) :
    ∃ t, (arrayLoopsOpen bn ACTION_OUT strm y y_pfx y_arr1_pfx y_arr2_pfx c0).1.out =
      c0.out ++ cfChunk c0.indent "array_output_count = 0;" :: t := by
  unfold arrayLoopsOpen
  rw [if_neg (by simp [harr])]
  obtain ⟨t0, h0⟩ := arr1LoopOpen_out_reset bn strm y y_pfx y_arr1_pfx c0
  split
  · exact ⟨t0, h0⟩
  · obtain ⟨u, hu⟩ := arr2LoopOpen_outExt bn ACTION_OUT y y_pfx y_arr2_pfx
      (arr1LoopOpen bn ACTION_OUT strm y y_pfx y_arr1_pfx c0)
    exact ⟨t0 ++ u, by rw [hu, h0]; simp⟩

/-- Chaining: guard lines, then a reset-headed block, then arbitrary
following emission. -/
theorem outExt_chain_reset {B C D0 D : CState} (s : String)
    (h1 : OutExt B C) (h2 : ∃ t, D0.out = C.out ++ cfChunk C.indent s :: t)
    (h3 : OutExt D0 D) :
    ∃ pre ind t, D.out = B.out ++ (pre ++ cfChunk ind s :: t) := by
  obtain ⟨p, hp⟩ := h1
  obtain ⟨t0, ht0⟩ := h2
  obtain ⟨u, hu⟩ := h3
  exact ⟨p, C.indent, t0 ++ u, by rw [hu, ht0, hp]; simp⟩

set_option maxHeartbeats 1000000 in
/-- Under Describe, a non-duplicate array member (whose length expression
is not the substituted `ARG`) re-initialises the emission counter before
anything else of the array is emitted: after the (possible) condition
transition lines, the counter reset is written, then the rest of the
member's chunk. -/
theorem streamMember_out_array_reset (rec_ : StreamRec)
    (hrec : ∀ e b act lp p ap am c, OutExt c (rec_ e b act lp p ap am c).1)
    (envIn : Env) (strm localpfx pfx argpfx : String) (argMember : Option Member)
    (blk : Compound) (stIn : LoopSt) (yIn : Member)
    (hdup : yIn.is_duplicate = false) (harg : lhsEq yIn.arr1 "ARG" = false)
    (harr : yIn.arr1.lhs.truthy = true) :
    ∃ pre ind t,
      (streamMember rec_ envIn ACTION_OUT strm localpfx pfx argpfx argMember blk stIn
        yIn).st.cst.out =
      stIn.cst.out ++ (pre ++ cfChunk ind "array_output_count = 0;" :: t) := by
  unfold streamMember
  dsimp only
  rw [if_neg (by simp [ACTION_OUT, ACTION_FIXLINKS, ACTION_GETREFS, ACTION_GETPTRS]),
    if_neg (by simp [hdup])]
  dsimp only
  simp only [harg, Bool.false_eq_true, if_false]
  exact outExt_chain_reset "array_output_count = 0;"
    (guardTransition_outExt ..)
    (arrayLoopsOpen_out_reset _ _ _ _ _ _ _ (by simpa using harr))
    (arrClose_outExt_of (leafOrRecurse_outExt_of _ hrec (OutExt_refl _) ..) _)

/-! ### The ARG frame property: C8 infrastructure -/

/-- No expression of the member has the reserved `ARG` as left-hand
side. -/
def NoArgM (y : Member) : Prop :=
  lhsEq y.arr1 "ARG" = false ∧ lhsEq y.arr2 "ARG" = false ∧ lhsEq y.cond "ARG" = false

theorem alookup_mem {α : Type} {k : String} {v : α} :
    ∀ {l : List (String × α)}, alookup l k = some v → (k, v) ∈ l
  | [], h => by simp [alookup] at h
  | p :: rest, h => by
    by_cases hp : p.1 = k
    · rw [alookup, List.find?_cons_of_pos _ (by simp [hp])] at h
      have h2 : p.2 = v := by simpa using h
      rw [← hp, ← h2]
      exact List.mem_cons_self p rest
    · rw [alookup, List.find?_cons_of_neg _ (by simp [hp])] at h
      exact List.mem_cons_of_mem p (alookup_mem h)

theorem aupdate_absent {α : Type} (k : String) (v : α) :
    ∀ (l : List (String × α)), k ∉ l.map Prod.fst → aupdate l k v = l
  | [], _ => rfl
  | p :: rest, h => by
    simp only [List.map_cons, List.mem_cons, not_or] at h
    simp only [aupdate, List.map_cons]
    rw [if_neg (fun he => h.1 he.symm)]
    have := aupdate_absent k v rest h.2
    simp only [aupdate] at this
    rw [this]

/-- Re-writing a uniquely-keyed binding with the value it already holds
is the identity. -/
theorem aupdate_self {α : Type} (k : String) (v : α) :
    ∀ (l : List (String × α)), (l.map Prod.fst).Nodup → alookup l k = some v →
      aupdate l k v = l
  | [], _, hl => by simp [alookup] at hl
  | p :: rest, hnd, hl => by
    simp only [List.map_cons, List.nodup_cons] at hnd
    by_cases hp : p.1 = k
    · rw [alookup, List.find?_cons_of_pos _ (by simp [hp])] at hl
      have h2 : p.2 = v := by simpa using hl
      simp only [aupdate, List.map_cons]
      rw [if_pos hp]
      have habs := aupdate_absent k v rest (by rw [← hp]; exact hnd.1)
      simp only [aupdate] at habs
      rw [habs, ← hp, ← h2]
    · rw [alookup, List.find?_cons_of_neg _ (by simp [hp])] at hl
      simp only [aupdate, List.map_cons]
      rw [if_neg hp]
      have := aupdate_self k v rest hnd.2 hl
      simp only [aupdate] at this
      rw [this]

/-- The recursion hypothesis of the frame property: a recursive call on
an `ARG`-free block of an `ARG`-free registry returns the block and the
registry unchanged. -/
def RecNoArg (rec_ : StreamRec) : Prop :=
  ∀ e b act lp p ap am c,
    (∀ y ∈ b.members, NoArgM y) →
    (∀ q ∈ e.compounds, ∀ y ∈ q.2.members, NoArgM y) →
    (e.compounds.map Prod.fst).Nodup →
    (rec_ e b act lp p ap am c).2.1 = b ∧ (rec_ e b act lp p ap am c).2.2.1 = e

theorem leafOrRecurse_noArg (rec_ : StreamRec) (hrec : RecNoArg rec_)
    (envIn : Env) (action : Nat) (strm localpfx y_arg_pfx : String) (argm : Option Member)
    (y : Member) (subOpt : Option SubBlock) (z y_pfx : String) (cArr : CState)
    (hcomp : ∀ q ∈ envIn.compounds, ∀ y_ ∈ q.2.members, NoArgM y_)
    (hnd : (envIn.compounds.map Prod.fst).Nodup) :
    (leafOrRecurse rec_ envIn action strm localpfx y_arg_pfx argm y subOpt z
      y_pfx cArr).2 = envIn := by
  unfold leafOrRecurse
  split
  · rfl
  · split
    · rename_i sub hsub
      have hmem := alookup_mem hsub
      obtain ⟨hb, he⟩ := hrec envIn sub action (localpfx ++ y.cname ++ "_") (z ++ ".")
        y_arg_pfx argm cArr (fun y_ hy_ => hcomp _ hmem y_ hy_) hcomp hnd
      dsimp only
      rw [hb, he, aupdate_self y.type_ sub envIn.compounds hnd hsub]
    · rfl

theorem streamMember_noArg (rec_ : StreamRec) (hrec : RecNoArg rec_)
    (envIn : Env) (action : Nat) (strm localpfx pfx argpfx : String)
    (argMember : Option Member) (blk : Compound) (stIn : LoopSt) (yIn : Member)
    (hy : NoArgM yIn)
    (hcomp : ∀ q ∈ envIn.compounds, ∀ y_ ∈ q.2.members, NoArgM y_)
    (hnd : (envIn.compounds.map Prod.fst).Nodup) :
    (streamMember rec_ envIn action strm localpfx pfx argpfx argMember blk stIn yIn).y
        = yIn ∧
    (streamMember rec_ envIn action strm localpfx pfx argpfx argMember blk stIn yIn).env
        = envIn := by
  obtain ⟨h1, h2, h3⟩ := hy
  unfold streamMember
  dsimp only
  split
  · exact ⟨rfl, rfl⟩
  · split
    · exact ⟨rfl, rfl⟩
    · dsimp only
      constructor
      · simp only [h1, h2, h3, Bool.false_eq_true, if_false]
      · exact leafOrRecurse_noArg rec_ hrec envIn action strm localpfx _ _ _ _ _ _ _
          hcomp hnd

theorem streamMembers_noArg (rec_ : StreamRec) (hrec : RecNoArg rec_)
    (action : Nat) (strm localpfx pfx argpfx : String) (argMember : Option Member)
    (blk : Compound) :
    ∀ (ms : List Member) (st : LoopSt) (env : Env),
      (∀ y ∈ ms, NoArgM y) →
      (∀ q ∈ env.compounds, ∀ y_ ∈ q.2.members, NoArgM y_) →
      (env.compounds.map Prod.fst).Nodup →
      (streamMembers rec_ action strm localpfx pfx argpfx argMember blk st env ms).2.1
          = ms ∧
      (streamMembers rec_ action strm localpfx pfx argpfx argMember blk st env ms).2.2.1
          = env
  | [], st, env, _, _, _ => ⟨rfl, rfl⟩
  | y :: rest, st, env, hms, hcomp, hnd => by
    obtain ⟨hy, henv⟩ := streamMember_noArg rec_ hrec env action strm localpfx pfx argpfx
      argMember blk st y (hms y (List.mem_cons_self y rest)) hcomp hnd
    have ih := streamMembers_noArg rec_ hrec action strm localpfx pfx argpfx argMember blk
      rest (streamMember rec_ env action strm localpfx pfx argpfx argMember blk st y).st
      (streamMember rec_ env action strm localpfx pfx argpfx argMember blk st y).env
      (fun z hz => hms z (List.mem_cons_of_mem y hz))
      (by rw [henv]; exact hcomp) (by rw [henv]; exact hnd)
    unfold streamMembers
    rcases hsp : streamMembers rec_ action strm localpfx pfx argpfx argMember blk
      (streamMember rec_ env action strm localpfx pfx argpfx argMember blk st y).st
      (streamMember rec_ env action strm localpfx pfx argpfx argMember blk st y).env rest
      with ⟨st2, rest2, env2, n2⟩
    simp only [hsp] at ih
    simp only [hsp]
    exact ⟨by rw [hy, ih.1], ih.2.trans henv⟩

/-- The frame property of a whole `stream` call: on an `ARG`-free block
over an `ARG`-free, uniquely-keyed registry, the block (member order
restored) and the registry come back unchanged, for every action. -/
theorem stream_noArg :
    ∀ (fuelN : Nat), RecNoArg (fun e b act lp p ap am c => stream fuelN e b act lp p ap am c)
  | 0 => fun _ _ _ _ _ _ _ _ _ _ _ => ⟨rfl, rfl⟩
  | fuelM + 1 => by
    intro env blk action lp pfx ap am cst hblk hcomp hnd
    obtain ⟨hms, henv⟩ := streamMembers_noArg _ (stream_noArg fuelM) action
      (if action = ACTION_READ then "in" else "out") lp pfx ap am blk blk.members
      { cst := prePass env blk action pfx (ancestorCall env blk action
          (if action = ACTION_READ then "in" else "out") (prepLines env blk action cst)) }
      env hblk hcomp hnd
    unfold stream
    dsimp only
    refine ⟨?_, henv⟩
    rw [hms]

/-- A member's `name` passes through one member step unchanged. -/
theorem streamMember_name (rec_ : StreamRec) (envIn : Env) (action : Nat)
    (strm localpfx pfx argpfx : String) (argMember : Option Member) (blk : Compound)
    (stIn : LoopSt) (yIn : Member) :
    (streamMember rec_ envIn action strm localpfx pfx argpfx argMember blk stIn
      yIn).y.name = yIn.name := by
  unfold streamMember
  dsimp only
  split
  · rfl
  · split
    · rfl
    · rfl

/-- The member loop returns the members in their original order (the
names are unchanged position by position). -/
theorem streamMembers_names (rec_ : StreamRec) (action : Nat)
    (strm localpfx pfx argpfx : String) (argMember : Option Member) (blk : Compound) :
    ∀ (ms : List Member) (st : LoopSt) (env : Env),
      (streamMembers rec_ action strm localpfx pfx argpfx argMember blk st env
        ms).2.1.map (fun m => m.name) = ms.map (fun m => m.name)
  | [], _, _ => rfl
  | y :: rest, st, env => by
    have ih := streamMembers_names rec_ action strm localpfx pfx argpfx argMember blk rest
      (streamMember rec_ env action strm localpfx pfx argpfx argMember blk st y).st
      (streamMember rec_ env action strm localpfx pfx argpfx argMember blk st y).env
    unfold streamMembers
    rcases hsp : streamMembers rec_ action strm localpfx pfx argpfx argMember blk
      (streamMember rec_ env action strm localpfx pfx argpfx argMember blk st y).st
      (streamMember rec_ env action strm localpfx pfx argpfx argMember blk st y).env rest
      with ⟨st2, rest2, env2, n2⟩
    rw [hsp] at ih
    simp only [hsp, List.map_cons]
    rw [streamMember_name, ih]

/-- One `stream` call restores the member-name list (the pre-pass
reverse is undone by collecting in forward order). -/
theorem stream_names (fuelM : Nat) (env : Env) (blk : Compound) (action : Nat)
    (localpfx pfx argpfx : String) (argMember : Option Member) (cst : CState) :
    (stream (fuelM + 1) env blk action localpfx pfx argpfx argMember
      cst).2.1.members.map (fun m => m.name) = blk.members.map (fun m => m.name) := by
  unfold stream
  dsimp only
  exact streamMembers_names _ action _ localpfx pfx argpfx argMember blk blk.members _ env

set_option maxHeartbeats 1000000 in
/-- Under Read or Write, a member whose `cond` / `arr1` / `arr2` uses the
reserved `ARG` and for which an argument member is supplied comes back
with that expression's left-hand side permanently replaced by the
argument member's name (and `clhs` set): the mutation survives the member
step. -/
theorem streamMember_argSub (rec_ : StreamRec) (envIn : Env) (action : Nat)
    (strm localpfx pfx argpfx : String) (am : Member) (blk : Compound)
    (stIn : LoopSt) (yIn : Member)
    (hact : action = ACTION_READ ∨ action = ACTION_WRITE) :
    (lhsEq yIn.arr1 "ARG" = true →
      (streamMember rec_ envIn action strm localpfx pfx argpfx (some am) blk stIn
        yIn).y.arr1 = setLhsClhs yIn.arr1 am.name am.cname) ∧
    (lhsEq yIn.arr2 "ARG" = true →
      (streamMember rec_ envIn action strm localpfx pfx argpfx (some am) blk stIn
        yIn).y.arr2 = setLhsClhs yIn.arr2 am.name am.cname) ∧
    (lhsEq yIn.cond "ARG" = true →
      (streamMember rec_ envIn action strm localpfx pfx argpfx (some am) blk stIn
        yIn).y.cond = setLhsClhs yIn.cond am.name am.cname) :=
  by
  obtain h | h := hact <;> subst h <;>
  · refine ⟨fun h1 => ?_, fun h2 => ?_, fun h3 => ?_⟩ <;>
    · unfold streamMember
      simp_all [ACTION_READ, ACTION_WRITE, ACTION_FIXLINKS, ACTION_GETREFS, ACTION_GETPTRS,
        ACTION_OUT]

end GenNiflib

namespace Nifxml

/-- Any-distribution of a constant conjunct. -/
theorem any_and_const {α : Type} (p : α → Bool) (q : Bool) :
    ∀ (l : List α), l.any (fun a => p a && q) = (l.any p && q)
  | [] => by simp
  | a :: l => by
    rw [List.any_cons, List.any_cons, any_and_const p q l]
    cases q <;> simp

/-- `pure` and `bind` of `Except`, as rewriting equations. -/
theorem except_pure {ε α : Type} (a : α) : (pure a : Except ε α) = .ok a := rfl

theorem except_bind_ok {ε α β : Type} (a : α) (f : α → Except ε β) :
    ((Except.ok a : Except ε α) >>= f) = f a := rfl

/-- The previous-sibling fold, with a general accumulator: the duplicate
flag accumulates the per-sibling test `name matches ∧ self has no
suffix`. -/
theorem prevFacts_fold (selfName selfSuffix : String) (selfArr2 : PTerm) :
    ∀ (prevs : List RawSib) (acc : Bool × Bool),
      (∀ sib ∈ prevs, (∃ t, parseExpr none sib.arr1 = Except.ok t) ∧
        (∃ t, parseExpr none sib.arr2 = Except.ok t)) →
      ∃ dyn, prevs.foldlM
          (fun (acc : Bool × Bool) sib => do
            let (dup, dyn) := acc
            let sisArr1 ← parseExpr none sib.arr1
            let _sisArr2 ← parseExpr none sib.arr2
            let dup' := dup || (sib.name = selfName && selfSuffix = "")
            let dyn' := dyn || (lhsEq selfArr2 sib.name && sisArr1.lhs.truthy)
            pure (dup', dyn')) acc
        = .ok (acc.1 ||
            prevs.any (fun s => decide (s.name = selfName) && decide (selfSuffix = "")), dyn)
  | [], (a1, a2), _ => ⟨a2, by simp [List.foldlM, except_pure]⟩
  | sib :: rest, (a1, a2), hp => by
    obtain ⟨⟨t1, h1⟩, ⟨t2, h2⟩⟩ := hp sib (List.mem_cons_self sib rest)
    obtain ⟨dyn, ih⟩ := prevFacts_fold selfName selfSuffix selfArr2 rest
      (a1 || (decide (sib.name = selfName) && decide (selfSuffix = "")),
       a2 || (lhsEq selfArr2 sib.name && t1.lhs.truthy))
      (fun s hs => hp s (List.mem_cons_of_mem sib hs))
    refine ⟨dyn, ?_⟩
    rw [List.foldlM_cons]
    simp only [h1, h2, except_pure, except_bind_ok]
    simp only [except_pure] at ih
    rw [ih]
    simp [List.any_cons, Bool.or_assoc]

/-- The duplicate flag computed by the previous-sibling walk is exactly:
the field itself declares no suffix, and some earlier sibling has the
identical name (the sibling's own suffix is not examined). -/
theorem computePrevFacts_dup (selfName selfSuffix : String) (selfArr2 : PTerm)
    (prevs : List RawSib)
    (hp : ∀ sib ∈ prevs, (∃ t, parseExpr none sib.arr1 = Except.ok t) ∧
      (∃ t, parseExpr none sib.arr2 = Except.ok t)) :
    ∃ dyn, computePrevFacts selfName selfSuffix selfArr2 prevs =
      .ok ((decide (selfSuffix = "") && prevs.any (fun s => decide (s.name = selfName))), dyn) := by
  obtain ⟨dyn, h⟩ := prevFacts_fold selfName selfSuffix selfArr2 prevs (false, false) hp
  refine ⟨dyn, ?_⟩
  unfold computePrevFacts
  rw [h]
  rw [any_and_const (fun s => decide (s.name = selfName)) (decide (selfSuffix = "")) prevs]
  simp [Bool.and_comm]

/-- The next-sibling fold, with a general accumulator: each of the three
reference lists accumulates the names selected by its own filter. -/
theorem nextRefs_fold (selfName : String) :
    ∀ (nexts : List RawSib) (acc : List String × List String × List String),
      (∀ sib ∈ nexts, parseExpr none sib.arr1 = .ok (GenNiflib.pOf sib.arr1) ∧
        parseExpr none sib.arr2 = .ok (GenNiflib.pOf sib.arr2) ∧
        parseExpr none sib.cond = .ok (GenNiflib.pOf sib.cond)) →
      nexts.foldlM (fun (acc : List String × List String × List String) sib => do
          let (a1, a2, c) := acc
          let sisArr1 ← parseExpr none sib.arr1
          let sisArr2 ← parseExpr none sib.arr2
          let sisCond ← parseExpr none sib.cond
          let a1' := if lhsEq sisArr1 selfName &&
              (!sisArr1.rhs.truthy || sisArr1.rhs.isdigit) then a1 ++ [sib.name] else a1
          let a2' := if lhsEq sisArr2 selfName &&
              (!sisArr2.rhs.truthy || sisArr2.rhs.isdigit) then a2 ++ [sib.name] else a2
          let c' := if lhsEq sisCond selfName then c ++ [sib.name] else c
          pure (a1', a2', c')) acc
        = .ok (acc.1 ++ (nexts.filter (fun sib => lhsEq (GenNiflib.pOf sib.arr1) selfName &&
              (!(GenNiflib.pOf sib.arr1).rhs.truthy ||
                (GenNiflib.pOf sib.arr1).rhs.isdigit))).map (fun s => s.name),
            acc.2.1 ++ (nexts.filter (fun sib => lhsEq (GenNiflib.pOf sib.arr2) selfName &&
              (!(GenNiflib.pOf sib.arr2).rhs.truthy ||
                (GenNiflib.pOf sib.arr2).rhs.isdigit))).map (fun s => s.name),
            acc.2.2 ++ (nexts.filter (fun sib =>
              lhsEq (GenNiflib.pOf sib.cond) selfName)).map (fun s => s.name))
  | [], (a1, a2, c), _ => by simp [List.foldlM, except_pure]
  | sib :: rest, (a1, a2, c), hp => by
    obtain ⟨h1, h2, h3⟩ := hp sib (List.mem_cons_self sib rest)
    have ih := nextRefs_fold selfName rest
      (if lhsEq (GenNiflib.pOf sib.arr1) selfName &&
          (!(GenNiflib.pOf sib.arr1).rhs.truthy || (GenNiflib.pOf sib.arr1).rhs.isdigit) then
        a1 ++ [sib.name] else a1,
       if lhsEq (GenNiflib.pOf sib.arr2) selfName &&
          (!(GenNiflib.pOf sib.arr2).rhs.truthy || (GenNiflib.pOf sib.arr2).rhs.isdigit) then
        a2 ++ [sib.name] else a2,
       if lhsEq (GenNiflib.pOf sib.cond) selfName then c ++ [sib.name] else c)
      (fun s hs => hp s (List.mem_cons_of_mem sib hs))
    rw [List.foldlM_cons]
    simp only [h1, h2, h3, except_pure, except_bind_ok]
    simp only [except_pure] at ih
    rw [ih]
    cases hc1 : (lhsEq (GenNiflib.pOf sib.arr1) selfName &&
        (!(GenNiflib.pOf sib.arr1).rhs.truthy || (GenNiflib.pOf sib.arr1).rhs.isdigit)) <;>
      cases hc2 : (lhsEq (GenNiflib.pOf sib.arr2) selfName &&
        (!(GenNiflib.pOf sib.arr2).rhs.truthy || (GenNiflib.pOf sib.arr2).rhs.isdigit)) <;>
      cases hc3 : lhsEq (GenNiflib.pOf sib.cond) selfName <;>
      simp [List.filter_cons, hc1, hc2, hc3]

end Nifxml


namespace Nifxml

open Py

/-! ### Balanced brackets: the depth automaton -/

/-- The bracket characters of a string, in order. -/
def brackets (l : List Char) : List Char :=
  l.filter (fun c => c = '(' || c = ')')

/-- Run the bracket-depth automaton from depth `d`: `'('` pushes, `')'`
pops (failing on an unmatched close), everything else is skipped. -/
def bracketRun : List Char → Nat → Option Nat
  | [], d => some d
  | c :: cs, d =>
    if c = '(' then bracketRun cs (d + 1)
    else if c = ')' then
      match d with
      | 0 => none
      | d' + 1 => bracketRun cs d'
    else bracketRun cs d

/-- A string has balanced brackets: every close matches an open and every
open is eventually closed. -/
def Balanced (l : List Char) : Prop :=
  bracketRun l 0 = some 0

instance (l : List Char) : Decidable (Balanced l) := by
  unfold Balanced; infer_instance

/-- The net bracket depth of a string. -/
def depthRun : List Char → Int
  | [] => 0
  | c :: cs => (if c = '(' then 1 else if c = ')' then -1 else 0) + depthRun cs

theorem depthRun_append : ∀ (x y : List Char), depthRun (x ++ y) = depthRun x + depthRun y
  | [], y => by simp [depthRun]
  | c :: cs, y => by
    simp only [List.cons_append, depthRun]
    rw [show cs.append y = cs ++ y from rfl, depthRun_append cs y, add_assoc]

theorem bracketRun_append : ∀ (x y : List Char) (d : Nat),
    bracketRun (x ++ y) d = match bracketRun x d with
      | none => none
      | some e => bracketRun y e
  | [], y, d => by simp [bracketRun]
  | c :: cs, y, d => by
    simp only [List.cons_append, bracketRun]
    by_cases hc1 : c = '('
    · simp only [if_pos hc1]
      exact bracketRun_append cs y (d + 1)
    · simp only [if_neg hc1]
      by_cases hc2 : c = ')'
      · simp only [if_pos hc2]
        cases d with
        | zero => rfl
        | succ d' => exact bracketRun_append cs y d'
      · simp only [if_neg hc2]
        exact bracketRun_append cs y d

theorem bracketRun_mono : ∀ (l : List Char) (d e : Nat),
    bracketRun l d = some e → bracketRun l (d + 1) = some (e + 1)
  | [], d, e, h => by
    simp only [bracketRun, Option.some.injEq] at h ⊢
    omega
  | c :: cs, d, e, h => by
    simp only [bracketRun] at h ⊢
    by_cases hc1 : c = '('
    · simp only [if_pos hc1] at h ⊢
      exact bracketRun_mono cs (d + 1) e h
    · simp only [if_neg hc1] at h ⊢
      by_cases hc2 : c = ')'
      · simp only [if_pos hc2] at h ⊢
        cases d with
        | zero => simp at h
        | succ d' => exact bracketRun_mono cs d' e h
      · simp only [if_neg hc2] at h ⊢
        exact bracketRun_mono cs d e h

theorem bracketRun_depthRun : ∀ (l : List Char) (d e : Nat),
    bracketRun l d = some e → (e : Int) = (d : Int) + depthRun l
  | [], d, e, h => by
    simp only [bracketRun, Option.some.injEq] at h
    simp [depthRun, h]
  | c :: cs, d, e, h => by
    simp only [bracketRun] at h
    simp only [depthRun]
    by_cases hc1 : c = '('
    · simp only [if_pos hc1] at h ⊢
      have := bracketRun_depthRun cs (d + 1) e h
      push_cast at this
      omega
    · simp only [if_neg hc1] at h ⊢
      by_cases hc2 : c = ')'
      · simp only [if_pos hc2] at h ⊢
        cases d with
        | zero => simp at h
        | succ d' =>
          have := bracketRun_depthRun cs d' e h
          push_cast at this ⊢
          omega
      · simp only [if_neg hc2] at h ⊢
        have := bracketRun_depthRun cs d e h
        omega

/-- A bracket-free string leaves the automaton unchanged. -/
theorem bracketRun_nobracket : ∀ (l : List Char), brackets l = [] →
    ∀ d, bracketRun l d = some d
  | [], _, d => rfl
  | c :: cs, h, d => by
    simp only [brackets, List.filter_cons] at h
    split at h
    · exact absurd h (by simp)
    · rename_i hc
      simp only [Bool.or_eq_true, decide_eq_true_eq, not_or] at hc
      simp only [bracketRun, if_neg hc.1, if_neg hc.2]
      exact bracketRun_nobracket cs h d

theorem depthRun_nobracket : ∀ (l : List Char), brackets l = [] → depthRun l = 0
  | [], _ => rfl
  | c :: cs, h => by
    simp only [brackets, List.filter_cons] at h
    split at h
    · exact absurd h (by simp)
    · rename_i hc
      simp only [Bool.or_eq_true, decide_eq_true_eq, not_or] at hc
      simp only [depthRun, if_neg hc.1, if_neg hc.2]
      simpa using depthRun_nobracket cs h

/-- Without any `'('`, the net depth is non-positive, and negative as soon
as some `')'` occurs. -/
theorem depthRun_noopen : ∀ (l : List Char), '(' ∉ l →
    depthRun l ≤ 0 ∧ (')' ∈ l → depthRun l < 0)
  | [], _ => by simp [depthRun]
  | c :: cs, h => by
    simp only [List.mem_cons, not_or] at h
    have ih := depthRun_noopen cs h.2
    simp only [depthRun, if_neg (fun hc : c = '(' => h.1 hc.symm)]
    by_cases hc2 : c = ')'
    · simp only [if_pos hc2]
      have h1 := ih.1
      exact ⟨by omega, fun _ => by omega⟩
    · simp only [if_neg hc2]
      have h1 := ih.1
      refine ⟨by omega, fun hmem => ?_⟩
      rcases List.mem_cons.mp hmem with h9 | h9
      · exact absurd h9.symm hc2
      · have := ih.2 h9
        omega

theorem bracketRun_brackets : ∀ (l : List Char) (d : Nat),
    bracketRun l d = bracketRun (brackets l) d
  | [], d => rfl
  | c :: cs, d => by
    by_cases hc1 : c = '('
    · subst hc1
      have hb : brackets ('(' :: cs) = '(' :: brackets cs := by
        simp [brackets, List.filter_cons]
      rw [hb]
      simp only [bracketRun, if_pos rfl]
      exact bracketRun_brackets cs (d + 1)
    · by_cases hc2 : c = ')'
      · subst hc2
        have hb : brackets (')' :: cs) = ')' :: brackets cs := by
          simp [brackets, List.filter_cons]
        rw [hb]
        simp only [bracketRun, if_neg (by decide : ¬(')' = '(')), if_pos rfl]
        cases d with
        | zero => rfl
        | succ d' => exact bracketRun_brackets cs d'
      · have hb : brackets (c :: cs) = brackets cs := by
          simp [brackets, List.filter_cons, hc1, hc2]
        rw [hb]
        simp only [bracketRun, if_neg hc1, if_neg hc2]
        exact bracketRun_brackets cs d

theorem Balanced_congr {a b : List Char} (h : brackets a = brackets b) :
    Balanced a ↔ Balanced b := by
  unfold Balanced
  rw [bracketRun_brackets a 0, bracketRun_brackets b 0, h]

/-- Composition: a bracket-free prefix, a balanced bracketed group, a
balanced tail. -/
theorem Balanced_compose (p x y : List Char) (hp : brackets p = [])
    (hx : Balanced x) (hy : Balanced y) :
    Balanced (p ++ '(' :: x ++ ')' :: y) := by
  have h1 : bracketRun ('(' :: x) 0 = some 1 := by
    simp only [bracketRun, if_pos rfl]
    exact bracketRun_mono x 0 0 hx
  have h2 : bracketRun (')' :: y) 1 = some 0 := by
    simp only [bracketRun, if_neg (by decide : ¬(')' = '(')), if_pos rfl]
    exact hy
  unfold Balanced
  rw [bracketRun_append, bracketRun_append, bracketRun_nobracket p hp 0]
  simp only [h1, h2]

/-- The split of unbalancedness along a scan decomposition. -/
theorem unbal_split (p x y : List Char) (hp : '(' ∉ p)
    (heq : depthRun p + depthRun x = 0)
    (hl : ¬Balanced (p ++ '(' :: x ++ ')' :: y)) :
    ¬Balanced x ∨ ¬Balanced y := by
  by_cases hyp : ')' ∈ p
  · left
    intro hx
    have hd := bracketRun_depthRun x 0 0 hx
    have hneg := (depthRun_noopen p hp).2 hyp
    omega
  · have hpb : brackets p = [] := by
      refine List.filter_eq_nil.mpr ?_
      intro c hc
      simp only [Bool.or_eq_true, decide_eq_true_eq, not_or]
      exact ⟨fun h => hp (h ▸ hc), fun h => hyp (h ▸ hc)⟩
    by_contra hboth
    push_neg at hboth
    obtain ⟨hx, hy⟩ := hboth
    exact hl (Balanced_compose p x y hpb hx hy)

/-- Character-set preservation of the whitespace/bang strips. -/
theorem brackets_dropWhile (q : Char → Bool)
    (hq : ∀ c, q c = true → c ≠ '(' ∧ c ≠ ')') :
    ∀ (l : List Char), brackets (l.dropWhile q) = brackets l
  | [] => rfl
  | c :: cs => by
    by_cases hc : q c = true
    · rw [List.dropWhile_cons_of_pos hc, brackets_dropWhile q hq cs]
      have := hq c hc
      simp [brackets, List.filter_cons, this.1, this.2]
    · rw [List.dropWhile_cons_of_neg hc]

theorem brackets_reverse (l : List Char) :
    brackets l.reverse = (brackets l).reverse := by
  simp [brackets, List.filter_reverse]

theorem brackets_rstripWs (l : List Char) : brackets (rstripWs l) = brackets l := by
  unfold rstripWs
  rw [brackets_reverse, brackets_dropWhile Char.isWhitespace
    (fun c hc => by constructor <;> rintro rfl <;> exact absurd hc (by decide)),
    brackets_reverse, List.reverse_reverse]

theorem brackets_stripWs (l : List Char) : brackets (stripWs l) = brackets l := by
  unfold stripWs lstripWs
  rw [brackets_rstripWs, brackets_dropWhile Char.isWhitespace
    (fun c hc => by constructor <;> rintro rfl <;> exact absurd hc (by decide))]

theorem brackets_lstripSpaceBang (l : List Char) :
    brackets (lstripSpaceBang l) = brackets l := by
  unfold lstripSpaceBang
  rw [brackets_dropWhile _
    (fun c hc => by
      simp only [Bool.or_eq_true, decide_eq_true_eq] at hc
      rcases hc with rfl | rfl <;> exact ⟨by decide, by decide⟩)]

theorem brackets_append (x y : List Char) :
    brackets (x ++ y) = brackets x ++ brackets y := by
  simp [brackets]

/-- A string with unbalanced brackets contains a bracket. -/
theorem unbal_has_bracket {l : List Char} (h : ¬Balanced l) : brackets l ≠ [] := by
  intro hb
  exact h (by unfold Balanced; rw [bracketRun_brackets, hb]; rfl)

theorem mem_of_brackets {c : Char} {l : List Char} (h : c ∈ brackets l) : c ∈ l :=
  List.mem_of_mem_filter h

theorem brackets_mem_cases {c : Char} {l : List Char} (h : c ∈ brackets l) :
    c = '(' ∨ c = ')' := by
  have := List.of_mem_filter h
  simpa using this

end Nifxml

namespace Nifxml

open Py

/-! ### What `_scanBrackets` finds, as a decomposition of the input -/

/-- Once a start position is recorded, the scan cannot end with
`(-1, -1)`. -/
theorem scanGo_some_ne : ∀ (l : List Char) (pos s : Nat) (d : Int),
    scanBracketsGo l pos (some s) d ≠ .ok (none, none)
  | [], pos, s, d => by simp [scanBracketsGo]
  | c :: cs, pos, s, d => by
    simp only [scanBracketsGo, Option.isSome_some, if_true]
    by_cases hc1 : c = '('
    · simp only [if_pos hc1]
      exact scanGo_some_ne cs (pos + 1) s (d + 1)
    · simp only [if_neg hc1]
      by_cases hc2 : c = ')'
      · simp only [if_pos hc2]
        split
        · simp
        · exact scanGo_some_ne cs (pos + 1) s (d - 1)
      · simp only [if_neg hc2]
        exact scanGo_some_ne cs (pos + 1) s d

/-- A scan returning `(-1, -1)` saw no opening bracket. -/
theorem scanGo_nonenone : ∀ (l : List Char) (pos : Nat) (d : Int),
    scanBracketsGo l pos none d = .ok (none, none) → '(' ∉ l
  | [], _, _, _ => List.not_mem_nil '('
  | c :: cs, pos, d, h => by
    simp only [scanBracketsGo] at h
    by_cases hc1 : c = '('
    · rw [if_pos hc1] at h
      simp only [Option.isSome_none, Bool.false_eq_true, if_false] at h
      exact absurd h (scanGo_some_ne cs (pos + 1) pos (d + 1))
    · rw [if_neg hc1] at h
      by_cases hc2 : c = ')'
      · rw [if_pos hc2] at h
        split at h
        · simp at h
        · intro hm
          rcases List.mem_cons.mp hm with h9 | h9
          · exact hc1 h9.symm
          · exact scanGo_nonenone cs (pos + 1) (d - 1) h h9
      · rw [if_neg hc2] at h
        intro hm
        rcases List.mem_cons.mp hm with h9 | h9
        · exact hc1 h9.symm
        · exact scanGo_nonenone cs (pos + 1) d h h9

/-- The scan never reports a start without an end. -/
theorem scanGo_ne_somenone : ∀ (l : List Char) (pos : Nat) (start : Option Nat) (d : Int)
    (st : Nat), scanBracketsGo l pos start d ≠ .ok (some st, none)
  | [], pos, start, d, st => by
    simp only [scanBracketsGo]
    split <;> simp
  | c :: cs, pos, start, d, st => by
    simp only [scanBracketsGo]
    by_cases hc1 : c = '('
    · simp only [if_pos hc1]
      exact scanGo_ne_somenone cs (pos + 1) _ (d + 1) st
    · simp only [if_neg hc1]
      by_cases hc2 : c = ')'
      · simp only [if_pos hc2]
        split
        · simp
        · exact scanGo_ne_somenone cs (pos + 1) start (d - 1) st
      · simp only [if_neg hc2]
        exact scanGo_ne_somenone cs (pos + 1) start d st

/-- Once started, an end without a start is impossible. -/
theorem scanGo_some_ne_noneend : ∀ (l : List Char) (pos s : Nat) (d : Int) (e : Nat),
    scanBracketsGo l pos (some s) d ≠ .ok (none, some e)
  | [], pos, s, d, e => by simp [scanBracketsGo]
  | c :: cs, pos, s, d, e => by
    simp only [scanBracketsGo, Option.isSome_some, if_true]
    by_cases hc1 : c = '('
    · simp only [if_pos hc1]
      exact scanGo_some_ne_noneend cs (pos + 1) s (d + 1) e
    · simp only [if_neg hc1]
      by_cases hc2 : c = ')'
      · simp only [if_pos hc2]
        split
        · simp
        · exact scanGo_some_ne_noneend cs (pos + 1) s (d - 1) e
      · simp only [if_neg hc2]
        exact scanGo_some_ne_noneend cs (pos + 1) s d e

/-- With no start yet and non-positive depth, the scan cannot end at
`(-1, e)`. -/
theorem scanGo_ne_noneend : ∀ (l : List Char) (pos : Nat) (d : Int), d ≤ 0 →
    ∀ e, scanBracketsGo l pos none d ≠ .ok (none, some e)
  | [], pos, d, hd, e => by simp [scanBracketsGo]
  | c :: cs, pos, d, hd, e => by
    simp only [scanBracketsGo]
    by_cases hc1 : c = '('
    · simp only [if_pos hc1, Option.isSome_none, Bool.false_eq_true, if_false]
      intro h
      exact scanGo_some_ne_noneend cs (pos + 1) pos (d + 1) e h
    · simp only [if_neg hc1]
      by_cases hc2 : c = ')'
      · simp only [if_pos hc2]
        rw [if_neg (by omega : ¬(d - 1 = 0))]
        exact scanGo_ne_noneend cs (pos + 1) (d - 1) (by omega) e
      · simp only [if_neg hc2]
        exact scanGo_ne_noneend cs (pos + 1) d hd e


/-- Phase 2 of the scan (start recorded): a successful scan decomposes
the remaining input at the closing bracket, with the depth accounting
`d + depthRun mid = 1` at the break. -/
theorem scanGo_phase2 : ∀ (l : List Char) (pos s : Nat) (d : Int) (st en : Nat),
    scanBracketsGo l pos (some s) d = .ok (some st, some en) →
    st = s ∧ ∃ mid post, l = mid ++ ')' :: post ∧ en = pos + mid.length ∧
      d + depthRun mid = 1
  | [], pos, s, d, st, en, h => by simp [scanBracketsGo] at h
  | c :: cs, pos, s, d, st, en, h => by
    simp only [scanBracketsGo, Option.isSome_some, if_true] at h
    by_cases hc1 : c = '('
    · rw [if_pos hc1] at h
      obtain ⟨hst, mid, post, hl, hen, hd⟩ := scanGo_phase2 cs (pos + 1) s (d + 1) st en h
      refine ⟨hst, c :: mid, post, by rw [hl]; rfl, ?_, ?_⟩
      · simp [hen]; omega
      · simp only [depthRun, if_pos hc1]
        omega
    · rw [if_neg hc1] at h
      by_cases hc2 : c = ')'
      · rw [if_pos hc2] at h
        split at h
        · rename_i hd0
          simp only [Except.ok.injEq, Prod.mk.injEq, Option.some.injEq] at h
          refine ⟨h.1.symm, [], cs, by rw [hc2]; rfl, by simpa using h.2.symm, by
            simp [depthRun]; omega⟩
        · obtain ⟨hst, mid, post, hl, hen, hd⟩ := scanGo_phase2 cs (pos + 1) s (d - 1) st en h
          refine ⟨hst, c :: mid, post, by rw [hl]; rfl, ?_, ?_⟩
          · simp [hen]; omega
          · simp only [depthRun, if_neg hc1, if_pos hc2]
            omega
      · rw [if_neg hc2] at h
        obtain ⟨hst, mid, post, hl, hen, hd⟩ := scanGo_phase2 cs (pos + 1) s d st en h
        refine ⟨hst, c :: mid, post, by rw [hl]; rfl, ?_, ?_⟩
        · simp [hen]; omega
        · simp only [depthRun, if_neg hc1, if_neg hc2]
          omega

/-- Phase 1 of the scan (no start yet, depth non-positive): a successful
scan decomposes the input as `pre ++ '(' :: mid ++ ')' :: post` with no
`'('` in `pre` and the break-depth equation. -/
theorem scanGo_phase1 : ∀ (l : List Char) (pos : Nat) (d : Int), d ≤ 0 →
    ∀ st en, scanBracketsGo l pos none d = .ok (some st, some en) →
    ∃ pre mid post, l = pre ++ '(' :: mid ++ ')' :: post ∧ '(' ∉ pre ∧
      st = pos + pre.length ∧ en = st + 1 + mid.length ∧
      d + depthRun pre + depthRun mid = 0
  | [], pos, d, hd, st, en, h => by simp [scanBracketsGo] at h
  | c :: cs, pos, d, hd, st, en, h => by
    simp only [scanBracketsGo] at h
    by_cases hc1 : c = '('
    · rw [if_pos hc1] at h
      simp only [Option.isSome_none, Bool.false_eq_true, if_false] at h
      obtain ⟨hst, mid, post, hl, hen, hdep⟩ := scanGo_phase2 cs (pos + 1) pos (d + 1) st en h
      refine ⟨[], mid, post, ?_, List.not_mem_nil _, by simpa using hst, ?_, ?_⟩
      · rw [← hc1, hl]
        rfl
      · omega
      · simp only [depthRun]
        omega
    · rw [if_neg hc1] at h
      by_cases hc2 : c = ')'
      · rw [if_pos hc2] at h
        rw [if_neg (by omega : ¬(d - 1 = 0))] at h
        obtain ⟨pre, mid, post, hl, hpre, hst, hen, hdep⟩ :=
          scanGo_phase1 cs (pos + 1) (d - 1) (by omega) st en h
        refine ⟨c :: pre, mid, post, by rw [hl]; rfl, ?_, ?_, hen, ?_⟩
        · intro hm
          rcases List.mem_cons.mp hm with h9 | h9
          · exact hc1 h9.symm
          · exact hpre h9
        · simp [hst]; omega
        · simp only [depthRun, if_neg hc1, if_pos hc2]
          omega
      · rw [if_neg hc2] at h
        obtain ⟨pre, mid, post, hl, hpre, hst, hen, hdep⟩ :=
          scanGo_phase1 cs (pos + 1) d hd st en h
        refine ⟨c :: pre, mid, post, by rw [hl]; rfl, ?_, ?_, hen, ?_⟩
        · intro hm
          rcases List.mem_cons.mp hm with h9 | h9
          · exact hc1 h9.symm
          · exact hpre h9
        · simp [hst]; omega
        · simp only [depthRun, if_neg hc1, if_neg hc2]
          omega


/-! ### What the operator scan of `_partition` guarantees -/

theorem ops_nobracket : ∀ o ∈ operators, '(' ∉ o ∧ ')' ∉ o := by decide

theorem ops_len : ∀ o ∈ operators, o ≠ [] ∧ o.length ≤ 2 := by decide

theorem ops_head : ∀ o ∈ operators, o.head? ≠ some ' ' := by decide

/-- A completed operator scan saw no brackets at all. -/
theorem opScan_none_nobracket : ∀ (l : List Char) (p : Nat), opScan l p = .ok none →
    brackets l = []
  | [], _, _ => rfl
  | c :: cs, p, h => by
    simp only [opScan] at h
    by_cases hsp : c = ' '
    · rw [if_pos hsp] at h
      have := opScan_none_nobracket cs (p + 1) h
      simp only [brackets, List.filter_cons]
      rw [if_neg (by simp [hsp])]
      exact this
    · rw [if_neg hsp] at h
      by_cases hbr : (c = '(' || c = ')') = true
      · rw [if_pos hbr] at h
        exact absurd h (by simp)
      · rw [if_neg hbr] at h
        split at h
        · exact absurd h (by simp)
        · split at h
          · exact absurd h (by simp)
          · have := opScan_none_nobracket cs (p + 1) h
            simp only [brackets, List.filter_cons]
            rw [if_neg hbr]
            exact this

/-- A completed operator scan also saw no operator, anywhere. -/
theorem opScan_none_noop : ∀ (l : List Char) (p : Nat), opScan l p = .ok none →
    ∀ o ∈ operators, ¬ o <:+: l
  | [], _, _, o, ho, hinf => by
    have := (ops_len o ho).1
    simp_all [List.infix_nil]
  | c :: cs, p, h, o, ho, hinf => by
    simp only [opScan] at h
    by_cases hsp : c = ' '
    · rw [if_pos hsp] at h
      rcases List.infix_cons_iff.mp hinf with hpre | htail
      · obtain ⟨o1, orest, rfl⟩ : ∃ o1 orest, o = o1 :: orest := by
          match o, (ops_len o ho).1 with
          | o1 :: orest, _ => exact ⟨o1, orest, rfl⟩
        obtain ⟨t, ht⟩ := hpre
        have ho1 : o1 = c := (List.cons.inj ht).1
        exact ops_head _ ho (by rw [ho1, hsp]; rfl)
      · exact opScan_none_noop cs (p + 1) h o ho htail
    · rw [if_neg hsp] at h
      by_cases hbr : (c = '(' || c = ')') = true
      · rw [if_pos hbr] at h
        exact absurd h (by simp)
      · rw [if_neg hbr] at h
        split at h
        · exact absurd h (by simp)
        · split at h
          · exact absurd h (by simp)
          · rename_i hc2 hc1
            rcases List.infix_cons_iff.mp hinf with hpre | htail
            · obtain ⟨o1, orest, rfl⟩ : ∃ o1 orest, o = o1 :: orest := by
                match o, (ops_len o ho).1 with
                | o1 :: orest, _ => exact ⟨o1, orest, rfl⟩
              obtain ⟨t, ht⟩ := hpre
              have ho1 : o1 = c := (List.cons.inj ht).1
              subst ho1
              match orest, (ops_len _ ho).2, ht with
              | [], _, _ => exact hc1 (by simpa using ho)
              | [o2], _, ht =>
                have hcs : o2 :: t = cs := by
                  have := (List.cons.inj ht).2
                  simpa using this
                refine hc2 ?_
                rw [← hcs]
                simpa using ho
              | o2 :: o3 :: _, hlen, _ => simp at hlen
            · exact opScan_none_noop cs (p + 1) h o ho htail

/-- A found operator splits the string: only non-brackets before it and
inside it, so all brackets lie beyond it. -/
theorem opScan_some : ∀ (l : List Char) (p ps pe : Nat) (opc : List Char),
    opScan l p = .ok (some (ps, pe, opc)) →
    p ≤ ps ∧ brackets (l.take (ps - p)) = [] ∧
      brackets (l.drop (pe + 1 - p)) = brackets l ∧
      ps - p < l.length ∧ 1 ≤ pe + 1 - p
  | [], p, ps, pe, opc, h => by simp [opScan] at h
  | c :: cs, p, ps, pe, opc, h => by
    simp only [opScan] at h
    by_cases hsp : c = ' '
    · rw [if_pos hsp] at h
      obtain ⟨hple, htake, hdrop, hlt, hpe⟩ := opScan_some cs (p + 1) ps pe opc h
      have hnb : ¬((c = '(' || c = ')') = true) := by simp [hsp]
      refine ⟨by omega, ?_, ?_, by simp; omega, by omega⟩
      · rw [show ps - p = (ps - (p + 1)) + 1 by omega, List.take_succ_cons]
        simp only [brackets, List.filter_cons]
        rw [if_neg hnb]
        exact htake
      · rw [show pe + 1 - p = (pe + 1 - (p + 1)) + 1 by omega, List.drop_succ_cons, hdrop]
        simp only [brackets, List.filter_cons]
        rw [if_neg hnb]
    · rw [if_neg hsp] at h
      by_cases hbr : (c = '(' || c = ')') = true
      · rw [if_pos hbr] at h
        exact absurd h (by simp)
      · rw [if_neg hbr] at h
        split at h
        · rename_i hc2
          simp only [Except.ok.injEq, Option.some.injEq, Prod.mk.injEq] at h
          obtain ⟨hps, hpe, hopc⟩ := h
          subst hps hpe
          refine ⟨le_rfl, by simp [brackets], ?_, by simp, by omega⟩
          rw [show p + 1 + 1 - p = 2 by omega]
          match cs, hopc, hc2 with
          | [], _, _ =>
            rw [show List.drop 2 [c] = ([] : List Char) from rfl]
            simp only [brackets, List.filter_cons, List.filter_nil]
            rw [if_neg hbr]
          | c2 :: cs', hopc, hc2 =>
            have hmem : (c :: [c2]) ∈ operators := by
              have h9 := hc2
              rw [show List.take 1 (c2 :: cs') = [c2] from rfl] at h9
              simpa using h9
            have := (ops_nobracket _ hmem).1
            have h2 := (ops_nobracket _ hmem).2
            simp only [List.mem_cons, not_or] at this h2
            show brackets cs' = brackets (c :: c2 :: cs')
            simp only [brackets, List.filter_cons]
            rw [if_neg hbr, if_neg (by simp; exact ⟨fun hh => this.2.1 hh.symm,
              fun hh => h2.2.1 hh.symm⟩)]
        · split at h
          · rename_i hc2 hc1
            simp only [Except.ok.injEq, Option.some.injEq, Prod.mk.injEq] at h
            obtain ⟨hps, hpe, hopc⟩ := h
            subst hps hpe
            refine ⟨le_rfl, by simp [brackets], ?_, by simp, by omega⟩
            rw [show p + 1 - p = 1 by omega]
            show brackets cs = brackets (c :: cs)
            simp only [brackets, List.filter_cons]
            rw [if_neg hbr]
          · obtain ⟨hple, htake, hdrop, hlt, hpe⟩ := opScan_some cs (p + 1) ps pe opc h
            refine ⟨by omega, ?_, ?_, by simp; omega, by omega⟩
            · rw [show ps - p = (ps - (p + 1)) + 1 by omega, List.take_succ_cons]
              simp only [brackets, List.filter_cons]
              rw [if_neg hbr]
              exact htake
            · rw [show pe + 1 - p = (pe + 1 - (p + 1)) + 1 by omega, List.drop_succ_cons, hdrop]
              simp only [brackets, List.filter_cons]
              rw [if_neg hbr]


/-! ### Whitespace discipline: all whitespace is plain spaces -/

/-- Every whitespace character of the string is a plain space. (`strip()`
removes all whitespace but `lstrip(' !')` only spaces, so the unary
branch of `_partition` only makes progress under this discipline.) -/
def SpacesOnly (l : List Char) : Prop :=
  ∀ c ∈ l, c.isWhitespace = true → c = ' '

theorem SpacesOnly_sub {l x : List Char} (hsub : ∀ c ∈ x, c ∈ l)
    (hl : SpacesOnly l) : SpacesOnly x :=
  fun c hc hw => hl c (hsub c hc) hw

theorem stripWs_subset (l : List Char) : ∀ c ∈ stripWs l, c ∈ l := by
  intro c hc
  unfold stripWs rstripWs lstripWs at hc
  rw [List.mem_reverse] at hc
  have h1 := List.dropWhile_subset (p := Char.isWhitespace)
    (l := (l.dropWhile Char.isWhitespace).reverse) hc
  rw [List.mem_reverse] at h1
  exact List.dropWhile_subset _ h1

theorem lstripSpaceBang_subset (l : List Char) : ∀ c ∈ lstripSpaceBang l, c ∈ l := by
  intro c hc
  exact List.dropWhile_subset _ hc

theorem length_dropWhile_le (q : Char → Bool) : ∀ (l : List Char),
    (List.dropWhile q l).length ≤ l.length
  | [] => le_rfl
  | c :: cs => by
    by_cases hc : q c = true
    · rw [List.dropWhile_cons_of_pos hc]
      exact Nat.le_succ_of_le (length_dropWhile_le q cs)
    · rw [List.dropWhile_cons_of_neg hc]

theorem length_stripWs_le (l : List Char) : (stripWs l).length ≤ l.length := by
  unfold stripWs rstripWs lstripWs
  calc ((l.dropWhile Char.isWhitespace).reverse.dropWhile Char.isWhitespace).reverse.length
      = ((l.dropWhile Char.isWhitespace).reverse.dropWhile Char.isWhitespace).length := by
        simp
    _ ≤ (l.dropWhile Char.isWhitespace).reverse.length := length_dropWhile_le ..
    _ = (l.dropWhile Char.isWhitespace).length := by simp
    _ ≤ l.length := length_dropWhile_le ..

theorem dropWhile_append_of_all (q : Char → Bool) :
    ∀ (a b : List Char), (∀ c ∈ a, q c = true) →
      List.dropWhile q (a ++ b) = List.dropWhile q b
  | [], b, _ => rfl
  | c :: a', b, h => by
    rw [List.cons_append, List.dropWhile_cons_of_pos (h c (List.mem_cons_self c a'))]
    exact dropWhile_append_of_all q a' b (fun x hx => h x (List.mem_cons_of_mem c hx))

/-- Under the space discipline, the unary strip makes strict progress
when the stripped string starts with `'!'`. -/
theorem unary_shrink (l : List Char) (hsp : SpacesOnly l)
    (hb : (stripWs l).head? = some '!') :
    (lstripSpaceBang l).length < l.length := by
  have hpfx : rstripWs (lstripWs l) <+: lstripWs l := by
    unfold rstripWs
    have hsfx : (lstripWs l).reverse.dropWhile Char.isWhitespace <:+ (lstripWs l).reverse :=
      List.dropWhile_suffix _
    obtain ⟨t, ht⟩ := hsfx
    refine ⟨t.reverse, ?_⟩
    have := congrArg List.reverse ht
    simpa using this
  have hhead : (lstripWs l).head? = some '!' := by
    obtain ⟨t, ht⟩ := hpfx
    have hne : stripWs l ≠ [] := by
      intro h0
      rw [h0] at hb
      simp at hb
    rw [← ht, List.head?_append]
    rw [show rstripWs (lstripWs l) = stripWs l from rfl, hb]
    rfl
  obtain ⟨rest, hrest⟩ : ∃ rest, l.dropWhile Char.isWhitespace = '!' :: rest := by
    unfold lstripWs at hhead
    cases hdw : l.dropWhile Char.isWhitespace with
    | nil => rw [hdw] at hhead; simp at hhead
    | cons c rest =>
      rw [hdw] at hhead
      simp only [List.head?_cons, Option.some.injEq] at hhead
      exact ⟨rest, by rw [hhead]⟩
  have hdecomp : l = l.takeWhile Char.isWhitespace ++ '!' :: rest := by
    conv_lhs => rw [← List.takeWhile_append_dropWhile (p := Char.isWhitespace) (l := l)]
    rw [hrest]
  have htw : ∀ c ∈ l.takeWhile Char.isWhitespace, (c = ' ' || c = '!') = true := by
    intro c hc
    have hw : c.isWhitespace = true := List.mem_takeWhile_imp hc
    have hmem : c ∈ l := ( List.takeWhile_prefix _).subset hc
    have := hsp c hmem hw
    simp [this]
  have hdrop : lstripSpaceBang l = List.dropWhile (fun c => c = ' ' || c = '!') rest := by
    unfold lstripSpaceBang
    conv_lhs => rw [hdecomp]
    rw [dropWhile_append_of_all _ _ _ htw, List.dropWhile_cons_of_pos (by simp)]
  have hlen : l.length = (l.takeWhile Char.isWhitespace).length + 1 + rest.length := by
    conv_lhs => rw [hdecomp]
    simp only [List.length_append, List.length_cons]
    omega
  have := length_dropWhile_le (fun c => c = ' ' || c = '!') rest
  rw [hdrop]
  omega


/-! ### `_partition` on an unbalanced input -/

theorem Balanced_of_nil {l : List Char} (h : brackets l = []) : Balanced l := by
  unfold Balanced
  rw [bracketRun_brackets, h]
  rfl

theorem scanGo_error_syn : ∀ (l : List Char) (pos : Nat) (start : Option Nat) (d : Int)
    (e : PErr), scanBracketsGo l pos start d = .error e → ∃ msg, e = .syn msg
  | [], pos, start, d, e, h => by
    simp only [scanBracketsGo] at h
    split at h
    · exact ⟨_, (Except.error.inj h).symm⟩
    · simp at h
  | c :: cs, pos, start, d, e, h => by
    simp only [scanBracketsGo] at h
    by_cases hc1 : c = '('
    · rw [if_pos hc1] at h
      exact scanGo_error_syn cs (pos + 1) _ (d + 1) e h
    · rw [if_neg hc1] at h
      by_cases hc2 : c = ')'
      · rw [if_pos hc2] at h
        split at h
        · simp at h
        · exact scanGo_error_syn cs (pos + 1) start (d - 1) e h
      · rw [if_neg hc2] at h
        exact scanGo_error_syn cs (pos + 1) start d e h

theorem opScan_error_syn : ∀ (l : List Char) (p : Nat) (e : PErr),
    opScan l p = .error e → ∃ msg, e = .syn msg
  | [], p, e, h => by simp [opScan] at h
  | c :: cs, p, e, h => by
    simp only [opScan] at h
    by_cases hsp : c = ' '
    · rw [if_pos hsp] at h
      exact opScan_error_syn cs (p + 1) e h
    · rw [if_neg hsp] at h
      by_cases hbr : (c = '(' || c = ')') = true
      · rw [if_pos hbr] at h
        exact ⟨_, (Except.error.inj h).symm⟩
      · rw [if_neg hbr] at h
        split at h
        · simp at h
        · split at h
          · simp at h
          · exact opScan_error_syn cs (p + 1) e h

theorem drop_append_cons : ∀ (a : List Char) (c : Char) (b : List Char),
    (a ++ c :: b).drop (a.length + 1) = b
  | [], _, _ => rfl
  | x :: a', c, b => by
    simp only [List.cons_append, List.length_cons]
    rw [List.drop_succ_cons]
    exact drop_append_cons a' c b

set_option maxHeartbeats 1000000 in
/-- `_partition` on an unbalanced input (under the space discipline):
either it raises the syntax `ValueError`, or it returns sides that are
strictly shorter, of which the left or the right is still unbalanced. -/
theorem partitionGo_unbal : ∀ (fuelP : Nat) (l : List Char), l.length < fuelP →
    SpacesOnly l → ¬Balanced l →
    (∃ msg, partitionGo fuelP l = .error (.syn msg)) ∨
    (∃ left op r, partitionGo fuelP l = .ok (left, op, r) ∧
      left.length < l.length ∧ (∀ c ∈ left, c ∈ l) ∧
      (¬Balanced left ∨ ∃ rr, r = some rr ∧ rr.length < l.length ∧
        (∀ c ∈ rr, c ∈ l) ∧ ¬Balanced rr))
  | fp + 1, l, hfuel, hsp, hunbal => by
    unfold partitionGo
    by_cases hbang : (stripWs l).head? = some '!'
    · rw [if_pos hbang]
      right
      refine ⟨lstripSpaceBang l, ['!'], none, rfl, unary_shrink l hsp hbang,
        lstripSpaceBang_subset l, Or.inl ?_⟩
      intro hbal
      exact hunbal ((Balanced_congr (brackets_lstripSpaceBang l)).mp hbal)
    · rw [if_neg hbang]
      match hscan : scanBrackets l with
      | .error e =>
        obtain ⟨msg, rfl⟩ := scanGo_error_syn l 0 none 0 e hscan
        exact Or.inl ⟨msg, rfl⟩
      | .ok (none, some en) =>
        exact absurd hscan (scanGo_ne_noneend l 0 0 (by omega) en)
      | .ok (some st, none) =>
        exact absurd hscan (scanGo_ne_somenone l 0 none 0 st)
      | .ok (none, none) =>
        have hnopen := scanGo_nonenone l 0 0 hscan
        match hop : opScan l 0 with
        | .error e =>
          obtain ⟨msg, rfl⟩ := opScan_error_syn l 0 e hop
          exact Or.inl ⟨msg, rfl⟩
        | .ok none =>
          exact absurd (Balanced_of_nil (opScan_none_nobracket l 0 hop)) hunbal
        | .ok (some (ps, pe, opc)) =>
          obtain ⟨hple, htake, hdrop, hlt, hpe1⟩ := opScan_some l 0 ps pe opc hop
          rw [Nat.sub_zero] at htake hdrop hlt hpe1
          right
          refine ⟨stripWs (l.take ps), opc, some (stripWs (l.drop (pe + 1))), rfl, ?_,
            fun c hc => List.take_subset ps l (stripWs_subset _ c hc),
            Or.inr ⟨stripWs (l.drop (pe + 1)), rfl, ?_,
              fun c hc => List.drop_subset _ l (stripWs_subset _ c hc), ?_⟩⟩
          · calc (stripWs (l.take ps)).length ≤ (l.take ps).length := length_stripWs_le _
              _ ≤ ps := by simp
              _ < l.length := hlt
          · calc (stripWs (l.drop (pe + 1))).length ≤ (l.drop (pe + 1)).length :=
                length_stripWs_le _
              _ = l.length - (pe + 1) := by simp
              _ < l.length := by omega
          · intro hbal
            refine hunbal ((Balanced_congr ?_).mp hbal)
            rw [brackets_stripWs, hdrop]
      | .ok (some st, some en) =>
        obtain ⟨pre, mid, post, hl, hpre, hst, hen, hdep⟩ :=
          scanGo_phase1 l 0 0 (by omega) st en hscan
        have hl2 : l = pre ++ '(' :: (mid ++ ')' :: post) := by
          rw [hl, List.append_assoc]
          rfl
        have hllen : l.length = pre.length + mid.length + post.length + 2 := by
          rw [hl2]
          simp only [List.length_append, List.length_cons]
          omega
        have hdropst : l.drop (st + 1) = mid ++ ')' :: post := by
          rw [hl2, show st + 1 = pre.length + 1 by omega]
          exact drop_append_cons pre '(' (mid ++ ')' :: post)
        have hleft : (l.drop (st + 1)).take (en - (st + 1)) = mid := by
          rw [hdropst, show en - (st + 1) = mid.length by omega, List.take_left]
        have hrest : l.drop (en + 1) = post := by
          have h9 : (pre ++ '(' :: (mid ++ ')' :: post)).drop (pre.length + 1)
              = mid ++ ')' :: post := drop_append_cons pre '(' (mid ++ ')' :: post)
          have h10 : (mid ++ ')' :: post).drop (mid.length + 1) = post :=
            drop_append_cons mid ')' post
          rw [hl2, show en + 1 = (pre.length + 1) + (mid.length + 1) by omega,
            ← List.drop_drop, h9, h10]
        have hmid_sub : ∀ c ∈ mid, c ∈ l := by
          intro c hc
          rw [hl2]
          simp [hc]
        have hpost_sub : ∀ c ∈ post, c ∈ l := by
          intro c hc
          rw [hl2]
          simp [hc]
        have hsplit : ¬Balanced mid ∨ ¬Balanced post :=
          unbal_split pre mid post hpre (by omega) (hl ▸ hunbal)
        dsimp only
        rw [hleft, hrest]
        by_cases hre : (post.dropWhile (fun c => c = ' ')).isEmpty = true
        · rw [if_pos hre]
          -- the tail is all spaces: recurse on the (unbalanced) left
          have hpostnil : brackets post = [] := by
            refine List.filter_eq_nil.mpr ?_
            intro c hc
            have : c = ' ' := by
              have hall := List.dropWhile_eq_nil_iff.mp (List.isEmpty_iff.mp hre) -- shape?
              exact by simpa using hall c hc
            simp [this]
          have hmidU : ¬Balanced mid := by
            rcases hsplit with h9 | h9
            · exact h9
            · exact absurd (Balanced_of_nil hpostnil) h9
          have hrec := partitionGo_unbal fp (stripWs mid)
            (by have := length_stripWs_le mid; omega)
            (SpacesOnly_sub (fun c hc => hmid_sub c (stripWs_subset mid c hc)) hsp)
            (fun hb => hmidU ((Balanced_congr (brackets_stripWs mid)).mp hb))
          have hmidlen : (stripWs mid).length < l.length := by
            have := length_stripWs_le mid
            omega
          have hsubup : ∀ c ∈ stripWs mid, c ∈ l :=
            fun c hc => hmid_sub c (stripWs_subset mid c hc)
          rcases hrec with ⟨msg, hmsg⟩ | ⟨left', op', r', hok, hlen', hsub', hdisj⟩
          · exact Or.inl ⟨msg, hmsg⟩
          · refine Or.inr ⟨left', op', r', hok, by omega,
              fun c hc => hsubup c (hsub' c hc), ?_⟩
            rcases hdisj with h9 | ⟨rr, hrr, hrlen, hrsub, hru⟩
            · exact Or.inl h9
            · exact Or.inr ⟨rr, hrr, by omega, fun c hc => hsubup c (hrsub c hc), hru⟩
        · rw [if_neg hre]
          -- an operator (or garbage) follows the closing bracket
          have hrsub : ∀ c ∈ post.dropWhile (fun c => c = ' '), c ∈ l :=
            fun c hc => hpost_sub c (List.dropWhile_subset _ hc)
          have hrb : brackets (post.dropWhile (fun c => c = ' ')) = brackets post := by
            conv_rhs => rw [← List.takeWhile_append_dropWhile
              (p := fun c => c = ' ') (l := post)]
            rw [brackets_append, show brackets (post.takeWhile (fun c => c = ' ')) = []
              from List.filter_eq_nil.mpr (fun c hc => by
                have hc9 : c = ' ' := by simpa using List.mem_takeWhile_imp hc
                simp [hc9])]
            rfl
          split
          · -- two-character operator
            rename_i hc2
            have hops : brackets ((post.dropWhile (fun c => c = ' ')).take 2) = [] := by
              refine List.filter_eq_nil.mpr ?_
              intro c hc
              have hmem := (by simpa using hc2 :
                (post.dropWhile (fun c => c = ' ')).take 2 ∈ operators)
              have h1 := (ops_nobracket _ hmem).1
              have h2 := (ops_nobracket _ hmem).2
              simp only [List.mem_cons, not_or] at h1 h2
              simp only [Bool.or_eq_true, decide_eq_true_eq, not_or]
              exact ⟨fun hh => absurd (hh ▸ hc) h1, fun hh => absurd (hh ▸ hc) h2⟩
            refine Or.inr ⟨stripWs mid, _, some (stripWs
              ((post.dropWhile (fun c => c = ' ')).drop 2)), rfl, ?_,
              fun c hc => hmid_sub c (stripWs_subset mid c hc), ?_⟩
            · have := length_stripWs_le mid
              omega
            · have hrb2 : brackets ((post.dropWhile (fun c => c = ' ')).drop 2)
                  = brackets post := by
                rw [← hrb]
                conv_rhs => rw [← List.take_append_drop 2
                  (post.dropWhile (fun c => c = ' '))]
                rw [brackets_append, hops]
                rfl
              rcases hsplit with h9 | h9
              · refine Or.inl (fun hb => h9 ?_)
                exact (Balanced_congr (brackets_stripWs mid)).mp hb
              · refine Or.inr ⟨_, rfl, ?_,
                  fun c hc => hrsub c (List.drop_subset _ _ (stripWs_subset _ c hc)),
                  fun hb => h9 ?_⟩
                · calc (stripWs ((post.dropWhile (fun c => c = ' ')).drop 2)).length
                      ≤ ((post.dropWhile (fun c => c = ' ')).drop 2).length :=
                        length_stripWs_le _
                    _ ≤ (post.dropWhile (fun c => c = ' ')).length := by simp
                    _ ≤ post.length := length_dropWhile_le _ _
                    _ < l.length := by omega
                · refine (Balanced_congr ?_).mp hb
                  rw [brackets_stripWs, hrb2]
          · split
            · -- one-character operator
              rename_i hc2 hc1
              have hops : brackets ((post.dropWhile (fun c => c = ' ')).take 1) = [] := by
                refine List.filter_eq_nil.mpr ?_
                intro c hc
                have hmem := (by simpa using hc1 :
                  (post.dropWhile (fun c => c = ' ')).take 1 ∈ operators)
                have h1 := (ops_nobracket _ hmem).1
                have h2 := (ops_nobracket _ hmem).2
                simp only [List.mem_cons, not_or] at h1 h2
                simp only [Bool.or_eq_true, decide_eq_true_eq, not_or]
                exact ⟨fun hh => absurd (hh ▸ hc) h1, fun hh => absurd (hh ▸ hc) h2⟩
              refine Or.inr ⟨stripWs mid, _, some (stripWs
                ((post.dropWhile (fun c => c = ' ')).drop 1)), rfl, ?_,
                fun c hc => hmid_sub c (stripWs_subset mid c hc), ?_⟩
              · have := length_stripWs_le mid
                omega
              · have hrb2 : brackets ((post.dropWhile (fun c => c = ' ')).drop 1)
                    = brackets post := by
                  rw [← hrb]
                  conv_rhs => rw [← List.take_append_drop 1
                    (post.dropWhile (fun c => c = ' '))]
                  rw [brackets_append, hops]
                  rfl
                rcases hsplit with h9 | h9
                · refine Or.inl (fun hb => h9 ?_)
                  exact (Balanced_congr (brackets_stripWs mid)).mp hb
                · refine Or.inr ⟨_, rfl, ?_,
                    fun c hc => hrsub c (List.drop_subset _ _ (stripWs_subset _ c hc)),
                    fun hb => h9 ?_⟩
                  · calc (stripWs ((post.dropWhile (fun c => c = ' ')).drop 1)).length
                        ≤ ((post.dropWhile (fun c => c = ' ')).drop 1).length :=
                          length_stripWs_le _
                      _ ≤ (post.dropWhile (fun c => c = ' ')).length := by simp
                      _ ≤ post.length := length_dropWhile_le _ _
                      _ < l.length := by omega
                  · refine (Balanced_congr ?_).mp hb
                    rw [brackets_stripWs, hrb2]
            · exact Or.inl ⟨_, rfl⟩


/-! ### Fuel safety: the parser terminates within its budget -/

/-- A side on which `_parse` does not recurse: no brackets and no
operator substring. -/
def NoRecSide (s : List Char) : Prop :=
  (containsSub s ['('] || containsSub s [')']) = false ∧
  (operators.any (fun o => containsSub s o)) = false

theorem containsSub_singleton {s : List Char} {c : Char} :
    containsSub s [c] = true ↔ c ∈ s := by
  unfold containsSub
  rw [decide_eq_true_iff]
  constructor
  · intro ⟨a, b, hab⟩
    rw [← hab]
    simp
  · intro hm
    obtain ⟨a, b, hab⟩ := List.append_of_mem hm
    exact ⟨a, b, by rw [hab]; simp⟩

theorem rstripWs_pre (x : List Char) : rstripWs x <+: x := by
  unfold rstripWs
  have hsfx : x.reverse.dropWhile Char.isWhitespace <:+ x.reverse :=
    List.dropWhile_suffix _
  obtain ⟨t, ht⟩ := hsfx
  refine ⟨t.reverse, ?_⟩
  have := congrArg List.reverse ht
  simpa using this

theorem stripWs_infx (l : List Char) : stripWs l <:+: l := by
  unfold stripWs
  have h1 : lstripWs l <:+ l := List.dropWhile_suffix _
  have h2 : rstripWs (lstripWs l) <+: lstripWs l := rstripWs_pre _
  exact h2.isInfix.trans h1.isInfix

/-- The only exception `version2number` itself raises uncaught is the
`assert False` on a literal with more than four dotted parts. -/
theorem version2number_error {l : List Char} {e : PErr}
    (h : version2number l = .error e) : e = .assertFail := by
  unfold version2number at h
  split at h
  · simp at h
  · dsimp only at h
    split at h
    · simpa using h.symm
    · split at h
      · split at h
        · simp at h
        · split at h
          · simp at h
          · split at h
            · simp at h
            · split at h
              · split at h <;> simp at h
              · simp at h
      · simp at h

/-- `_parse` can only fail through its recursive `Expression` call or
through `version2number`'s uncaught `AssertionError`. -/
theorem parseSideWith_error (recE : List Char → Except PErr PTerm) (nf : NameFilter)
    (s : List Char) (e : PErr) (h : parseSideWith recE nf s = .error e) :
    recE s = .error e ∨ e = .assertFail := by
  unfold parseSideWith at h
  split at h
  · exact Or.inl h
  · split at h
    · exact Or.inl h
    · split at h
      · cases hv : version2number s with
        | error e2 =>
          rw [hv] at h
          obtain rfl : e2 = e := by simpa using h
          exact Or.inr (version2number_error hv)
        | ok ov =>
          rw [hv] at h
          cases ov <;> simp at h
      · split at h
        · split at h <;> simp at h
        · simp at h

/-- `NoRecSide` makes `_parse` return without recursing: it yields a term
or aborts on `version2number`'s assert. -/
theorem parseSideWith_norec (recE : List Char → Except PErr PTerm) (nf : NameFilter)
    (s : List Char) (hnr : NoRecSide s) :
    (∃ t, parseSideWith recE nf s = .ok t) ∨
      parseSideWith recE nf s = .error .assertFail := by
  unfold parseSideWith
  rw [if_neg (by rw [hnr.1]; simp), if_neg (by rw [hnr.2]; simp)]
  split
  · cases hv : version2number s with
    | error e2 =>
      obtain rfl : e2 = PErr.assertFail := version2number_error hv
      exact Or.inr rfl
    | ok ov => cases ov <;> exact Or.inl ⟨_, rfl⟩
  · split
    · split <;> exact Or.inl ⟨_, rfl⟩
    · exact Or.inl ⟨_, rfl⟩

set_option maxHeartbeats 1000000 in
/-- `_partition` within its fuel budget: no fuel error, and every side it
returns is strictly shorter or recursion-free (and made of the input's
characters). -/
theorem partitionGo_shrink : ∀ (fuelP : Nat) (l : List Char), l.length < fuelP →
    SpacesOnly l →
    partitionGo fuelP l ≠ .error .fuel ∧
    (∀ left op r, partitionGo fuelP l = .ok (left, op, r) →
      ((∀ c ∈ left, c ∈ l) ∧ (left.length < l.length ∨ NoRecSide left)) ∧
      (∀ rr, r = some rr →
        (∀ c ∈ rr, c ∈ l) ∧ (rr.length < l.length ∨ NoRecSide rr)))
  | fp + 1, l, hfuel, hsp => by
    unfold partitionGo
    by_cases hbang : (stripWs l).head? = some '!'
    · rw [if_pos hbang]
      refine ⟨by simp, ?_⟩
      intro left op r h
      obtain ⟨rfl, rfl, rfl⟩ : lstripSpaceBang l = left ∧ ['!'] = op ∧ none = r := by
        simpa using h
      exact ⟨⟨lstripSpaceBang_subset l, Or.inl (unary_shrink l hsp hbang)⟩,
        fun rr hrr => nomatch hrr⟩
    · rw [if_neg hbang]
      match hscan : scanBrackets l with
      | .error e =>
        obtain ⟨msg, rfl⟩ := scanGo_error_syn l 0 none 0 e hscan
        exact ⟨by simp, fun _ _ _ h => by simp at h⟩
      | .ok (none, some en) =>
        exact absurd hscan (scanGo_ne_noneend l 0 0 (by omega) en)
      | .ok (some st, none) =>
        exact absurd hscan (scanGo_ne_somenone l 0 none 0 st)
      | .ok (none, none) =>
        match hop : opScan l 0 with
        | .error e =>
          obtain ⟨msg, rfl⟩ := opScan_error_syn l 0 e hop
          exact ⟨by simp, fun _ _ _ h => by simp at h⟩
        | .ok none =>
          have hnb := opScan_none_nobracket l 0 hop
          have hnop := opScan_none_noop l 0 hop
          have hnrec : NoRecSide (stripWs l) := by
            constructor
            · have h1 : '(' ∉ stripWs l := fun hm => by
                have : '(' ∈ brackets l := by
                  refine List.mem_filter.mpr ⟨stripWs_subset l _ hm, by simp⟩
                rw [hnb] at this
                simp at this
              have h2 : ')' ∉ stripWs l := fun hm => by
                have : ')' ∈ brackets l := by
                  refine List.mem_filter.mpr ⟨stripWs_subset l _ hm, by simp⟩
                rw [hnb] at this
                simp at this
              rw [Bool.or_eq_false_iff]
              constructor <;> rw [← Bool.not_eq_true, containsSub_singleton]
              · exact h1
              · exact h2
            · rw [List.any_eq_false]
              intro o ho
              rw [Bool.not_eq_true, ← Bool.not_eq_true, containsSub]
              rw [decide_eq_true_iff]
              intro hinf
              exact hnop o ho (hinf.trans (stripWs_infx l))
          refine ⟨by simp, ?_⟩
          intro left op r h
          obtain ⟨rfl, rfl, rfl⟩ : stripWs l = left ∧ ([] : List Char) = op ∧
              some ([] : List Char) = r := by simpa using h
          refine ⟨⟨stripWs_subset l, Or.inr hnrec⟩, ?_⟩
          intro rr hrr
          obtain rfl : ([] : List Char) = rr := by simpa using hrr
          exact ⟨fun c hc => absurd hc (List.not_mem_nil c), Or.inr (by constructor <;> decide)⟩
        | .ok (some (ps, pe, opc)) =>
          obtain ⟨hple, htake, hdrop, hlt, hpe1⟩ := opScan_some l 0 ps pe opc hop
          rw [Nat.sub_zero] at htake hdrop hlt hpe1
          refine ⟨by simp, ?_⟩
          intro left op r h
          obtain ⟨rfl, rfl, rfl⟩ : stripWs (l.take ps) = left ∧ opc = op ∧
              some (stripWs (l.drop (pe + 1))) = r := by simpa using h
          constructor
          · refine ⟨fun c hc => List.take_subset ps l (stripWs_subset _ c hc), Or.inl ?_⟩
            calc (stripWs (l.take ps)).length ≤ (l.take ps).length := length_stripWs_le _
              _ ≤ ps := by simp
              _ < l.length := hlt
          · intro rr hrr
            obtain rfl : stripWs (l.drop (pe + 1)) = rr := by simpa using hrr
            refine ⟨fun c hc => List.drop_subset _ l (stripWs_subset _ c hc), Or.inl ?_⟩
            calc (stripWs (l.drop (pe + 1))).length ≤ (l.drop (pe + 1)).length :=
                length_stripWs_le _
              _ = l.length - (pe + 1) := by simp
              _ < l.length := by omega
      | .ok (some st, some en) =>
        obtain ⟨pre, mid, post, hl, hpre, hst, hen, hdep⟩ :=
          scanGo_phase1 l 0 0 (by omega) st en hscan
        have hl2 : l = pre ++ '(' :: (mid ++ ')' :: post) := by
          rw [hl, List.append_assoc]
          rfl
        have hllen : l.length = pre.length + mid.length + post.length + 2 := by
          rw [hl2]
          simp only [List.length_append, List.length_cons]
          omega
        have hdropst : l.drop (st + 1) = mid ++ ')' :: post := by
          rw [hl2, show st + 1 = pre.length + 1 by omega]
          exact drop_append_cons pre '(' (mid ++ ')' :: post)
        have hleft : (l.drop (st + 1)).take (en - (st + 1)) = mid := by
          rw [hdropst, show en - (st + 1) = mid.length by omega, List.take_left]
        have hrest : l.drop (en + 1) = post := by
          have h9 : (pre ++ '(' :: (mid ++ ')' :: post)).drop (pre.length + 1)
              = mid ++ ')' :: post := drop_append_cons pre '(' (mid ++ ')' :: post)
          have h10 : (mid ++ ')' :: post).drop (mid.length + 1) = post :=
            drop_append_cons mid ')' post
          rw [hl2, show en + 1 = (pre.length + 1) + (mid.length + 1) by omega,
            ← List.drop_drop, h9, h10]
        have hmid_sub : ∀ c ∈ mid, c ∈ l := by
          intro c hc
          rw [hl2]
          simp [hc]
        have hpost_sub : ∀ c ∈ post, c ∈ l := by
          intro c hc
          rw [hl2]
          simp [hc]
        dsimp only
        rw [hleft, hrest]
        by_cases hre : (post.dropWhile (fun c => c = ' ')).isEmpty = true
        · rw [if_pos hre]
          have hrecb := partitionGo_shrink fp (stripWs mid)
            (by have := length_stripWs_le mid; omega)
            (SpacesOnly_sub (fun c hc => hmid_sub c (stripWs_subset mid c hc)) hsp)
          have hsubup : ∀ c ∈ stripWs mid, c ∈ l :=
            fun c hc => hmid_sub c (stripWs_subset mid c hc)
          have hmidlen : (stripWs mid).length < l.length := by
            have := length_stripWs_le mid
            omega
          refine ⟨hrecb.1, ?_⟩
          intro left op r h
          obtain ⟨⟨hls, hld⟩, hrprop⟩ := hrecb.2 left op r h
          constructor
          · refine ⟨fun c hc => hsubup c (hls c hc), ?_⟩
            rcases hld with h9 | h9
            · exact Or.inl (by omega)
            · exact Or.inr h9
          · intro rr hrr
            obtain ⟨hrs, hrd⟩ := hrprop rr hrr
            refine ⟨fun c hc => hsubup c (hrs c hc), ?_⟩
            rcases hrd with h9 | h9
            · exact Or.inl (by omega)
            · exact Or.inr h9
        · rw [if_neg hre]
          have hmidsub2 : ∀ c ∈ stripWs mid, c ∈ l :=
            fun c hc => hmid_sub c (stripWs_subset mid c hc)
          have hmidlen : (stripWs mid).length < l.length := by
            have := length_stripWs_le mid
            omega
          have hrsub : ∀ c ∈ post.dropWhile (fun c => c = ' '), c ∈ l :=
            fun c hc => hpost_sub c (List.dropWhile_subset _ hc)
          split
          · refine ⟨by simp, ?_⟩
            intro left op r h
            obtain ⟨rfl, rfl, rfl⟩ : stripWs mid = left ∧ _ = op ∧
                some (stripWs ((post.dropWhile (fun c => c = ' ')).drop 2)) = r := by
              simpa using h
            refine ⟨⟨hmidsub2, Or.inl hmidlen⟩, ?_⟩
            intro rr hrr
            obtain rfl : stripWs ((post.dropWhile (fun c => c = ' ')).drop 2) = rr := by
              simpa using hrr
            refine ⟨fun c hc => hrsub c (List.drop_subset _ _ (stripWs_subset _ c hc)),
              Or.inl ?_⟩
            calc (stripWs ((post.dropWhile (fun c => c = ' ')).drop 2)).length
                ≤ ((post.dropWhile (fun c => c = ' ')).drop 2).length := length_stripWs_le _
              _ ≤ (post.dropWhile (fun c => c = ' ')).length := by simp
              _ ≤ post.length := length_dropWhile_le _ _
              _ < l.length := by omega
          · split
            · refine ⟨by simp, ?_⟩
              intro left op r h
              obtain ⟨rfl, rfl, rfl⟩ : stripWs mid = left ∧ _ = op ∧
                  some (stripWs ((post.dropWhile (fun c => c = ' ')).drop 1)) = r := by
                simpa using h
              refine ⟨⟨hmidsub2, Or.inl hmidlen⟩, ?_⟩
              intro rr hrr
              obtain rfl : stripWs ((post.dropWhile (fun c => c = ' ')).drop 1) = rr := by
                simpa using hrr
              refine ⟨fun c hc => hrsub c (List.drop_subset _ _ (stripWs_subset _ c hc)),
                Or.inl ?_⟩
              calc (stripWs ((post.dropWhile (fun c => c = ' ')).drop 1)).length
                  ≤ ((post.dropWhile (fun c => c = ' ')).drop 1).length := length_stripWs_le _
                _ ≤ (post.dropWhile (fun c => c = ' ')).length := by simp
                _ ≤ post.length := length_dropWhile_le _ _
                _ < l.length := by omega
            · exact ⟨by simp, fun _ _ _ h => by simp at h⟩


theorem unbal_containsSub {s : List Char} (h : ¬Balanced s) :
    (containsSub s ['('] || containsSub s [')']) = true := by
  have hne := unbal_has_bracket h
  match hb : brackets s with
  | [] => exact absurd hb hne
  | c :: cs =>
    have hmem : c ∈ brackets s := by rw [hb]; simp
    have hin : c ∈ s := mem_of_brackets hmem
    rcases brackets_mem_cases hmem with rfl | rfl
    · rw [Bool.or_eq_true]
      exact Or.inl (containsSub_singleton.mpr hin)
    · rw [Bool.or_eq_true]
      exact Or.inr (containsSub_singleton.mpr hin)

/-- An unbalanced side sends `_parse` into the recursive `Expression` call. -/
theorem parseSideWith_unbal (recE : List Char → Except PErr PTerm) (nf : NameFilter)
    {s : List Char} (h : ¬Balanced s) :
    parseSideWith recE nf s = recE s := by
  unfold parseSideWith
  rw [if_pos (unbal_containsSub h)]

set_option maxHeartbeats 1000000 in
/-- Given fuel exceeding the string length (and only plain-space
whitespace), `Expression.__init__` never runs out of fuel: the embedded
recursion terminates. -/
theorem parseExprGo_noFuel : ∀ (fuelM : Nat) (nf : NameFilter) (l : List Char),
    l.length < fuelM → SpacesOnly l → parseExprGo fuelM nf l ≠ .error .fuel
  | 0, _, _, hfuel, _ => absurd hfuel (by omega)
  | fm + 1, nf, l, hfuel, hsp => by
    unfold parseExprGo
    have hshr := partitionGo_shrink (l.length + 1) l (by omega) hsp
    match hpart : partition l with
    | .error e =>
      intro h
      obtain rfl : e = PErr.fuel := by simpa using h
      exact hshr.1 hpart
    | .ok (left, op, rightO) =>
      obtain ⟨⟨hlsub, hldisj⟩, hrprop⟩ := hshr.2 left op rightO hpart
      dsimp only
      have hleftok : parseSideWith (parseExprGo fm nf) nf left ≠ .error .fuel := by
        intro herr
        rcases parseSideWith_error _ nf left .fuel herr with hrec | habs
        · rcases hldisj with hlt | hnr
          · exact parseExprGo_noFuel fm nf left (by omega) (SpacesOnly_sub hlsub hsp) hrec
          · rcases parseSideWith_norec (parseExprGo fm nf) nf left hnr with ⟨t, ht⟩ | ht
            · rw [ht] at herr
              exact nomatch herr
            · rw [ht] at herr
              exact nomatch herr
        · exact nomatch habs
      match hps : parseSideWith (parseExprGo fm nf) nf left with
      | .error e =>
        intro h
        obtain rfl : e = PErr.fuel := by simpa using h
        exact hleftok hps
      | .ok leftT =>
        dsimp only
        match rightO with
        | some r =>
          dsimp only
          obtain ⟨hrsub, hrdisj⟩ := hrprop r rfl
          by_cases htr : strTruthy r = true
          · rw [if_pos htr]
            have hrok : parseSideWith (parseExprGo fm nf) nf r ≠ .error .fuel := by
              intro herr
              rcases parseSideWith_error _ nf r .fuel herr with hrec | habs
              · rcases hrdisj with hlt | hnr
                · exact parseExprGo_noFuel fm nf r (by omega) (SpacesOnly_sub hrsub hsp) hrec
                · rcases parseSideWith_norec (parseExprGo fm nf) nf r hnr with ⟨t, ht⟩ | ht
                  · rw [ht] at herr
                    exact nomatch herr
                  · rw [ht] at herr
                    exact nomatch herr
              · exact nomatch habs
            match hps2 : parseSideWith (parseExprGo fm nf) nf r with
            | .error e =>
              intro h
              obtain rfl : e = PErr.fuel := by simpa using h
              exact hrok hps2
            | .ok rightT => simp
          · rw [if_neg htr]
            simp
        | none => simp

set_option maxHeartbeats 1000000 in
/-- With fuel exceeding the string length and only plain-space whitespace,
an unbalanced-bracket input makes `Expression.__init__` abort: with the
expression syntax error, or with `version2number`'s `AssertionError` if a
side parsed on the way is a dotted literal of more than four parts. -/
theorem parseExprGo_unbal : ∀ (fuelM : Nat) (nf : NameFilter) (l : List Char),
    l.length < fuelM → SpacesOnly l → ¬Balanced l →
    ∃ e, parseExprGo fuelM nf l = .error e ∧
      (e = .assertFail ∨ ∃ msg, e = .syn msg)
  | 0, _, _, hfuel, _, _ => absurd hfuel (by omega)
  | fm + 1, nf, l, hfuel, hsp, hunb => by
    unfold parseExprGo
    rcases partitionGo_unbal (l.length + 1) l (by omega) hsp hunb with
      ⟨msg, hmsg⟩ | ⟨left, op, r, hok, hllen, hlsub, hdisj⟩
    · rw [show partition l = partitionGo (l.length + 1) l from rfl, hmsg]
      exact ⟨.syn msg, rfl, Or.inr ⟨msg, rfl⟩⟩
    · rw [show partition l = partitionGo (l.length + 1) l from rfl, hok]
      dsimp only
      rcases hdisj with hlu | ⟨rr, hrr, hrlen, hrsub, hru⟩
      · rw [parseSideWith_unbal _ nf hlu]
        obtain ⟨e, hmsg, hprop⟩ := parseExprGo_unbal fm nf left (by omega)
          (SpacesOnly_sub hlsub hsp) hlu
        rw [hmsg]
        exact ⟨e, rfl, hprop⟩
      · match hps : parseSideWith (parseExprGo fm nf) nf left with
        | .error e =>
          rcases parseSideWith_error _ nf left e hps with hrec | rfl
          · match e with
            | .syn msg => exact ⟨.syn msg, rfl, Or.inr ⟨msg, rfl⟩⟩
            | .assertFail => exact ⟨.assertFail, rfl, Or.inl rfl⟩
            | .fuel =>
              have hshr := partitionGo_shrink (l.length + 1) l (by omega) hsp
              obtain ⟨⟨_, hldisj⟩, _⟩ := hshr.2 left op r hok
              rcases hldisj with hlt | hnr
              · exact absurd hrec
                  (parseExprGo_noFuel fm nf left (by omega) (SpacesOnly_sub hlsub hsp))
              · rcases parseSideWith_norec (parseExprGo fm nf) nf left hnr with
                  ⟨t, ht⟩ | ht
                · rw [ht] at hps
                  exact nomatch hps
                · rw [ht] at hps
                  exact nomatch hps
          · exact ⟨.assertFail, rfl, Or.inl rfl⟩
        | .ok leftT =>
          dsimp only
          subst hrr
          dsimp only
          have hrne : rr ≠ [] := by
            intro hnil
            exact hru (by rw [hnil]; exact Balanced_of_nil rfl)
          have htr : strTruthy rr = true := by
            unfold strTruthy
            rw [Bool.not_eq_eq_eq_not]
            simpa using hrne
          rw [if_pos htr, parseSideWith_unbal _ nf hru]
          obtain ⟨e, hmsg, hprop⟩ := parseExprGo_unbal fm nf rr (by omega)
            (SpacesOnly_sub hrsub hsp) hru
          rw [hmsg]
          exact ⟨e, rfl, hprop⟩

end Nifxml


namespace Claims

open Py Nifxml GenNiflib

/-- **C2** — The claim says every guard opened during the field loop is
closed by the end of the loop, including a version guard opened for a
field whose only version metadata is `userver = 0`. The code contradicts
this (and its own end-of-loop close, line 1108, which carefully uses
`is not None`): the mid-loop close at line 932 tests `lastuserver` for
truthiness, so a guard opened for `userver == 0` is never closed when the
version tuple changes: the emitted Read body below opens one brace and
closes none. -/
theorem C2_theorem :
    (stream 2 envU blkUv0 ACTION_READ "" "" "" none {}).1.out =
      ["if ( info.userVersion == 0 ) \x7b\n",
       "\tNifStream( alpha, in, info );\n",
       "\tNifStream( beta, in, info );\n"] ∧
    braceDeltaOut (stream 2 envU blkUv0 ACTION_READ "" "" "" none {}).1.out = 1 := by
  constructor <;> rfl

/-- **C6** — The claim says a string whose left-hand side is not bracketed
is split at the first top-level operator even when a bracketed
sub-expression occurs later. In fact `_partition` takes its bracket branch
whenever `scanBrackets` finds a pair anywhere (contradicting its own
comment "check if the left hand side starts with brackets"), silently
discarding the text before the bracket: `'a && (b || c)'` partitions to
`('b', '||', 'c')`, not to `('a', '&&', '(b || c)')`. -/
theorem C6_theorem :
    partitionStr "a && (b || c)" = .ok ("b", "||", "c") ∧
    partitionStr "a && (b || c)" ≠ .ok ("a", "&&", "(b || c)") := by
  constructor
  · rfl
  · decide

/-- **C10 (counterexample)** — With no prior file, the claim says every
region kind of the closed set, including `include`, defaults to one blank
line; but the dictionary initialiser has no `'INCLUDE'` key and the
no-file branch appends to the other thirteen only, so the `include`
region is absent from the result. -/
theorem C10_counterexample :
    (extract_custom_code none).map (fun d => alookup d "INCLUDE") = .ok none := rfl

/-- **C10 (amended)** — With no prior file, each of the thirteen region
kinds present in the initialiser (misc, file-head, file-foot,
pre/post-read, pre/post-write, pre/post-describe, pre/post-fixlinks,
constructor, destructor) captures exactly one blank line, and the
`include` region is absent from the returned mapping. -/
theorem C10_theorem :
    ((extract_custom_code none).map (fun d => alookup d "MISC") = .ok (some ["\n"])) ∧
    ((extract_custom_code none).map (fun d => alookup d "FILE HEAD") = .ok (some ["\n"])) ∧
    ((extract_custom_code none).map (fun d => alookup d "FILE FOOT") = .ok (some ["\n"])) ∧
    ((extract_custom_code none).map (fun d => alookup d "PRE-READ") = .ok (some ["\n"])) ∧
    ((extract_custom_code none).map (fun d => alookup d "POST-READ") = .ok (some ["\n"])) ∧
    ((extract_custom_code none).map (fun d => alookup d "PRE-WRITE") = .ok (some ["\n"])) ∧
    ((extract_custom_code none).map (fun d => alookup d "POST-WRITE") = .ok (some ["\n"])) ∧
    ((extract_custom_code none).map (fun d => alookup d "PRE-STRING") = .ok (some ["\n"])) ∧
    ((extract_custom_code none).map (fun d => alookup d "POST-STRING") = .ok (some ["\n"])) ∧
    ((extract_custom_code none).map (fun d => alookup d "PRE-FIXLINKS") = .ok (some ["\n"])) ∧
    ((extract_custom_code none).map (fun d => alookup d "POST-FIXLINKS") = .ok (some ["\n"])) ∧
    ((extract_custom_code none).map (fun d => alookup d "CONSTRUCTOR") = .ok (some ["\n"])) ∧
    ((extract_custom_code none).map (fun d => alookup d "DESTRUCTOR") = .ok (some ["\n"])) ∧
    ((extract_custom_code none).map (fun d => alookup d "INCLUDE") = .ok none) := by
  repeat constructor

/-- A field named `Num Data` that carries a compute function and is the
unmasked `arr1` size of the later field `Data`. -/
def mNumData : Member :=
  { name := "Num Data", cname := "numData", type_ := "uint", ctype := "unsigned int",
    func := "UpdateNumData", arr1_ref := ["Data"] }

/-- The array field sized by `Num Data`. -/
def mData : Member :=
  { name := "Data", cname := "data", type_ := "uint", ctype := "unsigned int",
    arr1 := pOf "Num Data" }

def blkFunc : Compound := { name := "Foo", cname := "Foo", members := [mNumData, mData] }

/-- **C3 (counterexample)** — The claim's hypotheses (arr1_ref non-empty,
scalar, not duplicate, not manually updated) are not sufficient: a count
field that also carries a compute function is assigned from that function
by the Write pre-pass, not from the array's `size()`. -/
theorem C3_counterexample :
    (prePass envU blkFunc ACTION_WRITE "" {}).out = ["numData = UpdateNumData();\n"] ∧
    "numData = (unsigned int)(data.size());\n" ∉ (prePass envU blkFunc ACTION_WRITE "" {}).out := by
  constructor
  · rfl
  · decide

/-- **C4 (counterexample)** — `is_duplicate` does not require the earlier
sibling to be suffix-free: with an earlier sibling `X` that declares
suffix `A`, a later suffix-free `X` is still marked duplicate, though no
earlier sibling "declares no disambiguating suffix". -/
theorem C4_counterexample :
    computePrevFacts "X" "" (pOf "") [{ name := "X", suffix := "A" }] = .ok (true, false) ∧
    ¬ ∃ p ∈ [({ name := "X", suffix := "A" } : RawSib)], p.name = "X" ∧ p.suffix = "" := by
  constructor
  · rfl
  · decide

/-- **C5 (counterexample)** — `cond_ref` has no mask filter: a later
sibling whose `cond` is `F & someMask` (right-hand side non-empty and
non-numeric, i.e. a masked reference) is still recorded in `F`'s
`cond_ref`, though the claim says masked references are excluded from all
three lists. -/
theorem C5_counterexample :
    computeNextRefs "F" [{ name := "G", cond := "F & someMask" }] = .ok ([], [], ["G"]) ∧
    (pOf "F & someMask").rhs.truthy = true ∧
    (pOf "F & someMask").rhs.isdigit = false := by
  refine ⟨rfl, rfl, rfl⟩

/-- A member flagged duplicate (with a default, so only the duplicate
flag can suppress its constructor-initializer piece). -/
def mDup : Member :=
  { name := "X", cname := "x", type_ := "uint", ctype := "unsigned int",
    dflt := "0", is_duplicate := true }

def blkDup : Compound := { name := "Dup", cname := "Dup", members := [mDup] }

/-- **C4 (amended)** — (1) the duplicate flag computed by the
previous-sibling walk is true iff the field itself declares no
disambiguating suffix and some earlier sibling has the identical name
(the earlier sibling's suffix is never examined); (2) a duplicate member
contributes nothing to the constructor-initializer text; (3) a duplicate
member is excluded from the member declaration list; (4) under Describe,
a duplicate member is skipped before any emission. -/
theorem C4_theorem :
    (∀ (selfName selfSuffix : String) (selfArr2 : PTerm) (prevs : List RawSib),
      (∀ sib ∈ prevs, (∃ t, parseExpr none sib.arr1 = Except.ok t) ∧
        (∃ t, parseExpr none sib.arr2 = Except.ok t)) →
      ∃ dyn, computePrevFacts selfName selfSuffix selfArr2 prevs =
        .ok ((decide (selfSuffix = "") &&
          prevs.any (fun s => decide (s.name = selfName))), dyn)) ∧
    (∀ m : Member, m.is_duplicate = true → member_code_construct m = none) ∧
    (∀ (blk : Compound) (m : Member), m.is_duplicate = true → m ∉ declaredMembers blk) ∧
    (∀ (rec_ : StreamRec) (envIn : Env) (strm localpfx pfx argpfx : String)
      (argMember : Option Member) (blk : Compound) (stIn : LoopSt) (yIn : Member),
      yIn.is_duplicate = true →
      (streamMember rec_ envIn ACTION_OUT strm localpfx pfx argpfx argMember blk stIn
        yIn).st.cst = stIn.cst) :=
  ⟨computePrevFacts_dup,
   member_code_construct_dup,
   fun blk m hm hmem => by simp [declaredMembers, List.mem_filter, hm] at hmem,
   fun rec_ envIn strm localpfx pfx argpfx argMember blk stIn yIn hdup =>
     (streamMember_out_dup rec_ envIn strm localpfx pfx argpfx argMember blk stIn yIn hdup).1⟩

/-- **C4 (witness)** — the amended theorem at concrete inputs: the
suffixed earlier sibling `X`/`A` still makes a later suffix-free `X` a
duplicate; the duplicate member `mDup` yields no initializer piece, is
not declared, and passes through Describe unchanged. -/
theorem C4_witness :
    (∃ dyn, computePrevFacts "X" "" (pOf "") [{ name := "X", suffix := "A" }] =
      .ok ((decide (("" : String) = "") &&
        [({ name := "X", suffix := "A" } : RawSib)].any
          (fun s => decide (s.name = "X"))), dyn)) ∧
    mDup.is_duplicate = true ∧
    member_code_construct mDup = none ∧
    mDup ∉ declaredMembers blkDup ∧
    (streamMember (fun _ b _ _ _ _ _ c => (c, b, envU, 0)) envU ACTION_OUT "out" "" "" ""
      none blkDup {} mDup).st.cst = ({} : LoopSt).cst :=
  ⟨C4_theorem.1 "X" "" (pOf "") [{ name := "X", suffix := "A" }]
     (by intro sib hs
         simp only [List.mem_singleton] at hs
         subst hs
         exact ⟨⟨pOf "", rfl⟩, ⟨pOf "", rfl⟩⟩),
   rfl,
   C4_theorem.2.1 mDup rfl,
   C4_theorem.2.2.1 blkDup mDup rfl,
   C4_theorem.2.2.2 (fun _ b _ _ _ _ _ c => (c, b, envU, 0)) envU "out" "" "" "" none blkDup
     {} mDup rfl⟩

/-- **C5 (amended)** — `arr1_ref` and `arr2_ref` collect exactly the
names of the later siblings whose `arr1` / `arr2` left-hand side equals
the field's name and whose right-hand side, if present, is empty or
numeric; `cond_ref` collects every later sibling whose `cond` left-hand
side equals the field's name, with no filter on the right-hand side
(masked condition references are included). -/
theorem C5_theorem (selfName : String) (nexts : List RawSib)
    (hp : ∀ sib ∈ nexts, parseExpr none sib.arr1 = .ok (pOf sib.arr1) ∧
      parseExpr none sib.arr2 = .ok (pOf sib.arr2) ∧
      parseExpr none sib.cond = .ok (pOf sib.cond)) :
    computeNextRefs selfName nexts =
      .ok ((nexts.filter (fun sib => lhsEq (pOf sib.arr1) selfName &&
              (!(pOf sib.arr1).rhs.truthy || (pOf sib.arr1).rhs.isdigit))).map
              (fun s => s.name),
           (nexts.filter (fun sib => lhsEq (pOf sib.arr2) selfName &&
              (!(pOf sib.arr2).rhs.truthy || (pOf sib.arr2).rhs.isdigit))).map
              (fun s => s.name),
           (nexts.filter (fun sib => lhsEq (pOf sib.cond) selfName)).map
              (fun s => s.name)) := by
  have h := nextRefs_fold selfName nexts ([], [], []) hp
  unfold computeNextRefs
  rw [h]
  simp

/-- **C5 (witness)** — the amended theorem at a concrete input: the later
sibling `G` with the masked condition `F & someMask` lands in `cond_ref`
(no mask filter) while the arr filters keep nothing. -/
theorem C5_witness :
    computeNextRefs "F" [{ name := "G", cond := "F & someMask" }] =
      .ok (([({ name := "G", cond := "F & someMask" } : RawSib)].filter
              (fun sib => lhsEq (pOf sib.arr1) "F" &&
                (!(pOf sib.arr1).rhs.truthy || (pOf sib.arr1).rhs.isdigit))).map
              (fun s => s.name),
           ([({ name := "G", cond := "F & someMask" } : RawSib)].filter
              (fun sib => lhsEq (pOf sib.arr2) "F" &&
                (!(pOf sib.arr2).rhs.truthy || (pOf sib.arr2).rhs.isdigit))).map
              (fun s => s.name),
           ([({ name := "G", cond := "F & someMask" } : RawSib)].filter
              (fun sib => lhsEq (pOf sib.cond) "F")).map (fun s => s.name)) ∧
    ([({ name := "G", cond := "F & someMask" } : RawSib)].filter
      (fun sib => lhsEq (pOf sib.cond) "F")).map (fun s => s.name) = ["G"] :=
  ⟨ C5_theorem ("F") [{ name := "G", cond := "F & someMask" }]
     (by intro sib hs
         simp only [List.mem_singleton] at hs
         subst hs
         exact ⟨rfl, rfl, rfl⟩),
   by rfl⟩

/-- A compound member whose presence condition is the reserved `ARG`. -/
def mWidget : Member :=
  { name := "W", cname := "w", type_ := "uint", ctype := "unsigned int", cond := pOf "ARG" }

/-- The member of the enclosing type that is passed as the argument. -/
def mNumWidgets : Member :=
  { name := "Num Widgets", cname := "numWidgets", type_ := "uint", ctype := "unsigned int" }

def blkSub : Compound := { name := "Sub", cname := "Sub", members := [mWidget] }

/-- **C8 (counterexample)** — One `stream` call does not leave the schema
model unchanged: when a member's `cond` uses `ARG` and an argument member
is supplied, the substitution `y.cond.lhs = arg_member.name;
y.cond.clhs = arg_member.cname` permanently rewrites the member's
expression, and the rewritten member is what the model holds afterwards. -/
theorem C8_counterexample :
    (stream 2 envU blkSub ACTION_READ "" "x." "y." (some mNumWidgets) {}).2.1.members ≠
      blkSub.members ∧
    ((stream 2 envU blkSub ACTION_READ "" "x." "y." (some mNumWidgets) {}).2.1.members.map
        (fun m => m.cond)) =
      [.expr (.str "Num Widgets".data) [] (.str []) (some "numWidgets".data)] := by
  constructor
  · decide
  · rfl

def mDataA3 : Member :=
  { name := "Data A", cname := "dataA", type_ := "uint", ctype := "unsigned int", arr1 := pOf "3" }

def mDataB4 : Member :=
  { name := "Data B", cname := "dataB", type_ := "uint", ctype := "unsigned int", arr1 := pOf "4" }

def blkTwoArrays : Compound := { name := "Foo", cname := "Foo", members := [mDataA3, mDataB4] }

/-- **C9 (counterexample)** — The emission counter does not track output
across the whole dump: `array_output_count = 0;` is emitted afresh at the
start of every array field (twice for a two-array type, the second time
after the first array's `array_output_count++;`), so exceeding the cap in
one array does not stop a later array from printing. -/
theorem C9_counterexample :
    (stream 2 envU blkTwoArrays ACTION_OUT "" "" "" none {}).1.out =
      ["array_output_count = 0;\n",
       "for (unsigned int i0 = 0; i0 < 3; i0++) \x7b\n",
       "\tif ( !verbose && ( array_output_count > MAXARRAYDUMP ) ) \x7b\n",
       "\t\tout << \"<Data Truncated. Use verbose mode to see complete listing.>\" << endl;\n",
       "\t\tbreak;\n",
       "\t\x7d;\n",
       "\tif ( !verbose && ( array_output_count > MAXARRAYDUMP ) ) \x7b\n",
       "\t\tbreak;\n",
       "\t\x7d;\n",
       "\tout << \"  Data A[\" << i0 << \"]:  \" << dataA[i0] << endl;\n",
       "\tarray_output_count++;\n",
       "\x7d;\n",
       "array_output_count = 0;\n",
       "for (unsigned int i0 = 0; i0 < 4; i0++) \x7b\n",
       "\tif ( !verbose && ( array_output_count > MAXARRAYDUMP ) ) \x7b\n",
       "\t\tout << \"<Data Truncated. Use verbose mode to see complete listing.>\" << endl;\n",
       "\t\tbreak;\n",
       "\t\x7d;\n",
       "\tif ( !verbose && ( array_output_count > MAXARRAYDUMP ) ) \x7b\n",
       "\t\tbreak;\n",
       "\t\x7d;\n",
       "\tout << \"  Data B[\" << i0 << \"]:  \" << dataB[i0] << endl;\n",
       "\tarray_output_count++;\n",
       "\x7d;\n"] ∧
    ((stream 2 envU blkTwoArrays ACTION_OUT "" "" "" none {}).1.out.countP
      (fun s => s = "array_output_count = 0;\n")) = 2 := by
  constructor <;> rfl

/-- **C9 (amended)** — In the code emitted for Describe, the emission
counter is re-initialised to zero at the start of every array field's
emission: (1) the counter reset is the first line the array loop opening
writes; (2) for any non-duplicate array member (whose length is not the
substituted `ARG`), the member's whole emitted chunk consists of the
condition-transition lines, then the counter reset, then the rest. The
fixed display cap therefore bounds each array's printed elements
separately, not the total across arrays. -/
theorem C9_theorem :
    (∀ (bn : List String) (strm : String) (y : Member) (y_pfx y_arr1_pfx : String)
      (c0 : CState),
      ∃ t, (arr1LoopOpen bn ACTION_OUT strm y y_pfx y_arr1_pfx c0).out =
        c0.out ++ cfChunk c0.indent "array_output_count = 0;" :: t) ∧
    (∀ (rec_ : StreamRec),
      (∀ e b act lp p ap am c, OutExt c (rec_ e b act lp p ap am c).1) →
      ∀ (envIn : Env) (strm localpfx pfx argpfx : String) (argMember : Option Member)
        (blk : Compound) (stIn : LoopSt) (yIn : Member),
        yIn.is_duplicate = false → lhsEq yIn.arr1 "ARG" = false →
        yIn.arr1.lhs.truthy = true →
        ∃ pre ind t,
          (streamMember rec_ envIn ACTION_OUT strm localpfx pfx argpfx argMember blk stIn
            yIn).st.cst.out =
          stIn.cst.out ++ (pre ++ cfChunk ind "array_output_count = 0;" :: t)) :=
  ⟨arr1LoopOpen_out_reset, streamMember_out_array_reset⟩

/-- **C9 (witness)** — the amended theorem at concrete inputs: the array
member `mDataA3` re-initialises the counter at the head of its loop
opening and of its Describe chunk. -/
theorem C9_witness :
    (mDataA3.is_duplicate = false ∧ lhsEq mDataA3.arr1 "ARG" = false ∧
     mDataA3.arr1.lhs.truthy = true) ∧
    (∃ t, (arr1LoopOpen envU.blockNames ACTION_OUT "out" mDataA3 "" "" {}).out =
      ({} : CState).out ++
        cfChunk ({} : CState).indent "array_output_count = 0;" :: t) ∧
    (∃ pre ind t,
      (streamMember (fun _ b _ _ _ _ _ c => (c, b, envU, 0)) envU ACTION_OUT "out" "" "" ""
        none blkTwoArrays {} mDataA3).st.cst.out =
      ({} : LoopSt).cst.out ++ (pre ++ cfChunk ind "array_output_count = 0;" :: t)) :=
  ⟨by decide,
   C9_theorem.1 envU.blockNames "out" mDataA3 "" "" {},
   C9_theorem.2 (fun _ b _ _ _ _ _ c => (c, b, envU, 0))
     (fun _ _ _ _ _ _ _ c => OutExt_refl c) envU "out" "" "" "" none blkTwoArrays {} mDataA3
     (by decide) (by decide) (by decide)⟩

/-- **C1 (counterexample)** — Fields alternating between the tuple
`(ver1 = 0x04000002)` and the all-absent tuple form two maximal runs, but
only one version guard is opened: a run with no version metadata renders
an empty guard expression and opens nothing, so the guard count is not
the run count. -/
theorem C1_counterexample :
    (stream 2 envU blkV1 ACTION_READ "" "" "" none {}).2.2.2 = 1 ∧
    runCount (blkV1.members.map (verTuple envU.blockNames)) = 2 := by
  constructor <;> rfl

/-- **C1 (amended)** — For Read and Write (and for FixLinks when every
field's type is a basic type carrying reference semantics, so no field is
skipped), the number of version guards opened by the field loop of one
`stream` call equals the number of maximal runs of consecutive fields
with identical version tuples whose conjoined version-guard expression is
non-empty; in particular a run whose fields carry no version metadata at
all renders the empty expression and opens no guard. -/
theorem C1_theorem (fuelM : Nat) (env : Env) (blk : Compound) (action : Nat)
    (localpfx pfx argpfx : String) (argMember : Option Member) (cst : CState)
    (hact : action = ACTION_READ ∨ action = ACTION_WRITE ∨ action = ACTION_FIXLINKS)
    (hfix : action = ACTION_FIXLINKS → ∀ y ∈ blk.members,
      ∃ i, alookup env.basics y.type_ = some i ∧
        (i.has_links = true ∨ i.has_crossrefs = true)) :
    (stream (fuelM + 1) env blk action localpfx pfx argpfx argMember cst).2.2.2 =
      runCountPAux (fun t => decide (vtupleVerexpr t ≠ "")) none
        (blk.members.map (verTuple env.blockNames)) := by
  unfold stream
  dsimp only
  exact streamMembers_opens _
    (fun e b a lp px ap am c => stream_shape fuelM e b a lp px ap am c)
    action _ localpfx pfx argpfx argMember blk env.blockNames env.basics hact blk.members
    _ env none rfl rfl rfl hfix

/-- A plain count field (no compute function, not calculated) recorded as
the arr1 size of the later `Data` array. -/
def mNumPlain : Member :=
  { name := "Num Data", cname := "numData", type_ := "uint", ctype := "unsigned int",
    arr1_ref := ["Data"] }

def blkPlainCount : Compound := { name := "Bar", cname := "Bar", members := [mNumPlain, mData] }

/-- **C3 (amended)** — For a scalar count field recorded as the unmasked
arr1 size of a later sibling array (arr1_ref non-empty, not an array, not
a duplicate, not manually updated) that additionally has no compute
function and is not flagged calculated: (1) the pre-pass emits nothing
for Read; (2) the Write pre-pass assigns the count from the array's
`size()` (before any field is written, since the pre-pass runs first);
(3) the emitted Read logic resizes the array to the rendered live value
of its length expression immediately before the element loop. -/
theorem C3_theorem :
    (∀ (env : Env) (blk : Compound) (pfx : String) (cst : CState),
      prePass env blk ACTION_READ pfx cst = cst) ∧
    (∀ (env : Env) (blk : Compound) (pfx : String) (cst : CState) (y cref : Member),
      y ∈ blk.members → y.is_duplicate = false → y.is_manual_update = false →
      y.func = "" → y.is_calculated = false → y.arr1_ref ≠ [] →
      y.arr1.lhs.truthy = false →
      findMember env (env.blocks.length + 1) blk (y.arr1_ref.headD "") true = some cref →
      ∃ s, s ∈ (prePass env blk ACTION_WRITE pfx cst).out ∧
        ∃ ind, s = cfChunk ind (pfx ++ y.cname ++ " = (" ++ y.ctype ++ ")(" ++ pfx ++
          cref.cname ++ ".size());")) ∧
    (∀ (bn : List String) (strm : String) (y : Member) (y_pfx y_arr1_pfx : String)
      (c0 : CState), y.arr1.lhs.isdigit = false →
      ∃ ind2, (arr1LoopOpen bn ACTION_READ strm y y_pfx y_arr1_pfx c0).out =
        c0.out ++
          [cfChunk c0.indent (y_pfx ++ y.cname ++ ".resize(" ++
             String.mk (exprCode bn y.arr1 y_arr1_pfx.data) ++ ");"),
           cfChunk ind2 ("for (unsigned int i" ++ iS ind2 ++ " = 0; i" ++ iS ind2 ++
             " < " ++ y_pfx ++ y.cname ++ ".size(); i" ++ iS ind2 ++ "++) " ++ lcubS)]) :=
  ⟨prePass_read,
   fun env blk pfx cst y cref hy h1 h2 h3 h4 h5 h6 h7 =>
     prePass_write_size env blk pfx cst y cref hy h1 h2 h3 h4 h5 h6 h7,
   fun bn strm y y_pfx y_arr1_pfx c0 hdig =>
     arr1LoopOpen_read_resize bn strm y y_pfx y_arr1_pfx c0 hdig⟩

/-- **C3 (witness)** — the amended theorem at a concrete input: the plain
count/array pair `Bar`; the Read pre-pass leaves the state unchanged, the
Write pre-pass emits exactly the `size()` assignment, and the Read loop
opening emits the `resize` line directly before the `for` line. -/
theorem C3_witness :
    (mNumPlain ∈ blkPlainCount.members ∧ mNumPlain.is_duplicate = false ∧
     mNumPlain.is_manual_update = false ∧ mNumPlain.func = "" ∧
     mNumPlain.is_calculated = false ∧ mNumPlain.arr1_ref ≠ [] ∧
     mNumPlain.arr1.lhs.truthy = false ∧
     findMember envU (envU.blocks.length + 1) blkPlainCount
       (mNumPlain.arr1_ref.headD "") true = some mData ∧
     mData.arr1.lhs.isdigit = false) ∧
    prePass envU blkPlainCount ACTION_READ "" {} = {} ∧
    (∃ s, s ∈ (prePass envU blkPlainCount ACTION_WRITE "" {}).out ∧
      ∃ ind, s = cfChunk ind ("" ++ mNumPlain.cname ++ " = (" ++ mNumPlain.ctype ++
        ")(" ++ "" ++ mData.cname ++ ".size());")) ∧
    (∃ ind2, (arr1LoopOpen envU.blockNames ACTION_READ "in" mData "" "" {}).out =
      ({} : CState).out ++
        [cfChunk ({} : CState).indent ("" ++ mData.cname ++ ".resize(" ++
           String.mk (exprCode envU.blockNames mData.arr1 "".data) ++ ");"),
         cfChunk ind2 ("for (unsigned int i" ++ iS ind2 ++ " = 0; i" ++ iS ind2 ++
           " < " ++ "" ++ mData.cname ++ ".size(); i" ++ iS ind2 ++ "++) " ++ lcubS)]) :=
  ⟨by decide,
   C3_theorem.1 envU blkPlainCount "" {},
   C3_theorem.2.1 envU blkPlainCount "" {} mNumPlain mData (by decide) (by decide) (by decide)
     (by decide) (by decide) (by decide) (by decide) (by decide),
   C3_theorem.2.2 envU.blockNames "in" mData "" "" {} (by decide)⟩

/-- **C8 (amended)** — (1) one `stream` call restores the member list
order (the pre-pass reverse is undone: the name sequence is unchanged);
(2) provided no member of the streamed type or of any registered compound
uses the reserved `ARG` reference (and the compound registry is uniquely
keyed), the call returns the block and the registry unchanged, for every
action; (3) but when a member's arr1/arr2/cond expression uses `ARG` and
an argument member is supplied, the expression's left-hand side is
permanently replaced by the argument member's name (and `clhs` set), and
this mutation survives the member step. -/
theorem C8_theorem :
    (∀ (fuelM : Nat) (env : Env) (blk : Compound) (action : Nat)
      (localpfx pfx argpfx : String) (argMember : Option Member) (cst : CState),
      (stream (fuelM + 1) env blk action localpfx pfx argpfx argMember
        cst).2.1.members.map (fun m => m.name) = blk.members.map (fun m => m.name)) ∧
    (∀ (fuelN : Nat) (env : Env) (blk : Compound) (action : Nat)
      (localpfx pfx argpfx : String) (argMember : Option Member) (cst : CState),
      (∀ y ∈ blk.members, NoArgM y) →
      (∀ q ∈ env.compounds, ∀ y ∈ q.2.members, NoArgM y) →
      (env.compounds.map Prod.fst).Nodup →
      (stream fuelN env blk action localpfx pfx argpfx argMember cst).2.1 = blk ∧
      (stream fuelN env blk action localpfx pfx argpfx argMember cst).2.2.1 = env) ∧
    (∀ (rec_ : StreamRec) (envIn : Env) (action : Nat)
      (strm localpfx pfx argpfx : String) (am : Member) (blk : Compound)
      (stIn : LoopSt) (yIn : Member),
      action = ACTION_READ ∨ action = ACTION_WRITE →
      (lhsEq yIn.arr1 "ARG" = true →
        (streamMember rec_ envIn action strm localpfx pfx argpfx (some am) blk stIn
          yIn).y.arr1 = setLhsClhs yIn.arr1 am.name am.cname) ∧
      (lhsEq yIn.arr2 "ARG" = true →
        (streamMember rec_ envIn action strm localpfx pfx argpfx (some am) blk stIn
          yIn).y.arr2 = setLhsClhs yIn.arr2 am.name am.cname) ∧
      (lhsEq yIn.cond "ARG" = true →
        (streamMember rec_ envIn action strm localpfx pfx argpfx (some am) blk stIn
          yIn).y.cond = setLhsClhs yIn.cond am.name am.cname)) :=
  ⟨stream_names,
   fun fuelN env blk action localpfx pfx argpfx argMember cst hb hc hn =>
     stream_noArg fuelN env blk action localpfx pfx argpfx argMember cst hb hc hn,
   streamMember_argSub⟩

/-- **C8 (witness)** — the amended theorem at concrete inputs: the
`ARG`-free type `Bar` passes through Read untouched, the member-name
order of `Sub` is restored, and the `ARG` condition of `mWidget` is
permanently rewritten to `numWidgets`. -/
theorem C8_witness :
    ((stream 1 envU blkSub ACTION_READ "" "x." "y." (some mNumWidgets) {}).2.1.members.map
        (fun m => m.name) = blkSub.members.map (fun m => m.name)) ∧
    ((∀ y ∈ blkPlainCount.members, NoArgM y) ∧
     (stream 2 envU blkPlainCount ACTION_READ "" "" "" none {}).2.1 = blkPlainCount ∧
     (stream 2 envU blkPlainCount ACTION_READ "" "" "" none {}).2.2.1 = envU) ∧
    (lhsEq mWidget.cond "ARG" = true ∧
     (streamMember (fun _ b _ _ _ _ _ c => (c, b, envU, 0)) envU ACTION_READ "in" "" "x."
       "y." (some mNumWidgets) blkSub {} mWidget).y.cond =
       setLhsClhs mWidget.cond mNumWidgets.name mNumWidgets.cname) :=
  by
  have hb : ∀ y ∈ blkPlainCount.members, NoArgM y := by
    intro y hy
    have h2 : y = mNumPlain ∨ y = mData := by simpa [blkPlainCount] using hy
    rcases h2 with rfl | rfl
    · exact ⟨rfl, rfl, rfl⟩
    · exact ⟨rfl, rfl, rfl⟩
  have hc : ∀ q ∈ envU.compounds, ∀ y ∈ q.2.members, NoArgM y := by
    intro q hq
    simp [envU] at hq
  have hn : (envU.compounds.map Prod.fst).Nodup := by simp [envU]
  obtain ⟨hA, hB⟩ := C8_theorem.2.1 2 envU blkPlainCount ACTION_READ "" "" "" none {} hb hc hn
  exact ⟨C8_theorem.1 0 envU blkSub ACTION_READ "" "x." "y." (some mNumWidgets) {},
    ⟨hb, hA, hB⟩,
    rfl,
    (C8_theorem.2.2 (fun _ b _ _ _ _ _ c => (c, b, envU, 0)) envU ACTION_READ "in" "" "x."
      "y." mNumWidgets blkSub {} mWidget (Or.inl rfl)).2.2 rfl⟩

/-- **C1 (witness)** — the amended theorem at a concrete input: under the
Read action, `blkV1`'s two runs (one versioned, one metadata-free) yield
exactly one guard, and the run count with the non-empty-expression filter
agrees. -/
theorem C1_witness :
    (ACTION_READ = ACTION_READ ∨ ACTION_READ = ACTION_WRITE ∨
      ACTION_READ = ACTION_FIXLINKS) ∧
    ((stream 1 envU blkV1 ACTION_READ "" "" "" none {}).2.2.2 =
      runCountPAux (fun t => decide (vtupleVerexpr t ≠ "")) none
        (blkV1.members.map (verTuple envU.blockNames)) ∧
     (stream 1 envU blkV1 ACTION_READ "" "" "" none {}).2.2.2 = 1) :=
  ⟨Or.inl rfl,
    C1_theorem 0 envU blkV1 ACTION_READ "" "" "" none {} (Or.inl rfl)
      (fun h => absurd h (by decide)),
    by rfl⟩


/-- C7: for every expression string with unbalanced brackets whose
whitespace is plain spaces, constructing the `Expression` never returns a
parse result: it aborts with a fatal error — the expression-syntax
`ValueError`, or the uncaught `AssertionError` of `version2number`'s
`assert False` when a side parsed on the way is a dotted numeric literal
of more than four parts. (A non-space whitespace character before a
leading `!` instead makes the constructor recurse forever, a Python
`RecursionError`, modelled as fuel exhaustion.) -/
theorem C7_theorem (nf : Nifxml.NameFilter) (s : String)
    (hsp : ∀ c ∈ s.data, c.isWhitespace = true → c = ' ')
    (hub : ¬Nifxml.Balanced s.data) :
    ∃ e, Nifxml.parseExpr nf s = .error e ∧
      (e = .assertFail ∨ ∃ msg, e = .syn msg) := by
  obtain ⟨d⟩ := s
  exact Nifxml.parseExprGo_unbal _ nf d (by simp [String.length]) hsp hub

theorem C7_witness :
    ((∀ c ∈ ("(a".data), c.isWhitespace = true → c = ' ') ∧
      ¬Nifxml.Balanced ("(a".data) ∧
      (∃ e, Nifxml.parseExpr none "(a" = .error e ∧
        (e = .assertFail ∨ ∃ msg, e = .syn msg))) ∧
    Nifxml.parseExpr none "(a" =
      .error (.syn "expression syntax error (non-matching brackets?)") :=
  ⟨⟨by decide, by decide, C7_theorem none ("(a") (by decide) (by decide)⟩, by rfl⟩

theorem C7_counterexample :
    (¬Nifxml.Balanced ("\t!(a".data) ∧
      (∃ c ∈ ("\t!(a".data), c.isWhitespace = true ∧ c ≠ ' ') ∧
      Nifxml.parseExpr none "\t!(a" = .error .fuel) ∧
    (¬Nifxml.Balanced ("1.2.3.4.5 && x)".data) ∧
      (∀ c ∈ ("1.2.3.4.5 && x)".data), c.isWhitespace = true → c = ' ') ∧
      Nifxml.parseExpr none "1.2.3.4.5 && x)" = .error .assertFail) :=
  ⟨⟨by decide, ⟨'\t', by decide⟩, by rfl⟩, ⟨by decide, by decide, by rfl⟩⟩

end Claims
